import Mathlib

/-!
# Verification of the transcript-normalization engine of the Digital Ocean AI proxy

This file is a shallow embedding of `normalizeChatCompletionsMessages` and its
helpers (`normalizeToolCalls`, `processUserContent`, `processAssistantContent`,
`processToolContent`, `ensureNonEmpty`, `toNonEmptyString`, `convertImageBlock`,
`normalizeOpenAIChatCompletionsBody`) from `index.ts` of the proxy.

Modelling choices:
* Dynamic JavaScript values (message objects, content blocks, tool-call
  entries) are modelled by the inductive type `JVal`; `undefined` and `null`
  are conflated into `JVal.null` (the source only distinguishes them through
  `== null` and `??`, which treat them alike).
* `JSON.stringify` / `JSON.parse`-validity are modelled executably by
  `jsonStringify` and `jsonValid` (a recursive-descent JSON syntax checker).
* JavaScript's `String.prototype.trim` is modelled by `jsTrim` over the
  character list (whitespace = space, tab, newline, carriage return).
* The synthesized tool-call ids `` tc_<Date.now()>_<Math.random()...> ``
  are modelled by an oracle `fresh : Nat → String`: the n-th draw produces
  `"tc_" ++ fresh n`.  Two executions of the program correspond to two
  (generally different) oracles.
* Output messages are modelled by `NMsg`; the source builds fresh literal
  objects for its output, so the output fields carry their actual types
  (the source's dead defensive branches for impossible field types in its
  own output are noted where they occur).
-/

namespace DOProxy

/-- A dynamic JavaScript value (the fragment the normalizer inspects).
`null` stands for both `null` and `undefined`. -/
inductive JVal where
  | null : JVal
  | bool (b : Bool) : JVal
  | str (s : String) : JVal
  | arr (xs : List JVal) : JVal
  | obj (kvs : List (String × JVal)) : JVal
deriving Repr, Inhabited

namespace JVal

/-- Boolean equality on dynamic values (needed because the nested inductive
does not support derived decidable equality). -/
def beq : JVal → JVal → Bool
  | .null, .null => true
  | .bool a, .bool b => a == b
  | .str a, .str b => a == b
  | .arr xs, .arr ys => beqL xs ys
  | .obj xs, .obj ys => beqKV xs ys
  | _, _ => false
where
  beqL : List JVal → List JVal → Bool
    | [], [] => true
    | x :: xs, y :: ys => beq x y && beqL xs ys
    | _, _ => false
  beqKV : List (String × JVal) → List (String × JVal) → Bool
    | [], [] => true
    | (k1, v1) :: xs, (k2, v2) :: ys => k1 == k2 && beq v1 v2 && beqKV xs ys
    | _, _ => false

theorem eq_of_beq : ∀ {a b : JVal}, beq a b = true → a = b
  | .null, .null, _ => rfl
  | .bool a, .bool b, h => by simpa [beq] using h
  | .str a, .str b, h => by simpa [beq] using h
  | .arr xs, .arr ys, h => by
      have : xs = ys := eqL_of_beqL (by simpa [beq] using h)
      rw [this]
  | .obj xs, .obj ys, h => by
      have : xs = ys := eqKV_of_beqKV (by simpa [beq] using h)
      rw [this]
where
  eqL_of_beqL : ∀ {xs ys : List JVal}, beq.beqL xs ys = true → xs = ys
    | [], [], _ => rfl
    | x :: xs, y :: ys, h => by
        have h' := h
        unfold beq.beqL at h'
        rw [Bool.and_eq_true] at h'
        have h1 : x = y := eq_of_beq h'.1
        have h2 : xs = ys := eqL_of_beqL h'.2
        rw [h1, h2]
  eqKV_of_beqKV : ∀ {xs ys : List (String × JVal)}, beq.beqKV xs ys = true → xs = ys
    | [], [], _ => rfl
    | (k1, v1) :: xs, (k2, v2) :: ys, h => by
        have h' := h
        unfold beq.beqKV at h'
        rw [Bool.and_eq_true, Bool.and_eq_true] at h'
        have hk : k1 = k2 := by have := h'.1.1; simpa using this
        have hv : v1 = v2 := eq_of_beq h'.1.2
        have ht : xs = ys := eqKV_of_beqKV h'.2
        rw [hk, hv, ht]

theorem beq_refl : ∀ a : JVal, beq a a = true
  | .null => rfl
  | .bool a => by simp [beq]
  | .str a => by simp [beq]
  | .arr xs => by
      have : beq.beqL xs xs = true := beqL_refl xs
      simpa [beq] using this
  | .obj xs => by
      have : beq.beqKV xs xs = true := beqKV_refl xs
      simpa [beq] using this
where
  beqL_refl : ∀ xs : List JVal, beq.beqL xs xs = true
    | [] => rfl
    | x :: xs => by
        unfold beq.beqL
        rw [Bool.and_eq_true]
        exact ⟨beq_refl x, beqL_refl xs⟩
  beqKV_refl : ∀ xs : List (String × JVal), beq.beqKV xs xs = true
    | [] => rfl
    | (k, v) :: xs => by
        unfold beq.beqKV
        rw [Bool.and_eq_true, Bool.and_eq_true]
        exact ⟨⟨by simp, beq_refl v⟩, beqKV_refl xs⟩

instance : DecidableEq JVal := fun a b =>
  decidable_of_iff (beq a b = true)
    ⟨fun h => eq_of_beq h, fun h => h ▸ beq_refl a⟩

/-- Property lookup `v[k]` (only objects have properties; `undefined` ↦ `none`). -/
def get : JVal → String → Option JVal
  | .obj kvs, k => (kvs.find? (fun p => p.1 == k)).map (fun p => p.2)
  | _, _ => none

/-- JavaScript truthiness of a value. -/
def truthy : JVal → Bool
  | .null => false
  | .bool b => b
  | .str s => !(s == "")
  | .arr _ => true
  | .obj _ => true

/-- `v && typeof v === "object"`: a non-null object or an array. -/
def isObjLike : JVal → Bool
  | .arr _ => true
  | .obj _ => true
  | _ => false

/-- `Array.isArray v`. -/
def isArr : JVal → Bool
  | .arr _ => true
  | _ => false

/-- `typeof v === "string"` with the string itself. -/
def asString : JVal → Option String
  | .str s => some s
  | .null => none
  | .bool _ => none
  | .arr _ => none
  | .obj _ => none

end JVal

/-- The string value of an optional field, when it is a string. -/
def asStr : Option JVal → Option String
  | some v => v.asString
  | none => none

/-- The array value of an optional field, when it is an array. -/
def asArr : Option JVal → Option (List JVal)
  | some (.arr xs) => some xs
  | some .null => none
  | some (.bool _) => none
  | some (.str _) => none
  | some (.obj _) => none
  | none => none

/-- Optional chaining `v.k1?.k2` as used for `tc.function?.name`. -/
def jGet2 (v : JVal) (k1 k2 : String) : Option JVal :=
  match v.get k1 with
  | some w => w.get k2
  | none => none

/-- `a ?? b` for an optional field read: `null`/missing falls through. -/
def jCoalesce (a : Option JVal) (b : JVal) : JVal :=
  match a with
  | some v => if v == .null then b else v
  | none => b

/-- `a || b` (first operand returned when truthy). -/
def jOr (a b : JVal) : JVal := if a.truthy then a else b

/-- Whitespace for the purposes of `trim()` and of JSON. -/
def isWs (c : Char) : Bool := c == ' ' || c == '\t' || c == '\n' || c == '\r'

/-- `trim()` on a character list. -/
def trimList (l : List Char) : List Char :=
  ((l.dropWhile isWs).reverse.dropWhile isWs).reverse

/-- `s.trim()`. -/
def jsTrim (s : String) : String := ⟨trimList s.data⟩

/-- `s.trim().length === 0`: the string is empty or all-whitespace. -/
def jsBlank (s : String) : Bool := s.data.all isWs

theorem all_dropWhile_isWs (l : List Char) :
    (l.dropWhile isWs).all isWs = l.all isWs := by
  induction l with
  | nil => rfl
  | cons c cs ih =>
    by_cases h : isWs c
    · simp [List.dropWhile, h, ih]
    · simp [List.dropWhile, h]

theorem trimList_nil_iff (l : List Char) : trimList l = [] ↔ l.all isWs = true := by
  unfold trimList
  rw [List.reverse_eq_nil_iff, List.dropWhile_eq_nil_iff]
  constructor
  · intro h
    rw [← all_dropWhile_isWs l]
    rw [List.all_eq_true]
    intro x hx
    exact h x (by simpa using hx)
  · intro h x hx
    have h' : (l.dropWhile isWs).all isWs = true := by rw [all_dropWhile_isWs]; exact h
    rw [List.all_eq_true] at h'
    exact h' x (by simpa using hx)

theorem jsTrim_eq_empty_iff (s : String) : jsTrim s = "" ↔ jsBlank s = true := by
  unfold jsTrim jsBlank
  constructor
  · intro h
    have : trimList s.data = ([] : List Char) := congrArg String.data h
    exact (trimList_nil_iff _).mp this
  · intro h
    have : trimList s.data = [] := (trimList_nil_iff _).mpr h
    rw [this]

theorem dropWhile_idem (p : Char → Bool) (l : List Char) :
    (l.dropWhile p).dropWhile p = l.dropWhile p := by
  induction l with
  | nil => rfl
  | cons c cs ih =>
    by_cases h : p c
    · simp [List.dropWhile, h, ih]
    · simp [List.dropWhile, h]

theorem head_dropWhile_not (p : Char → Bool) (l : List Char) {x : Char} {xs : List Char}
    (h : l.dropWhile p = x :: xs) : p x = false := by
  induction l with
  | nil => simp [List.dropWhile] at h
  | cons c cs ih =>
    by_cases hc : p c
    · rw [List.dropWhile_cons_of_pos hc] at h
      exact ih h
    · rw [List.dropWhile_cons_of_neg hc] at h
      cases h
      simpa using hc

theorem trimList_idem (l : List Char) : trimList (trimList l) = trimList l := by
  have front_fix : (trimList l).dropWhile isWs = trimList l := by
    unfold trimList
    cases hA : l.dropWhile isWs with
    | nil => simp
    | cons c cs =>
      have hc : isWs c = false := head_dropWhile_not _ _ hA
      cases hB : ((c :: cs).reverse.dropWhile isWs).reverse with
      | nil => simp [hB]
      | cons d ds =>
        -- the back-trimmed list is a prefix of `c :: cs`, so its head is `c`
        have hpre : ((c :: cs).reverse.dropWhile isWs).reverse <+: c :: cs := by
          have hsuf : (c :: cs).reverse.dropWhile isWs <:+ (c :: cs).reverse :=
            List.dropWhile_suffix _
          have := List.reverse_prefix.mpr (by simpa using hsuf)
          simpa using this
      -- from the prefix relation, d = c
        rw [hB] at hpre
        obtain ⟨t, ht⟩ := hpre
        have hd : d = c := by
          have := congrArg (fun m => m.head?) ht
          simpa using this
        rw [hd, List.dropWhile_cons_of_neg (by simp [hc])]
  show (((trimList l).dropWhile isWs).reverse.dropWhile isWs).reverse = trimList l
  rw [front_fix]
  show (((((l.dropWhile isWs).reverse.dropWhile isWs).reverse).reverse).dropWhile isWs).reverse
      = trimList l
  rw [List.reverse_reverse, dropWhile_idem]
  rfl

theorem jsTrim_idem (s : String) : jsTrim (jsTrim s) = jsTrim s := by
  unfold jsTrim
  simp [trimList_idem]

/-! ## `JSON.stringify` and `JSON.parse`-validity

`normalizeToolCalls` serializes object-valued `arguments` with
`JSON.stringify` and validates string arguments with a `try JSON.parse`
round-trip.  Both are modelled executably: `jsonStringify` emits canonical
JSON text and `jsonValid` is a recursive-descent syntax checker.  (The checker
accepts standard JSON; as a modelling simplification it does not reject
numbers with leading zeros.) -/

/-- Hexadecimal digit character for `n < 16`. -/
def hexDig (n : Nat) : Char :=
  if n < 10 then Char.ofNat ('0'.toNat + n) else Char.ofNat ('a'.toNat + n - 10)

/-- JSON string-escaping of one character (control characters via `\u00XX`). -/
def escChar (c : Char) : List Char :=
  if c = '"' then ['\\', '"']
  else if c = '\\' then ['\\', '\\']
  else if c.toNat < 32 then ['\\', 'u', '0', '0', hexDig (c.toNat / 16), hexDig (c.toNat % 16)]
  else [c]

/-- JSON string literal for `s`, quotes included. -/
def escString (s : String) : List Char :=
  '"' :: (s.data.map escChar).flatten ++ ['"']

mutual

/-- Characters of `JSON.stringify v`. -/
def stringifyChars : JVal → List Char
  | .null => "null".data
  | .bool true => "true".data
  | .bool false => "false".data
  | .str s => escString s
  | .arr [] => ['[', ']']
  | .arr (x :: xs) => '[' :: stringifyItems x xs ++ [']']
  | .obj [] => ['\x7b', '\x7d']
  | .obj (kv :: kvs) => '\x7b' :: stringifyFields kv kvs ++ ['\x7d']
termination_by v => sizeOf v
decreasing_by all_goals (simp_wf; try omega)

/-- Comma-separated serialization of a non-empty array body. -/
def stringifyItems : JVal → List JVal → List Char
  | x, [] => stringifyChars x
  | x, y :: xs => stringifyChars x ++ ',' :: stringifyItems y xs
termination_by x xs => sizeOf x + sizeOf xs
decreasing_by all_goals (simp_wf; try omega)

/-- Comma-separated serialization of a non-empty object body. -/
def stringifyFields : String × JVal → List (String × JVal) → List Char
  | (k, v), [] => escString k ++ ':' :: stringifyChars v
  | (k, v), f :: fs => escString k ++ ':' :: stringifyChars v ++ ',' :: stringifyFields f fs
termination_by kv kvs => sizeOf kv + sizeOf kvs
decreasing_by all_goals (simp_wf; try omega)

end

/-- `JSON.stringify v` as a string. -/
def jsonStringify (v : JVal) : String := ⟨stringifyChars v⟩

/-- Drop leading JSON whitespace. -/
def skipWs (l : List Char) : List Char := l.dropWhile isWs

def isHexDig (c : Char) : Bool :=
  c.isDigit || ('a' ≤ c && c ≤ 'f') || ('A' ≤ c && c ≤ 'F')

/-- Parse the body of a JSON string literal (the opening quote is consumed);
fuel-bounded (one unit per source character suffices). -/
def pStringF : Nat → List Char → Option (List Char)
  | 0, _ => none
  | _ + 1, [] => none
  | f + 1, c :: r =>
    if c = '"' then some r
    else if c = '\\' then
      match r with
      | [] => none
      | e :: r1 =>
        if e = '"' || e = '\\' || e = '/' || e = 'b' || e = 'f' || e = 'n' || e = 'r' || e = 't'
          then pStringF f r1
        else if e = 'u' then
          match r1 with
          | a :: b :: c2 :: d :: r2 =>
            if isHexDig a && isHexDig b && isHexDig c2 && isHexDig d then pStringF f r2 else none
          | _ => none
        else none
    else if c.toNat < 32 then none
    else pStringF f r

/-- Consume an exact literal (used for `null`, `true`, `false`). -/
def pLit : List Char → List Char → Option (List Char)
  | [], r => some r
  | c :: cs, d :: r => if c = d then pLit cs r else none
  | _ :: _, [] => none

/-- One-or-more digits, greedily. -/
def pDigits : List Char → Option (List Char)
  | c :: r => if c.isDigit then some (r.dropWhile Char.isDigit) else none
  | [] => none

/-- Optional fraction part. -/
def pFrac : List Char → Option (List Char)
  | '.' :: r => pDigits r
  | l => some l

/-- Optional exponent part. -/
def pExp : List Char → Option (List Char)
  | c :: r =>
    if c = 'e' || c = 'E' then
      match r with
      | s :: r1 => if s = '+' || s = '-' then pDigits r1 else pDigits r
      | [] => none
    else some (c :: r)
  | [] => some []

/-- JSON number. -/
def pNumber (l : List Char) : Option (List Char) :=
  let l1 := match l with
    | '-' :: r => r
    | _ => l
  match pDigits l1 with
  | some r => match pFrac r with
    | some r1 => pExp r1
    | none => none
  | none => none

/-- Parser state: a value, the items of an array, or the members of an
object. -/
inductive PMode where
  | val : PMode
  | items : PMode
  | members : PMode
deriving Repr, DecidableEq

/-- The recursive-descent JSON parser, fuel-bounded.  In `val` mode one value
is parsed (no leading whitespace); `items`/`members` parse array/object
bodies and consume the closing bracket/brace. -/
def pRun : Nat → PMode → List Char → Option (List Char)
  | 0, _, _ => none
  | _ + 1, .val, [] => none
  | f + 1, .val, c :: r =>
    if c = '"' then pStringF (f + 1) r
    else if c = '\x7b' then
      match skipWs r with
      | d :: r2 => if d = '\x7d' then some r2 else pRun f .members (d :: r2)
      | [] => none
    else if c = '[' then
      match skipWs r with
      | d :: r2 => if d = ']' then some r2 else pRun f .items (d :: r2)
      | [] => none
    else if c = 'n' then pLit ['u', 'l', 'l'] r
    else if c = 't' then pLit ['r', 'u', 'e'] r
    else if c = 'f' then pLit ['a', 'l', 's', 'e'] r
    else pNumber (c :: r)
  | f + 1, .members, l =>
    match l with
    | c :: r =>
      if c = '"' then
        match pStringF (f + 1) r with
        | some r2 =>
          match skipWs r2 with
          | ':' :: r3 =>
            match pRun f .val (skipWs r3) with
            | some r4 =>
              match skipWs r4 with
              | ',' :: r5 => pRun f .members (skipWs r5)
              | '\x7d' :: r5 => some r5
              | _ => none
            | none => none
          | _ => none
        | none => none
      else none
    | [] => none
  | f + 1, .items, l =>
    match pRun f .val l with
    | some r =>
      match skipWs r with
      | ',' :: r2 => pRun f .items (skipWs r2)
      | ']' :: r2 => some r2
      | _ => none
    | none => none

/-- `JSON.parse(s)` succeeds (modulo the simplifications noted above). -/
def jsonValid (s : String) : Bool :=
  match pRun (2 * s.length + 2) .val (skipWs s.data) with
  | some r => (skipWs r).isEmpty
  | none => false

/-! ## Content helpers of `index.ts` -/

mutual

/-- `String(v)` for the values reachable here (`Array.prototype.toString`
joins elements with commas, rendering `null` elements as empty). -/
def jStringOf : JVal → String
  | .null => "null"
  | .bool true => "true"
  | .bool false => "false"
  | .str s => s
  | .arr [] => ""
  | .arr (x :: xs) => jStringArr x xs
  | .obj _ => "[object Object]"
termination_by v => sizeOf v
decreasing_by all_goals (simp_wf; try omega)

/-- Comma-join of array elements under `String(-)`. -/
def jStringArr : JVal → List JVal → String
  | .null, [] => ""
  | x, [] => jStringOf x
  | .null, y :: xs => "," ++ jStringArr y xs
  | x, y :: xs => jStringOf x ++ "," ++ jStringArr y xs
termination_by x xs => sizeOf x + sizeOf xs
decreasing_by all_goals (simp_wf; try omega)

end

/-- `ensureNonEmpty(s, fallback = ".")` from `index.ts`:
a non-blank string passes through, everything else becomes the fallback. -/
def ensureNonEmpty (v : JVal) (fallback : String) : String :=
  match v.asString with
  | some s => if !(jsBlank s) then s else fallback
  | none => fallback

/-- The per-block text extraction inside `toNonEmptyString`'s array branch. -/
def tnBlockText (b : JVal) : String :=
  match b.asString with
  | some s => s
  | none =>
    if b.get "type" == some (.str "text") then
      match asStr (b.get "text") with
      | some t => t
      | none => ""
    else ""

/-- `toNonEmptyString(content, fallback = ".")` from `index.ts`. -/
def toNonEmptyString (content : JVal) (fallback : String) : String :=
  match content with
  | .str s => if !(jsBlank s) then s else fallback
  | .null => fallback
  | .arr xs =>
    let text := jsTrim (String.join (xs.map tnBlockText))
    if !(text == "") then text else fallback
  | .bool b =>
    let str := jsTrim (jStringOf (.bool b))
    if !(str == "") then str else fallback
  | .obj kvs =>
    let str := jsTrim (jStringOf (.obj kvs))
    if !(str == "") then str else fallback

/-- Characters admitted in the image-subtype of a `data:` URI
(`[a-zA-Z0-9.+-]` in the source regex). -/
def isSubtypeChar (c : Char) : Bool := c.isAlphanum || c = '.' || c = '+' || c = '-'

/-- The regex test `/^data:(image\/[a-zA-Z0-9.+-]+);base64,/s.test(url)`. -/
def matchesDataImage (s : String) : Bool :=
  let l := s.data
  let pre := "data:image/".data
  if pre.isPrefixOf l then
    let rest := l.drop pre.length
    let sub := rest.takeWhile isSubtypeChar
    let rest2 := rest.dropWhile isSubtypeChar
    !sub.isEmpty && ";base64,".data.isPrefixOf rest2
  else false

/-- The accepted-url test of `convertImageBlock` (regex match first, then the
`http(s)` prefixes, as in the source). -/
def validImageUrl (u : String) : Bool :=
  matchesDataImage u || u.startsWith "http://" || u.startsWith "https://"

/-- The canonical text block `{ type: "text", text: t }` built by
`processUserContent`. -/
def textNorm (t : String) : JVal := .obj [("type", .str "text"), ("text", .str t)]

/-- The canonical image block `{ type: "image_url", image_url: { url } }`
built by `convertImageBlock`. -/
def imgNorm (u : String) : JVal :=
  .obj [("type", .str "image_url"), ("image_url", .obj [("url", .str u)])]

/-- The url extraction of `convertImageBlock`: a string `image_url`, or its
`url` member, or `""`. -/
def imageUrlOf (block : JVal) : String :=
  match block.get "image_url" with
  | none => ""
  | some u =>
    match u.asString with
    | some s => s
    | none =>
      match asStr (u.get "url") with
      | some s => s
      | none => ""

/-- `convertImageBlock(block)` from `index.ts`. -/
def convertImageBlock (block : JVal) : Option JVal :=
  if !block.truthy || !(block.get "type" == some (.str "image_url")) then none
  else
    let url := imageUrlOf block
    if url == "" then none
    else if validImageUrl url then some (imgNorm url)
    else none

/-- The block-scanning loop of `processUserContent`: collects trimmed text
parts, surviving image blocks, and the `hasImage` flag, in input order. -/
def puScan : List JVal → List String × List JVal × Bool
  | [] => ([], [], false)
  | b :: bs =>
    let r := puScan bs
    match b.asString with
    | some s => (if !(jsBlank s) then jsTrim s :: r.1 else r.1, r.2.1, r.2.2)
    | none =>
      if !b.isObjLike then r
      else if b.get "type" == some (.str "text") then
        match asStr (b.get "text") with
        | some t => if !(jsBlank t) then (jsTrim t :: r.1, r.2.1, r.2.2) else r
        | none => r
      else if b.get "type" == some (.str "image_url") then
        match convertImageBlock b with
        | some cb => (r.1, cb :: r.2.1, true)
        | none => r
      else if b.get "type" == some (.str "image") then (r.1, b :: r.2.1, true)
      else r

/-- `processUserContent(content)` from `index.ts`; the result is a string or a
block array (a leading text block followed by the image blocks). -/
def processUserContent (content : JVal) : JVal :=
  match content with
  | .str s => .str (ensureNonEmpty (.str s) ".")
  | .arr bs =>
    let scanned := puScan bs
    let text := jsTrim (String.intercalate "\n" scanned.1)
    if !scanned.2.2 then
      .str (if !(text == "") then text else ".")
    else
      .arr (textNorm (if !(text == "") then text else "See attached image:") :: scanned.2.1)
  | .null => .str (ensureNonEmpty (.str (toNonEmptyString .null ".")) ".")
  | .bool b => .str (ensureNonEmpty (.str (toNonEmptyString (.bool b) ".")) ".")
  | .obj kvs => .str (ensureNonEmpty (.str (toNonEmptyString (.obj kvs) ".")) ".")

/-- The text-collecting loop of `processAssistantContent` (text kept
untrimmed, joined with newlines). -/
def paScan : List JVal → List String
  | [] => []
  | b :: bs =>
    match b.asString with
    | some s => if !(jsBlank s) then s :: paScan bs else paScan bs
    | none =>
      if b.get "type" == some (.str "text") then
        match asStr (b.get "text") with
        | some t => if !(jsBlank t) then t :: paScan bs else paScan bs
        | none => paScan bs
      else paScan bs

/-- `processAssistantContent(content)` from `index.ts`: always a non-blank
string (`"..."` fallback). -/
def processAssistantContent (content : JVal) : String :=
  match content with
  | .str s => if !(jsBlank s) then s else "..."
  | .null => "..."
  | .arr bs =>
    let joined := jsTrim (String.intercalate "\n" (paScan bs))
    if !(joined == "") then joined else "..."
  | .bool b =>
    let str := jsTrim (jStringOf (.bool b))
    if !(str == "") then str else "..."
  | .obj kvs =>
    let str := jsTrim (jStringOf (.obj kvs))
    if !(str == "") then str else "..."

/-- `processToolContent(content)` from `index.ts`.  (`JSON.stringify` is total
on the modelled values, so the source's `catch` branch returning
`"(serialization error)"` is dead here.) -/
def processToolContent (content : JVal) : String :=
  match content with
  | .str s =>
    -- a blank string falls through to `String(content).trim()`, which is empty
    if !(jsBlank s) then s else "(empty output)"
  | .null => "(empty output)"
  | .arr xs =>
    let json := jsonStringify (.arr xs)
    if json.length > 2 then json else "(empty output)"
  | .obj kvs =>
    let json := jsonStringify (.obj kvs)
    if json.length > 2 then json else "(empty output)"
  | .bool b =>
    let str := jsTrim (jStringOf (.bool b))
    if !(str == "") then str else "(empty output)"

/-! ## `normalizeToolCalls` -/

/-- A normalized tool call `{ id, type: "function", function: { name,
arguments } }`; the constant `type` field is implicit. -/
structure ToolCall where
  id : String
  name : JVal
  args : String
deriving Repr, DecidableEq

/-- The id of a normalized call: the entry id when it is a non-empty string,
otherwise a fresh synthetic id (`fresh` models `Date.now()`/`Math.random()`;
the n-th draw yields `"tc_" ++ fresh n`); the counter advances on a draw. -/
def ntcId (tc : JVal) (fresh : Nat → String) (ctr : Nat) : String × Nat :=
  match asStr (tc.get "id") with
  | some s => if !(s == "") then (s, ctr) else ("tc_" ++ fresh ctr, ctr + 1)
  | none => ("tc_" ++ fresh ctr, ctr + 1)

/-- `tc.function?.name || tc.name || "unknown_tool"`. -/
def ntcName (tc : JVal) : JVal :=
  jOr ((jGet2 tc "function" "name").getD .null)
    (jOr ((tc.get "name").getD .null) (.str "unknown_tool"))

/-- `tc.function?.arguments ?? tc.arguments ?? "{}"`. -/
def ntcArgsA (tc : JVal) : JVal :=
  jCoalesce (jGet2 tc "function" "arguments")
    (jCoalesce (tc.get "arguments") (.str "\x7b\x7d"))

/-- Object arguments are serialized with `JSON.stringify`. -/
def ntcArgsB (tc : JVal) : JVal :=
  if (ntcArgsA tc).isObjLike then JVal.str (jsonStringify (ntcArgsA tc)) else ntcArgsA tc

/-- Non-strings and blank strings fall back to the empty object literal. -/
def ntcArgsC (tc : JVal) : String :=
  match (ntcArgsB tc).asString with
  | some s => if !(jsBlank s) then s else "\x7b\x7d"
  | none => "\x7b\x7d"

/-- The final argument string: strings failing the `JSON.parse` check are
wrapped as `{"raw": ...}`. -/
def ntcArgs (tc : JVal) : String :=
  if jsonValid (ntcArgsC tc) then ntcArgsC tc
  else jsonStringify (.obj [("raw", .str (ntcArgsC tc))])

/-- The filter/map body of `normalizeToolCalls` over the entries, threading
the fresh-id counter. -/
def ntcGo : List JVal → (Nat → String) → Nat → List ToolCall × Nat
  | [], _, ctr => ([], ctr)
  | tc :: rest, fresh, ctr =>
    if tc.isObjLike then
      let idc := ntcId tc fresh ctr
      let r := ntcGo rest fresh idc.2
      (⟨idc.1, ntcName tc, ntcArgs tc⟩ :: r.1, r.2)
    else
      ntcGo rest fresh ctr

/-- `normalizeToolCalls(toolCalls)` from `index.ts` (non-arrays yield `[]`). -/
def normalizeToolCalls (toolCalls : JVal) (fresh : Nat → String) (ctr : Nat) :
    List ToolCall × Nat :=
  match toolCalls with
  | .arr tcs => ntcGo tcs fresh ctr
  | _ => ([], ctr)

/-! ## Output messages -/

/-- A message of the normalized output.  The source builds these as literal
objects, so the fields have fixed types; an absent `tool_calls` field is
modelled by the empty list (the source attaches the field only when
non-empty). -/
inductive NMsg where
  | system (content : String)
  | user (content : JVal)
  | assistant (content : String) (toolCalls : List ToolCall)
  | tool (toolCallId : String) (content : String)
deriving Repr, DecidableEq

def isSysM : NMsg → Bool
  | .system _ => true
  | _ => false

def isUserM : NMsg → Bool
  | .user _ => true
  | _ => false

def isAsstM : NMsg → Bool
  | .assistant _ _ => true
  | _ => false

def isToolM : NMsg → Bool
  | .tool _ _ => true
  | _ => false

/-- `isUserSide(role)` from STEP 5 of the source: `user` and `tool` are
user-side, everything else (assistant; also system, never present there)
is not. -/
def sideIsUser (m : NMsg) : Bool :=
  match m with
  | .user _ => true
  | .tool _ _ => true
  | _ => false

/-- `Array.isArray(m.tool_calls)` on an output message: the field is attached
exactly when the call list is non-empty. -/
def hasToolCalls (m : NMsg) : Bool :=
  match m with
  | .assistant _ (_ :: _) => true
  | _ => false

/-! ## The normalization pipeline (`normalizeChatCompletionsMessages`) -/

/-- `m.role === r`. -/
def roleIs (m : JVal) (r : String) : Bool := m.get "role" == some (.str r)

/-- `m.content` (`undefined` ↦ `null`). -/
def contentOf (m : JVal) : JVal := (m.get "content").getD .null

/-- STEP 1: separate system messages (with `ensureNonEmpty` content) from the
rest; non-object entries are dropped silently. -/
def step1 : List JVal → List NMsg × List JVal
  | [] => ([], [])
  | m :: rest =>
    let r := step1 rest
    if !m.isObjLike then r
    else if roleIs m "system" then (.system (ensureNonEmpty (contentOf m) ".") :: r.1, r.2)
    else (r.1, m :: r.2)

/-- `Map.set` on an association list: overwriting a key keeps its position
(JavaScript `Map` insertion-order semantics). -/
def mapSet (m : List (String × String)) (k v : String) : List (String × String) :=
  if m.any (fun p => p.1 == k) then m.map (fun p => if p.1 == k then (k, v) else p)
  else m ++ [(k, v)]

/-- `Map.get`. -/
def ledgerLookup (m : List (String × String)) (k : String) : Option String :=
  (m.find? (fun p => p.1 == k)).map (fun p => p.2)

/-- STEP 2: index every `role:"tool"` message with a non-empty string
`tool_call_id` by that id (`processToolContent` applied to its content);
later entries with the same id overwrite earlier ones. -/
def step2 : List JVal → List (String × String) → List (String × String)
  | [], acc => acc
  | m :: rest, acc =>
    if roleIs m "tool" then
      match asStr (m.get "tool_call_id") with
      | some s =>
        if !(s == "") then step2 rest (mapSet acc s (processToolContent (contentOf m)))
        else step2 rest acc
      | none => step2 rest acc
    else step2 rest acc

/-- The tool-result ledger of the non-system messages. -/
def buildLedger (ms : List JVal) : List (String × String) := step2 ms []

/-- The ledger as computed by the pipeline for a raw `messages` array. -/
def inputLedger (msgs : List JVal) : List (String × String) := buildLedger (step1 msgs).2

/-- The synthetic content paired with a call whose result is missing. -/
def placeholderResult : String := "(tool was not executed or result was lost)"

/-- Result of STEP 3. -/
structure Step3Out where
  msgs : List NMsg
  used : List String
  ctr : Nat
  changed : Bool
deriving Repr, DecidableEq

/-- STEP 3: rebuild the sequence.  `role:"tool"` messages are skipped (they
were indexed), users pass through `processUserContent`, assistants get
normalized calls and are immediately followed by one tool message per call
(ledger content, or a placeholder flagged as a change); unknown roles are
dropped with the changed flag set. -/
def step3 (ledger : List (String × String)) (fresh : Nat → String) :
    List JVal → Nat → Bool → Step3Out
  | [], ctr, ch => ⟨[], [], ctr, ch⟩
  | m :: rest, ctr, ch =>
    if roleIs m "tool" then step3 ledger fresh rest ctr ch
    else if roleIs m "user" then
      let r := step3 ledger fresh rest ctr ch
      ⟨.user (processUserContent (contentOf m)) :: r.msgs, r.used, r.ctr, r.changed⟩
    else if roleIs m "assistant" then
      let tcsr := normalizeToolCalls ((m.get "tool_calls").getD .null) fresh ctr
      let tcs := tcsr.1
      let c := processAssistantContent (contentOf m)
      let tools := tcs.map
        (fun tc => NMsg.tool tc.id ((ledgerLookup ledger tc.id).getD placeholderResult))
      let synth := tcs.any (fun tc => (ledgerLookup ledger tc.id).isNone)
      let r := step3 ledger fresh rest tcsr.2 (ch || synth)
      ⟨.assistant c tcs :: tools ++ r.msgs, tcs.map ToolCall.id ++ r.used, r.ctr, r.changed⟩
    else
      step3 ledger fresh rest ctr true

/-- STEP 4: every ledger entry whose id was never used becomes a tagged user
message, in ledger order, appended after the rebuilt sequence. -/
def orphanUsers (ledger : List (String × String)) (used : List String) : List NMsg :=
  (ledger.filter (fun p => !(used.contains p.1))).map
    (fun p => NMsg.user (.str ("[Previous tool output for " ++ p.1 ++ "]:\n" ++ p.2)))

/-- The content of a user message when it is a string (`m.role === "user" &&
typeof m.content === "string"`). -/
def userStr : NMsg → Option String
  | .user c => c.asString
  | .system _ => none
  | .assistant _ _ => none
  | .tool _ _ => none

/-- The content of an assistant message carrying no tool calls (the
assistant-side merge condition: contents are always strings on output
messages, so only `!prev.tool_calls && !m.tool_calls` remains). -/
def asstPlain : NMsg → Option String
  | .assistant c [] => some c
  | .assistant _ (_ :: _) => none
  | .system _ => none
  | .user _ => none
  | .tool _ _ => none

/-- STEP 5 loop (accumulator kept reversed; mutating the last pushed message
is replacing the accumulator head). -/
def step5Go : List NMsg → Bool → List NMsg → List NMsg × Bool
  | racc, ch, [] => (racc.reverse, ch)
  | racc, ch, m :: rest =>
    match racc with
    | [] => step5Go [m] ch rest
    | prev :: racc' =>
      if isToolM m && isAsstM prev && hasToolCalls prev then step5Go (m :: racc) ch rest
      else if isToolM m && isToolM prev then step5Go (m :: racc) ch rest
      else if sideIsUser prev == sideIsUser m then
        if sideIsUser prev then
          match userStr prev with
          | some ps =>
            match userStr m with
            | some ms => step5Go (.user (.str (ps ++ "\n\n" ++ ms)) :: racc') true rest
            | none => step5Go (m :: .assistant "Understood." [] :: racc) true rest
          | none => step5Go (m :: .assistant "Understood." [] :: racc) true rest
        else
          match asstPlain prev with
          | some pc =>
            match asstPlain m with
            | some mc => step5Go (.assistant (pc ++ "\n\n" ++ mc) [] :: racc') true rest
            | none => step5Go (m :: .user (.str "Continue.") :: racc) true rest
          | none => step5Go (m :: .user (.str "Continue.") :: racc) true rest
      else step5Go (m :: racc) ch rest

/-- STEP 6: if the first message is not user-side, prepend `"Begin."`. -/
def step6 (l : List NMsg) (ch : Bool) : List NMsg × Bool :=
  match l with
  | [] => ([], ch)
  | m :: _ => if !(sideIsUser m) then (.user (.str "Begin.") :: l, true) else (l, ch)

/-- The STEP 7 filter on user content blocks: blank bare strings and blank
text blocks are removed, every other block is kept. -/
def step7KeepBlock (b : JVal) : Bool :=
  match b.asString with
  | some s => !(jsBlank s)
  | none =>
    if b.get "type" == some (.str "text") then
      match asStr (b.get "text") with
      | some t => !(jsBlank t)
      | none => false
    else true

/-- A dropped block that sets the changed flag (only text blocks do; a
dropped blank bare string leaves the flag untouched in the source). -/
def step7TextDrop (b : JVal) : Bool :=
  match b.asString with
  | some _ => false
  | none =>
    if b.get "type" == some (.str "text") then
      match asStr (b.get "text") with
      | some t => jsBlank t
      | none => true
    else false

/-- The `hasText` scan of STEP 7: some non-blank bare string or text block. -/
def step7HasText (bs : List JVal) : Bool :=
  bs.any (fun b =>
    match b.asString with
    | some s => !(jsBlank s)
    | none =>
      if b.get "type" == some (.str "text") then
        match asStr (b.get "text") with
        | some t => !(jsBlank t)
        | none => false
      else false)

/-- STEP 7 on one message (the final no-empty-content sweep).  Branches for
non-string contents of system/assistant/tool messages are dead (those fields
are strings by construction) and are not represented. -/
def step7One : NMsg → NMsg × Bool
  | .system c =>
    if jsBlank c then (.system "You are a helpful assistant.", true) else (.system c, false)
  | .user c =>
    match c with
    | .str s => if jsBlank s then (.user (.str "."), true) else (.user (.str s), false)
    | .arr bs =>
      let kept := bs.filter step7KeepBlock
      let fl := bs.any step7TextDrop
      if kept.isEmpty then (.user (.str "."), true)
      else if !(step7HasText kept) then
        (.user (.arr (textNorm "." :: kept)), true)
      else (.user (.arr kept), fl)
    | .null => (.user (.str (toNonEmptyString .null ".")), true)
    | .bool b => (.user (.str (toNonEmptyString (.bool b) ".")), true)
    | .obj kvs => (.user (.str (toNonEmptyString (.obj kvs) ".")), true)
  | .assistant c tcs =>
    if jsBlank c then (.assistant "..." tcs, true) else (.assistant c tcs, false)
  | .tool id c =>
    if jsBlank c then (.tool id "(empty output)", true) else (.tool id c, false)

/-- STEP 7 over the alternated list. -/
def step7 : List NMsg → List NMsg × Bool
  | [] => ([], false)
  | m :: rest =>
    let a := step7One m
    let r := step7 rest
    (a.1 :: r.1, a.2 || r.2)

/-- STEP 8: prepend the system messages; an empty transcript becomes a single
`"Hello."` user message. -/
def step8 (sys alternated : List NMsg) : List NMsg × Bool :=
  let final := sys ++ alternated
  if final.isEmpty then ([.user (.str "Hello.")], true) else (final, false)

/-- STEP 9 (paranoia sweep) on one message: blank string contents get
role-specific fallbacks; null contents likewise (unrepresentable except for
user messages, whose content is a dynamic value). -/
def step9One : NMsg → NMsg × Bool
  | .system c => if jsBlank c then (.system ".", true) else (.system c, false)
  | .assistant c tcs =>
    if jsBlank c then (.assistant "..." tcs, true) else (.assistant c tcs, false)
  | .tool id c => if jsBlank c then (.tool id "(empty)", true) else (.tool id c, false)
  | .user c =>
    match c with
    | .str s => if jsBlank s then (.user (.str "."), true) else (.user (.str s), false)
    | .null => (.user (.str "."), true)
    | .bool b => (.user (.bool b), false)
    | .arr bs => (.user (.arr bs), false)
    | .obj kvs => (.user (.obj kvs), false)

/-- STEP 9 over the final list. -/
def step9 : List NMsg → List NMsg × Bool
  | [] => ([], false)
  | m :: rest =>
    let a := step9One m
    let r := step9 rest
    (a.1 :: r.1, a.2 || r.2)

/-- The whole engine on a `messages` array: STEPs 1-9 of
`normalizeChatCompletionsMessages`, returning the final message list and the
`changed` flag. -/
def normalizeMessages (input : List JVal) (fresh : Nat → String) : List NMsg × Bool :=
  let s1 := step1 input
  let ledger := buildLedger s1.2
  let s3 := step3 ledger fresh s1.2 0 false
  let orphans := orphanUsers ledger s3.used
  let s5 := step5Go [] (s3.changed || !orphans.isEmpty) (s3.msgs ++ orphans)
  let s6 := step6 s5.1 s5.2
  let s7 := step7 s6.1
  let s8 := step8 s1.1 s7.1
  let s9 := step9 s8.1
  (s9.1, s6.2 || s7.2 || s8.2 || s9.2)

/-- Property write `v[k] = x` (lost on non-objects, which cannot reach it). -/
def jSet (v : JVal) (k : String) (x : JVal) : JVal :=
  match v with
  | .obj kvs =>
    if kvs.any (fun p => p.1 == k) then .obj (kvs.map (fun p => if p.1 == k then (k, x) else p))
    else .obj (kvs ++ [(k, x)])
  | w => w

/-- The JSON object the source writes for a normalized tool call. -/
def encodeToolCall (tc : ToolCall) : JVal :=
  .obj [("id", .str tc.id), ("type", .str "function"),
    ("function", .obj [("name", tc.name), ("arguments", .str tc.args)])]

/-- The JSON object the source writes for an output message. -/
def encodeNMsg : NMsg → JVal
  | .system c => .obj [("role", .str "system"), ("content", .str c)]
  | .user c => .obj [("role", .str "user"), ("content", c)]
  | .assistant c [] => .obj [("role", .str "assistant"), ("content", .str c)]
  | .assistant c (tc :: tcs) => .obj [("role", .str "assistant"), ("content", .str c),
      ("tool_calls", .arr ((tc :: tcs).map encodeToolCall))]
  | .tool id c => .obj [("role", .str "tool"), ("tool_call_id", .str id), ("content", .str c)]

/-- `normalizeChatCompletionsMessages(body)`: a falsy body or a non-array
`messages` field is returned untouched with `changed: false`; otherwise
`body.messages` is replaced by the normalized list. -/
def normalizeChatCompletionsMessages (body : JVal) (fresh : Nat → String) : JVal × Bool :=
  if body.truthy then
    match asArr (body.get "messages") with
    | some msgs =>
      let r := normalizeMessages msgs fresh
      (jSet body "messages" (.arr (r.1.map encodeNMsg)), r.2)
    | none => (body, false)
  else (body, false)

/-- `normalizeOpenAIChatCompletionsBody` is a re-export of the engine. -/
def normalizeOpenAIChatCompletionsBody (body : JVal) (fresh : Nat → String) : JVal × Bool :=
  normalizeChatCompletionsMessages body fresh

/-! ## The serializer emits valid JSON -/

mutual

/-- Parser fuel sufficient for a serialized value. -/
def jfuel : JVal → Nat
  | .null => 1
  | .bool _ => 1
  | .str s => s.length + 1
  | .arr [] => 1
  | .arr (x :: xs) => 1 + ifuel x xs
  | .obj [] => 1
  | .obj (kv :: kvs) => 1 + mfuel kv kvs
termination_by v => sizeOf v
decreasing_by all_goals (simp_wf; try omega)

/-- Fuel for a non-empty array body. -/
def ifuel : JVal → List JVal → Nat
  | x, [] => 1 + jfuel x
  | x, y :: xs => 1 + jfuel x + ifuel y xs
termination_by x xs => sizeOf x + sizeOf xs
decreasing_by all_goals (simp_wf; try omega)

/-- Fuel for a non-empty object body. -/
def mfuel : String × JVal → List (String × JVal) → Nat
  | (k, v), [] => 1 + k.length + jfuel v
  | (k, v), f :: fs => 1 + k.length + jfuel v + mfuel f fs
termination_by kv kvs => sizeOf kv + sizeOf kvs
decreasing_by all_goals (simp_wf; try omega)

end

theorem isHexDig_hexDig {n : Nat} (h : n < 16) : isHexDig (hexDig n) = true := by
  interval_cases n <;> decide

theorem pStringF_esc (cs : List Char) : ∀ (f : Nat) (rest : List Char), cs.length < f →
    pStringF f ((cs.map escChar).flatten ++ '"' :: rest) = some rest := by
  induction cs with
  | nil =>
    intro f rest hf
    match f, hf with
    | f' + 1, _ => rfl
  | cons c cs ih =>
    intro f rest hf
    match f, hf with
    | f' + 1, hf =>
      have hf' : cs.length < f' := by
        have : (c :: cs).length = cs.length + 1 := rfl
        omega
      rw [List.map_cons, List.flatten_cons, List.append_assoc]
      by_cases h1 : c = '"'
      · subst h1
        rw [show escChar '"' = ['\\', '"'] from by decide]
        exact ih f' rest hf'
      · by_cases h2 : c = '\\'
        · subst h2
          rw [show escChar '\\' = ['\\', '\\'] from by decide]
          exact ih f' rest hf'
        · by_cases h3 : c.toNat < 32
          · rw [show escChar c = ['\\', 'u', '0', '0', hexDig (c.toNat / 16), hexDig (c.toNat % 16)]
              from by rw [escChar, if_neg h1, if_neg h2, if_pos h3]]
            have hd1 : isHexDig (hexDig (c.toNat / 16)) = true := isHexDig_hexDig (by omega)
            have hd2 : isHexDig (hexDig (c.toNat % 16)) = true :=
              isHexDig_hexDig (Nat.mod_lt _ (by omega))
            show (if isHexDig '0' && isHexDig '0' && isHexDig (hexDig (c.toNat / 16))
                && isHexDig (hexDig (c.toNat % 16))
              then pStringF f' ((cs.map escChar).flatten ++ '"' :: rest) else none) = some rest
            rw [hd1, hd2]
            show pStringF f' ((cs.map escChar).flatten ++ '"' :: rest) = some rest
            exact ih f' rest hf'
          · rw [show escChar c = [c] from by rw [escChar, if_neg h1, if_neg h2, if_neg h3]]
            show pStringF (f' + 1) (c :: ((cs.map escChar).flatten ++ '"' :: rest)) = some rest
            simp only [pStringF]
            rw [if_neg h1, if_neg h2, if_neg h3]
            exact ih f' rest hf'

theorem pStringF_escString (s : String) (f : Nat) (rest : List Char) (hf : s.length < f) :
    pStringF f ((s.data.map escChar).flatten ++ '"' :: rest) = some rest :=
  pStringF_esc s.data f rest hf

/-- First character emitted for any value: a value-starter, never whitespace,
never a closing bracket. -/
theorem stringifyChars_head (v : JVal) :
    ∃ c cs, stringifyChars v = c :: cs ∧
      (c = 'n' ∨ c = 't' ∨ c = 'f' ∨ c = '"' ∨ c = '[' ∨ c = '\x7b') := by
  cases v with
  | null => exact ⟨'n', _, by rw [stringifyChars], Or.inl rfl⟩
  | bool b => cases b with
    | true => exact ⟨'t', _, by rw [stringifyChars], Or.inr (Or.inl rfl)⟩
    | false => exact ⟨'f', _, by rw [stringifyChars], Or.inr (Or.inr (Or.inl rfl))⟩
  | str s =>
    exact ⟨'"', (s.data.map escChar).flatten ++ ['"'],
      by rw [stringifyChars, escString]; rfl, Or.inr (Or.inr (Or.inr (Or.inl rfl)))⟩
  | arr xs => cases xs with
    | nil =>
      exact ⟨'[', [']'], by rw [stringifyChars], Or.inr (Or.inr (Or.inr (Or.inr (Or.inl rfl))))⟩
    | cons x xs =>
      exact ⟨'[', stringifyItems x xs ++ [']'], by rw [stringifyChars]; rfl,
        Or.inr (Or.inr (Or.inr (Or.inr (Or.inl rfl))))⟩
  | obj kvs => cases kvs with
    | nil =>
      exact ⟨'\x7b', ['\x7d'], by rw [stringifyChars],
        Or.inr (Or.inr (Or.inr (Or.inr (Or.inr rfl))))⟩
    | cons kv kvs =>
      exact ⟨'\x7b', stringifyFields kv kvs ++ ['\x7d'], by rw [stringifyChars]; rfl,
        Or.inr (Or.inr (Or.inr (Or.inr (Or.inr rfl))))⟩

theorem skipWs_cons_of_not_ws {c : Char} (t : List Char) (h : isWs c = false) :
    skipWs (c :: t) = c :: t := by
  unfold skipWs
  rw [List.dropWhile_cons_of_neg (show ¬ (isWs c = true) by simp [h])]

/-- A value-starting character is not whitespace and not a closing bracket. -/
theorem valStart_facts {c : Char}
    (h : c = 'n' ∨ c = 't' ∨ c = 'f' ∨ c = '"' ∨ c = '[' ∨ c = '\x7b') :
    isWs c = false ∧ c ≠ ']' ∧ c ≠ '\x7d' := by
  rcases h with h | h | h | h | h | h <;> subst h <;> refine ⟨by decide, by decide, by decide⟩

theorem stringifyItems_head (x : JVal) (xs : List JVal) {c : Char} {cs : List Char}
    (hx : stringifyChars x = c :: cs) :
    ∃ t, stringifyItems x xs = c :: t := by
  cases xs with
  | nil => exact ⟨cs, by rw [stringifyItems, hx]⟩
  | cons y ys => exact ⟨cs ++ ',' :: stringifyItems y ys, by rw [stringifyItems, hx]; rfl⟩

theorem stringifyFields_head (kv : String × JVal) (kvs : List (String × JVal)) :
    ∃ t, stringifyFields kv kvs = '"' :: t := by
  obtain ⟨k, v⟩ := kv
  cases kvs with
  | nil =>
    exact ⟨(k.data.map escChar).flatten ++ '"' :: ':' :: stringifyChars v,
      by rw [stringifyFields, escString]; simp⟩
  | cons f fs =>
    exact ⟨(k.data.map escChar).flatten
        ++ '"' :: ':' :: (stringifyChars v ++ ',' :: stringifyFields f fs),
      by rw [stringifyFields, escString]; simp⟩

/-- Opening an array: with a non-whitespace, non-`]` first body character the
parser hands the body to `items` mode. -/
theorem pRun_val_arr (f : Nat) (c : Char) (t : List Char)
    (hws : isWs c = false) (hne : c ≠ ']') :
    pRun (f + 1) .val ('[' :: c :: t) = pRun f .items (c :: t) := by
  show (if ('[' : Char) = '"' then pStringF (f + 1) (c :: t)
    else if ('[' : Char) = '\x7b' then
      match skipWs (c :: t) with
      | d :: r2 => if d = '\x7d' then some r2 else pRun f .members (d :: r2)
      | [] => none
    else if ('[' : Char) = '[' then
      match skipWs (c :: t) with
      | d :: r2 => if d = ']' then some r2 else pRun f .items (d :: r2)
      | [] => none
    else if ('[' : Char) = 'n' then pLit ['u', 'l', 'l'] (c :: t)
    else if ('[' : Char) = 't' then pLit ['r', 'u', 'e'] (c :: t)
    else if ('[' : Char) = 'f' then pLit ['a', 'l', 's', 'e'] (c :: t)
    else pNumber ('[' :: c :: t)) = pRun f .items (c :: t)
  rw [if_neg (by decide), if_neg (by decide), if_pos rfl, skipWs_cons_of_not_ws t hws]
  show (if c = ']' then some t else pRun f .items (c :: t)) = pRun f .items (c :: t)
  rw [if_neg hne]

/-- Opening an object: with a non-whitespace, non-brace first body character
the parser hands the body to `members` mode. -/
theorem pRun_val_obj (f : Nat) (c : Char) (t : List Char)
    (hws : isWs c = false) (hne : c ≠ '\x7d') :
    pRun (f + 1) .val ('\x7b' :: c :: t) = pRun f .members (c :: t) := by
  show (if ('\x7b' : Char) = '"' then pStringF (f + 1) (c :: t)
    else if ('\x7b' : Char) = '\x7b' then
      match skipWs (c :: t) with
      | d :: r2 => if d = '\x7d' then some r2 else pRun f .members (d :: r2)
      | [] => none
    else if ('\x7b' : Char) = '[' then
      match skipWs (c :: t) with
      | d :: r2 => if d = ']' then some r2 else pRun f .items (d :: r2)
      | [] => none
    else if ('\x7b' : Char) = 'n' then pLit ['u', 'l', 'l'] (c :: t)
    else if ('\x7b' : Char) = 't' then pLit ['r', 'u', 'e'] (c :: t)
    else if ('\x7b' : Char) = 'f' then pLit ['a', 'l', 's', 'e'] (c :: t)
    else pNumber ('\x7b' :: c :: t)) = pRun f .members (c :: t)
  rw [if_neg (by decide), if_pos rfl, skipWs_cons_of_not_ws t hws]
  show (if c = '\x7d' then some t else pRun f .members (c :: t)) = pRun f .members (c :: t)
  rw [if_neg hne]

theorem jfuel_pos (v : JVal) : 0 < jfuel v := by
  cases v with
  | null => rw [jfuel]; omega
  | bool b => rw [jfuel]; omega
  | str s => rw [jfuel]; omega
  | arr xs => cases xs with
    | nil => rw [jfuel]; omega
    | cons x xs => rw [jfuel]; omega
  | obj kvs => cases kvs with
    | nil => rw [jfuel]; omega
    | cons kv kvs => rw [jfuel]; omega

theorem ifuel_pos (x : JVal) (xs : List JVal) : 0 < ifuel x xs := by
  cases xs with
  | nil => rw [ifuel]; omega
  | cons y ys => rw [ifuel]; omega

theorem mfuel_pos (kv : String × JVal) (kvs : List (String × JVal)) : 0 < mfuel kv kvs := by
  obtain ⟨k, v⟩ := kv
  cases kvs with
  | nil => rw [mfuel]; omega
  | cons f fs => rw [mfuel]; omega

mutual

/-- Round-trip: the parser accepts a serialized value and consumes exactly it. -/
theorem pRun_stringify : ∀ (v : JVal) (f : Nat) (rest : List Char), jfuel v ≤ f →
    pRun f .val (stringifyChars v ++ rest) = some rest
  | v, 0, _, h => absurd h (by have := jfuel_pos v; omega)
  | .null, f + 1, rest, _ => by rw [stringifyChars]; rfl
  | .bool true, f + 1, rest, _ => by rw [stringifyChars]; rfl
  | .bool false, f + 1, rest, _ => by rw [stringifyChars]; rfl
  | .str s, f + 1, rest, h => by
    rw [stringifyChars, escString]
    show pStringF (f + 1) ((s.data.map escChar).flatten ++ ['"'] ++ rest) = some rest
    rw [List.append_assoc]
    exact pStringF_escString s (f + 1) rest (by
      have : jfuel (.str s) = s.length + 1 := by rw [jfuel]
      omega)
  | .arr [], f + 1, rest, _ => by rw [stringifyChars]; rfl
  | .arr (x :: xs), f + 1, rest, h => by
    rw [stringifyChars]
    obtain ⟨c, cs, hx, hc⟩ := stringifyChars_head x
    obtain ⟨t, ht⟩ := stringifyItems_head x xs hx
    obtain ⟨hws, hne, _⟩ := valStart_facts hc
    have hfu : ifuel x xs ≤ f := by
      have : jfuel (.arr (x :: xs)) = 1 + ifuel x xs := by rw [jfuel]
      omega
    have hshape : '[' :: stringifyItems x xs ++ [']'] ++ rest
        = '[' :: c :: (t ++ ']' :: rest) := by
      rw [ht]; simp
    rw [hshape, pRun_val_arr f c (t ++ ']' :: rest) hws hne]
    rw [show c :: (t ++ ']' :: rest) = (c :: t) ++ ']' :: rest from rfl, ← ht]
    exact pRun_items x xs f rest hfu
  | .obj [], f + 1, rest, _ => by rw [stringifyChars]; rfl
  | .obj (kv :: kvs), f + 1, rest, h => by
    rw [stringifyChars]
    obtain ⟨t, ht⟩ := stringifyFields_head kv kvs
    have hfu : mfuel kv kvs ≤ f := by
      have : jfuel (.obj (kv :: kvs)) = 1 + mfuel kv kvs := by rw [jfuel]
      omega
    have hshape : '\x7b' :: stringifyFields kv kvs ++ ['\x7d'] ++ rest
        = '\x7b' :: '"' :: (t ++ '\x7d' :: rest) := by
      rw [ht]; simp
    rw [hshape, pRun_val_obj f '"' (t ++ '\x7d' :: rest) (by decide) (by decide)]
    rw [show ('"' : Char) :: (t ++ '\x7d' :: rest) = ('"' :: t) ++ '\x7d' :: rest from rfl, ← ht]
    exact pRun_members kv kvs f rest hfu
termination_by v => sizeOf v
decreasing_by all_goals (simp_wf; try omega)

/-- Round-trip for non-empty array bodies (closing bracket consumed). -/
theorem pRun_items : ∀ (x : JVal) (xs : List JVal) (f : Nat) (rest : List Char),
    ifuel x xs ≤ f → pRun f .items (stringifyItems x xs ++ ']' :: rest) = some rest
  | x, xs, 0, _, h => absurd h (by have := ifuel_pos x xs; omega)
  | x, [], f + 1, rest, h => by
    rw [stringifyItems]
    have hfu : jfuel x ≤ f := by
      have : ifuel x [] = 1 + jfuel x := by rw [ifuel]
      omega
    show (match pRun f .val (stringifyChars x ++ ']' :: rest) with
      | some r =>
        match skipWs r with
        | ',' :: r2 => pRun f .items (skipWs r2)
        | ']' :: r2 => some r2
        | _ => none
      | none => none) = some rest
    rw [pRun_stringify x f (']' :: rest) hfu]
    rfl
  | x, y :: ys, f + 1, rest, h => by
    have hfu : jfuel x ≤ f := by
      have : ifuel x (y :: ys) = 1 + jfuel x + ifuel y ys := by rw [ifuel]
      omega
    have hfu2 : ifuel y ys ≤ f := by
      have : ifuel x (y :: ys) = 1 + jfuel x + ifuel y ys := by rw [ifuel]
      omega
    have hshape : stringifyItems x (y :: ys) ++ ']' :: rest
        = stringifyChars x ++ ',' :: (stringifyItems y ys ++ ']' :: rest) := by
      rw [stringifyItems]; simp
    rw [hshape]
    show (match pRun f .val (stringifyChars x ++ ',' :: (stringifyItems y ys ++ ']' :: rest)) with
      | some r =>
        match skipWs r with
        | ',' :: r2 => pRun f .items (skipWs r2)
        | ']' :: r2 => some r2
        | _ => none
      | none => none) = some rest
    rw [pRun_stringify x f (',' :: (stringifyItems y ys ++ ']' :: rest)) hfu]
    show pRun f .items (skipWs (stringifyItems y ys ++ ']' :: rest)) = some rest
    obtain ⟨c, cs, hy, hc⟩ := stringifyChars_head y
    obtain ⟨t, ht⟩ := stringifyItems_head y ys hy
    obtain ⟨hws, _, _⟩ := valStart_facts hc
    rw [ht, List.cons_append, skipWs_cons_of_not_ws _ hws, ← List.cons_append, ← ht]
    exact pRun_items y ys f rest hfu2
termination_by x xs => sizeOf x + sizeOf xs
decreasing_by all_goals (simp_wf; try omega)

/-- Round-trip for non-empty object bodies (closing brace consumed). -/
theorem pRun_members : ∀ (kv : String × JVal) (kvs : List (String × JVal)) (f : Nat)
    (rest : List Char), mfuel kv kvs ≤ f →
    pRun f .members (stringifyFields kv kvs ++ '\x7d' :: rest) = some rest
  | kv, kvs, 0, _, h => absurd h (by have := mfuel_pos kv kvs; omega)
  | (k, v), [], f + 1, rest, h => by
    have hm : mfuel (k, v) [] = 1 + k.length + jfuel v := by rw [mfuel]
    have hshape : stringifyFields (k, v) [] ++ '\x7d' :: rest
        = '"' :: ((k.data.map escChar).flatten
            ++ '"' :: ':' :: (stringifyChars v ++ '\x7d' :: rest)) := by
      rw [stringifyFields, escString]; simp
    rw [hshape]
    show (if ('"' : Char) = '"' then
      match pStringF (f + 1) ((k.data.map escChar).flatten
          ++ '"' :: ':' :: (stringifyChars v ++ '\x7d' :: rest)) with
      | some r2 =>
        match skipWs r2 with
        | ':' :: r3 =>
          match pRun f .val (skipWs r3) with
          | some r4 =>
            match skipWs r4 with
            | ',' :: r5 => pRun f .members (skipWs r5)
            | '\x7d' :: r5 => some r5
            | _ => none
          | none => none
        | _ => none
      | none => none
      else none) = some rest
    rw [if_pos rfl,
      pStringF_escString k (f + 1) (':' :: (stringifyChars v ++ '\x7d' :: rest)) (by omega)]
    show (match pRun f .val (skipWs (stringifyChars v ++ '\x7d' :: rest)) with
      | some r4 =>
        match skipWs r4 with
        | ',' :: r5 => pRun f .members (skipWs r5)
        | '\x7d' :: r5 => some r5
        | _ => none
      | none => none) = some rest
    obtain ⟨c, cs, hv, hc⟩ := stringifyChars_head v
    obtain ⟨hws, _, _⟩ := valStart_facts hc
    rw [hv, List.cons_append, skipWs_cons_of_not_ws _ hws, ← List.cons_append, ← hv]
    rw [pRun_stringify v f ('\x7d' :: rest) (by omega)]
    rfl
  | (k, v), kv2 :: kvs, f + 1, rest, h => by
    have hm : mfuel (k, v) (kv2 :: kvs) = 1 + k.length + jfuel v + mfuel kv2 kvs := by
      rw [mfuel]
    have hshape : stringifyFields (k, v) (kv2 :: kvs) ++ '\x7d' :: rest
        = '"' :: ((k.data.map escChar).flatten
            ++ '"' :: ':' :: (stringifyChars v
              ++ ',' :: (stringifyFields kv2 kvs ++ '\x7d' :: rest))) := by
      rw [stringifyFields, escString]; simp
    rw [hshape]
    show (if ('"' : Char) = '"' then
      match pStringF (f + 1) ((k.data.map escChar).flatten
          ++ '"' :: ':' :: (stringifyChars v
            ++ ',' :: (stringifyFields kv2 kvs ++ '\x7d' :: rest))) with
      | some r2 =>
        match skipWs r2 with
        | ':' :: r3 =>
          match pRun f .val (skipWs r3) with
          | some r4 =>
            match skipWs r4 with
            | ',' :: r5 => pRun f .members (skipWs r5)
            | '\x7d' :: r5 => some r5
            | _ => none
          | none => none
        | _ => none
      | none => none
      else none) = some rest
    rw [if_pos rfl, pStringF_escString k (f + 1) _ (by omega)]
    show (match pRun f .val (skipWs (stringifyChars v
        ++ ',' :: (stringifyFields kv2 kvs ++ '\x7d' :: rest))) with
      | some r4 =>
        match skipWs r4 with
        | ',' :: r5 => pRun f .members (skipWs r5)
        | '\x7d' :: r5 => some r5
        | _ => none
      | none => none) = some rest
    obtain ⟨c, cs, hv, hc⟩ := stringifyChars_head v
    obtain ⟨hws, _, _⟩ := valStart_facts hc
    rw [hv, List.cons_append, skipWs_cons_of_not_ws _ hws, ← List.cons_append, ← hv]
    rw [pRun_stringify v f (',' :: (stringifyFields kv2 kvs ++ '\x7d' :: rest)) (by omega)]
    show pRun f .members (skipWs (stringifyFields kv2 kvs ++ '\x7d' :: rest)) = some rest
    obtain ⟨t2, ht2⟩ := stringifyFields_head kv2 kvs
    rw [ht2, List.cons_append, skipWs_cons_of_not_ws _ (by decide), ← List.cons_append, ← ht2]
    exact pRun_members kv2 kvs f rest (by omega)
termination_by kv kvs => sizeOf kv + sizeOf kvs
decreasing_by all_goals (simp_wf; try omega)

end

theorem escChar_length_pos (c : Char) : 0 < (escChar c).length := by
  unfold escChar
  by_cases h1 : c = '"'
  · simp [h1]
  · by_cases h2 : c = '\\'
    · simp [h1, h2]
    · by_cases h3 : c.toNat < 32 <;> simp [h1, h2, h3]

theorem escFlatten_length_ge (l : List Char) : l.length ≤ ((l.map escChar).flatten).length := by
  induction l with
  | nil => simp
  | cons c cs ih =>
    rw [List.map_cons, List.flatten_cons, List.length_append, List.length_cons]
    have := escChar_length_pos c
    omega

theorem escString_length_ge (s : String) : s.length + 2 ≤ (escString s).length := by
  unfold escString
  have h2 := escFlatten_length_ge s.data
  have hl : s.length = s.data.length := rfl
  simp only [List.length_append, List.length_cons, List.length_nil]
  omega

mutual

/-- The fuel requirement of a serialized value is within twice its length. -/
theorem jfuel_le : ∀ v : JVal, jfuel v + 1 ≤ 2 * (stringifyChars v).length
  | .null => by rw [jfuel, stringifyChars]; simp
  | .bool true => by rw [jfuel, stringifyChars]; simp
  | .bool false => by rw [jfuel, stringifyChars]; simp
  | .str s => by
    rw [jfuel, stringifyChars]
    have := escString_length_ge s
    omega
  | .arr [] => by rw [jfuel, stringifyChars]; simp
  | .arr (x :: xs) => by
    rw [jfuel, stringifyChars]
    have := ifuel_le x xs
    simp only [List.length_cons, List.length_append, List.length_cons, List.length_nil]
    omega
  | .obj [] => by rw [jfuel, stringifyChars]; simp
  | .obj (kv :: kvs) => by
    rw [jfuel, stringifyChars]
    have := mfuel_le kv kvs
    simp only [List.length_cons, List.length_append, List.length_cons, List.length_nil]
    omega
termination_by v => sizeOf v
decreasing_by all_goals (simp_wf; try omega)

theorem ifuel_le : ∀ (x : JVal) (xs : List JVal),
    ifuel x xs ≤ 2 * (stringifyItems x xs).length
  | x, [] => by
    rw [ifuel, stringifyItems]
    have := jfuel_le x
    omega
  | x, y :: ys => by
    rw [ifuel, stringifyItems]
    have h1 := jfuel_le x
    have h2 := ifuel_le y ys
    rw [List.length_append, List.length_cons]
    omega
termination_by x xs => sizeOf x + sizeOf xs
decreasing_by all_goals (simp_wf; try omega)

theorem mfuel_le : ∀ (kv : String × JVal) (kvs : List (String × JVal)),
    mfuel kv kvs ≤ 2 * (stringifyFields kv kvs).length
  | (k, v), [] => by
    rw [mfuel, stringifyFields]
    have h1 := jfuel_le v
    have h2 := escString_length_ge k
    rw [List.length_append, List.length_cons]
    omega
  | (k, v), f :: fs => by
    rw [mfuel, stringifyFields]
    have h1 := jfuel_le v
    have h2 := escString_length_ge k
    have h3 := mfuel_le f fs
    rw [List.length_append, List.length_cons, List.length_append, List.length_cons]
    omega
termination_by kv kvs => sizeOf kv + sizeOf kvs
decreasing_by all_goals (simp_wf; try omega)

end

theorem length_mk (l : List Char) : (String.mk l).length = l.length := rfl

theorem data_mk (l : List Char) : (String.mk l).data = l := rfl

/-- `JSON.stringify` output passes the `JSON.parse` validity check. -/
theorem jsonValid_stringify (v : JVal) : jsonValid (jsonStringify v) = true := by
  unfold jsonValid jsonStringify
  obtain ⟨c, cs, hx, hc⟩ := stringifyChars_head v
  obtain ⟨hws, _, _⟩ := valStart_facts hc
  rw [data_mk, length_mk, hx, skipWs_cons_of_not_ws _ hws, ← hx]
  rw [show stringifyChars v = stringifyChars v ++ [] from (List.append_nil _).symm]
  rw [pRun_stringify v _ [] (by
    have h1 := jfuel_le v
    rw [List.length_append]
    omega)]
  rfl

/-- `JSON.stringify` output is never blank. -/
theorem jsonStringify_not_blank (v : JVal) : jsBlank (jsonStringify v) = false := by
  unfold jsonStringify jsBlank
  obtain ⟨c, cs, hx, hc⟩ := stringifyChars_head v
  obtain ⟨hws, _, _⟩ := valStart_facts hc
  rw [data_mk, hx]
  simp [hws]

/-! ## Shape invariants of the output -/

theorem all_trimList (l : List Char) : (trimList l).all isWs = l.all isWs := by
  unfold trimList
  rw [List.all_reverse, all_dropWhile_isWs, List.all_reverse, all_dropWhile_isWs]

theorem jsBlank_jsTrim (s : String) : jsBlank (jsTrim s) = jsBlank s := by
  unfold jsBlank jsTrim
  rw [data_mk, all_trimList]

theorem jsTrim_not_blank {s : String} (h : ¬ jsTrim s = "") : jsBlank (jsTrim s) = false := by
  rw [jsBlank_jsTrim]
  by_contra hb
  exact h ((jsTrim_eq_empty_iff s).mpr (by revert hb; cases jsBlank s <;> simp))

/-- Recognize the canonical image block, returning its url. -/
def isImgNorm : JVal → Option String
  | .obj [("type", .str "image_url"), ("image_url", .obj [("url", .str u)])] => some u
  | _ => none

/-- A block that `processUserContent` re-emits unchanged: either the
canonical image block with an accepted url, or any object typed `"image"`. -/
def goodImage (b : JVal) : Bool :=
  (match isImgNorm b with
   | some u => validImageUrl u
   | none => false)
  || (b.get "type" == some (.str "image"))

/-- Recognize the canonical text block, returning its text. -/
def isTextNorm : JVal → Option String
  | .obj [("type", .str "text"), ("text", .str t)] => some t
  | _ => none

/-- Content of an output user message: a non-blank string, or a canonical
text block (non-blank, trim-fixed) followed by a non-empty run of image
blocks. -/
def userContentOk : JVal → Bool
  | .str s => !(jsBlank s)
  | .arr bs =>
    (match bs with
     | b :: rest =>
       (match isTextNorm b with
        | some t => !(jsBlank t) && (jsTrim t == t) && !rest.isEmpty && rest.all goodImage
        | none => false)
     | [] => false)
  | .null => false
  | .bool _ => false
  | .obj _ => false

/-- A normalized tool call as it appears in the output. -/
def callOk (tc : ToolCall) : Bool :=
  !(tc.id == "") && tc.name.truthy && !(jsBlank tc.args) && jsonValid tc.args

/-- Well-shaped output message. -/
def memberOk : NMsg → Bool
  | .system c => !(jsBlank c)
  | .user c => userContentOk c
  | .assistant c tcs => !(jsBlank c) && tcs.all callOk
  | .tool id c => !(id == "") && !(jsBlank c)

theorem ensureNonEmpty_not_blank (v : JVal) {fb : String} (hfb : jsBlank fb = false) :
    jsBlank (ensureNonEmpty v fb) = false := by
  cases v with
  | str s =>
    cases hb : jsBlank s with
    | false => simp [ensureNonEmpty, JVal.asString, hb]
    | true => simpa [ensureNonEmpty, JVal.asString, hb] using hfb
  | null => simpa [ensureNonEmpty, JVal.asString] using hfb
  | bool b => simpa [ensureNonEmpty, JVal.asString] using hfb
  | arr xs => simpa [ensureNonEmpty, JVal.asString] using hfb
  | obj kvs => simpa [ensureNonEmpty, JVal.asString] using hfb

theorem convertImageBlock_good {b cb : JVal} (h : convertImageBlock b = some cb) :
    goodImage cb = true := by
  unfold convertImageBlock at h
  by_cases h1 : !b.truthy || !(b.get "type" == some (.str "image_url"))
  · rw [if_pos h1] at h
    exact absurd h (by simp)
  · rw [if_neg h1] at h
    by_cases h2 : (imageUrlOf b == "") = true
    · rw [if_pos h2] at h
      exact absurd h (by simp)
    · rw [if_neg h2] at h
      by_cases h3 : validImageUrl (imageUrlOf b) = true
      · rw [if_pos h3] at h
        have hcb : cb = imgNorm (imageUrlOf b) := by
          injection h with h'
          exact h'.symm
        rw [hcb]
        unfold goodImage
        rw [show isImgNorm (imgNorm (imageUrlOf b)) = some (imageUrlOf b) from rfl]
        simp [h3]
      · rw [if_neg h3] at h
        exact absurd h (by simp)

theorem puScan_hasImage : ∀ bs : List JVal, (puScan bs).2.2 = true → (puScan bs).2.1 ≠ []
  | [], h => by simp [puScan] at h
  | b :: bs, h => by
    rw [puScan] at h ⊢
    cases b with
    | str s =>
      simp only [JVal.asString] at h ⊢
      exact puScan_hasImage bs h
    | null =>
      simp only [JVal.asString, JVal.isObjLike] at h ⊢
      exact puScan_hasImage bs h
    | bool c =>
      simp only [JVal.asString, JVal.isObjLike] at h ⊢
      exact puScan_hasImage bs h
    | arr xs =>
      simp only [JVal.asString, JVal.isObjLike, JVal.get] at h ⊢
      exact puScan_hasImage bs h
    | obj kvs =>
      simp only [JVal.asString, JVal.isObjLike, Bool.not_true, Bool.false_eq_true,
        if_false] at h ⊢
      by_cases h1 : ((JVal.obj kvs).get "type" == some (.str "text")) = true
      · simp only [h1, if_true] at h ⊢
        rcases htx : asStr ((JVal.obj kvs).get "text") with _ | t
        · simp only [htx] at h ⊢
          exact puScan_hasImage bs h
        · simp only [htx] at h ⊢
          cases hbl : jsBlank t <;> simp only [hbl] at h ⊢ <;> exact puScan_hasImage bs h
      · simp only [h1, if_false] at h ⊢
        by_cases h2 : ((JVal.obj kvs).get "type" == some (.str "image_url")) = true
        · simp only [h2, if_true] at h ⊢
          rcases hcv : convertImageBlock (JVal.obj kvs) with _ | cb
          · simp only [hcv] at h ⊢
            exact puScan_hasImage bs h
          · simp only [hcv] at h ⊢
            simp
        · simp only [h2, if_false] at h ⊢
          by_cases h3 : ((JVal.obj kvs).get "type" == some (.str "image")) = true
          · simp only [h3, if_true] at h ⊢
            simp
          · simp only [h3, if_false] at h ⊢
            exact puScan_hasImage bs h

theorem puScan_images_good : ∀ bs : List JVal, ((puScan bs).2.1).all goodImage = true
  | [] => by simp [puScan]
  | b :: bs => by
    rw [puScan]
    cases b with
    | str s =>
      simp only [JVal.asString]
      exact puScan_images_good bs
    | null =>
      simp only [JVal.asString, JVal.isObjLike]
      exact puScan_images_good bs
    | bool c =>
      simp only [JVal.asString, JVal.isObjLike]
      exact puScan_images_good bs
    | arr xs =>
      simp only [JVal.asString, JVal.isObjLike, JVal.get]
      exact puScan_images_good bs
    | obj kvs =>
      simp only [JVal.asString, JVal.isObjLike, Bool.not_true, Bool.false_eq_true, if_false]
      by_cases h1 : ((JVal.obj kvs).get "type" == some (.str "text")) = true
      · simp only [h1, if_true]
        rcases htx : asStr ((JVal.obj kvs).get "text") with _ | t
        · exact puScan_images_good bs
        · cases hbl : jsBlank t <;> simp only [hbl] <;> exact puScan_images_good bs
      · simp only [h1, if_false]
        by_cases h2 : ((JVal.obj kvs).get "type" == some (.str "image_url")) = true
        · simp only [h2, if_true]
          rcases hcv : convertImageBlock (JVal.obj kvs) with _ | cb
          · exact puScan_images_good bs
          · show (cb :: (puScan bs).2.1).all goodImage = true
            rw [List.all_cons, convertImageBlock_good hcv, puScan_images_good bs]
            rfl
        · simp only [h2, if_false]
          by_cases h3 : ((JVal.obj kvs).get "type" == some (.str "image")) = true
          · simp only [h3, if_true]
            show (JVal.obj kvs :: (puScan bs).2.1).all goodImage = true
            rw [List.all_cons, puScan_images_good bs]
            have hg : goodImage (JVal.obj kvs) = true := by
              unfold goodImage
              rw [h3]
              simp
            rw [hg]
            rfl
          · simp only [h3, if_false]
            exact puScan_images_good bs

/-- `processUserContent` always emits well-shaped user content. -/
theorem processUserContent_ok (c : JVal) : userContentOk (processUserContent c) = true := by
  cases c with
  | str s =>
    show userContentOk (.str (ensureNonEmpty (.str s) ".")) = true
    have h := ensureNonEmpty_not_blank (.str s) (show jsBlank "." = false by decide)
    simp [userContentOk, h]
  | null =>
    show userContentOk (.str (ensureNonEmpty (.str (toNonEmptyString .null ".")) ".")) = true
    have h := ensureNonEmpty_not_blank (.str (toNonEmptyString .null ".")) (show jsBlank "." = false by decide)
    simp [userContentOk, h]
  | bool b =>
    show userContentOk (.str (ensureNonEmpty (.str (toNonEmptyString (.bool b) ".")) ".")) = true
    have h := ensureNonEmpty_not_blank (.str (toNonEmptyString (.bool b) "."))
      (show jsBlank "." = false by decide)
    simp [userContentOk, h]
  | obj kvs =>
    show userContentOk (.str (ensureNonEmpty (.str (toNonEmptyString (.obj kvs) ".")) ".")) = true
    have h := ensureNonEmpty_not_blank (.str (toNonEmptyString (.obj kvs) "."))
      (show jsBlank "." = false by decide)
    simp [userContentOk, h]
  | arr bs =>
    rw [processUserContent]
    cases hhi : (puScan bs).2.2 with
    | false =>
      simp only [hhi, Bool.not_false, if_true]
      by_cases ht : (jsTrim (String.intercalate "\n" (puScan bs).1) == "") = true
      · simp only [ht, Bool.not_true, Bool.false_eq_true, if_false]
        decide
      · simp only [ht, Bool.not_false, if_true]
        have hne : ¬ jsTrim (String.intercalate "\n" (puScan bs).1) = "" := by
          intro he
          exact absurd (beq_iff_eq.mpr he) ht
        have := jsTrim_not_blank hne
        simp [userContentOk, this]
    | true =>
      simp only [hhi, Bool.not_true, Bool.false_eq_true, if_false]
      have hne := puScan_hasImage bs hhi
      have hall := puScan_images_good bs
      by_cases ht : (jsTrim (String.intercalate "\n" (puScan bs).1) == "") = true
      · simp only [ht, Bool.not_true, Bool.false_eq_true, if_false]
        rw [userContentOk]
        rw [show isTextNorm (textNorm "See attached image:") = some "See attached image:"
          from rfl]
        simp only [hall, Bool.and_true]
        simp [hne, List.isEmpty_iff]
        decide
      · simp only [ht, Bool.not_false, if_true]
        have hne2 : ¬ jsTrim (String.intercalate "\n" (puScan bs).1) = "" := by
          intro he
          exact absurd (beq_iff_eq.mpr he) ht
        have hblank := jsTrim_not_blank hne2
        rw [userContentOk]
        rw [show isTextNorm (textNorm (jsTrim (String.intercalate "\n" (puScan bs).1)))
          = some (jsTrim (String.intercalate "\n" (puScan bs).1)) from rfl]
        show (!jsBlank (jsTrim (String.intercalate "\n" (puScan bs).1))
            && (jsTrim (jsTrim (String.intercalate "\n" (puScan bs).1))
                == jsTrim (String.intercalate "\n" (puScan bs).1))
            && !(puScan bs).2.1.isEmpty && (puScan bs).2.1.all goodImage) = true
        rw [hblank, jsTrim_idem]
        simp [hne, hall, List.isEmpty_iff]

theorem jStringOf_bool (b : Bool) : jStringOf (.bool b) = (if b then "true" else "false") := by
  cases b <;> rw [jStringOf.eq_def] <;> rfl

theorem jStringOf_obj (kvs : List (String × JVal)) : jStringOf (.obj kvs) = "[object Object]" := by
  rw [jStringOf.eq_def]

/-- `processAssistantContent` is never blank. -/
theorem processAssistantContent_ok (c : JVal) :
    jsBlank (processAssistantContent c) = false := by
  cases c with
  | str s =>
    cases hb : jsBlank s with
    | false => simp [processAssistantContent, hb]
    | true => simp [processAssistantContent, hb]; decide
  | null => decide
  | arr bs =>
    rw [processAssistantContent]
    by_cases ht : (jsTrim (String.intercalate "\n" (paScan bs)) == "") = true
    · simp only [ht, Bool.not_true, Bool.false_eq_true, if_false]
      decide
    · simp only [ht, Bool.not_false, if_true]
      exact jsTrim_not_blank (by
        intro he
        exact absurd (beq_iff_eq.mpr he) ht)
  | bool b =>
    cases b <;> rw [processAssistantContent, jStringOf_bool] <;> decide
  | obj kvs =>
    rw [processAssistantContent, jStringOf_obj]
    decide

/-- `processToolContent` is never blank. -/
theorem processToolContent_ok (c : JVal) : jsBlank (processToolContent c) = false := by
  cases c with
  | str s =>
    cases hb : jsBlank s with
    | false => simp [processToolContent, hb]
    | true => simp [processToolContent, hb]; decide
  | null => decide
  | arr xs =>
    rw [processToolContent]
    by_cases hl : (jsonStringify (.arr xs)).length > 2
    · simp only [hl, if_true]
      exact jsonStringify_not_blank _
    · simp only [hl, if_false]
      decide
  | obj kvs =>
    rw [processToolContent]
    by_cases hl : (jsonStringify (.obj kvs)).length > 2
    · simp only [hl, if_true]
      exact jsonStringify_not_blank _
    · simp only [hl, if_false]
      decide
  | bool b =>
    cases b <;> rw [processToolContent, jStringOf_bool] <;> decide

theorem ntcId_ne (tc : JVal) (fresh : Nat → String) (ctr : Nat) :
    ((ntcId tc fresh ctr).1 == "") = false := by
  have hfr : ∀ n, (("tc_" ++ fresh n) == "") = false := by
    intro n
    rw [beq_eq_false_iff_ne]
    intro h
    have hd := congrArg String.data h
    rw [show ("tc_" ++ fresh n).data = 't' :: 'c' :: '_' :: (fresh n).data from rfl] at hd
    exact absurd hd (by simp)
  unfold ntcId
  rcases hid : asStr (tc.get "id") with _ | sid
  · exact hfr ctr
  · cases hs : (sid == "") with
    | false => simp only [hs, Bool.not_false, if_true]
    | true => simp only [hs, Bool.not_true, Bool.false_eq_true, if_false]; exact hfr ctr

theorem ntcName_truthy (tc : JVal) : (ntcName tc).truthy = true := by
  unfold ntcName jOr
  by_cases h1 : ((jGet2 tc "function" "name").getD .null).truthy = true
  · rw [if_pos h1]; exact h1
  · rw [if_neg h1]
    by_cases h2 : ((tc.get "name").getD .null).truthy = true
    · rw [if_pos h2]; exact h2
    · rw [if_neg h2]; decide

theorem ntcArgsC_not_blank (tc : JVal) : jsBlank (ntcArgsC tc) = false := by
  unfold ntcArgsC
  rcases ha : (ntcArgsB tc).asString with _ | sa
  · decide
  · cases hb : jsBlank sa with
    | false => simp only [hb, Bool.not_false, if_true]
    | true => simp only [hb, Bool.not_true, Bool.false_eq_true, if_false]; decide

theorem ntcArgs_ok (tc : JVal) :
    jsBlank (ntcArgs tc) = false ∧ jsonValid (ntcArgs tc) = true := by
  unfold ntcArgs
  by_cases hv : jsonValid (ntcArgsC tc) = true
  · rw [if_pos hv]
    exact ⟨ntcArgsC_not_blank tc, hv⟩
  · rw [if_neg hv]
    exact ⟨jsonStringify_not_blank _, jsonValid_stringify _⟩

theorem ntcGo_all_ok : ∀ (tcs : List JVal) (fresh : Nat → String) (ctr : Nat),
    ((ntcGo tcs fresh ctr).1).all callOk = true
  | [], _, _ => rfl
  | tc :: rest, fresh, ctr => by
    rw [ntcGo]
    by_cases ho : tc.isObjLike = true
    · simp only [ho, if_true]
      show (({ id := (ntcId tc fresh ctr).1, name := ntcName tc, args := ntcArgs tc : ToolCall}
          :: (ntcGo rest fresh (ntcId tc fresh ctr).2).1).all callOk) = true
      rw [List.all_cons]
      have hc : callOk
          { id := (ntcId tc fresh ctr).1, name := ntcName tc, args := ntcArgs tc } = true := by
        unfold callOk
        rw [ntcId_ne, ntcName_truthy, (ntcArgs_ok tc).1, (ntcArgs_ok tc).2]
        rfl
      rw [hc, ntcGo_all_ok rest fresh (ntcId tc fresh ctr).2]
      rfl
    · simp only [ho, if_false]
      exact ntcGo_all_ok rest fresh ctr

theorem normalizeToolCalls_all_ok (v : JVal) (fresh : Nat → String) (ctr : Nat) :
    ((normalizeToolCalls v fresh ctr).1).all callOk = true := by
  unfold normalizeToolCalls
  cases v with
  | arr tcs => exact ntcGo_all_ok tcs fresh ctr
  | null => rfl
  | bool b => rfl
  | str s => rfl
  | obj kvs => rfl

/-! ## The output validity machine -/

/-- One pass of the output discipline: tracks the side of the last message
(`none` before any) and the tool-call ids still awaiting their paired tool
messages, in order; `none` when the discipline is broken.  A `tool` message
must consume the next pending id; every other message requires no pending
ids; sides must alternate. -/
def runT : Option Bool → List String → List NMsg → Option (Option Bool × List String)
  | side, pend, [] => some (side, pend)
  | side, pend, m :: rest =>
    match m with
    | .system _ => none
    | .user _ =>
      if pend.isEmpty && !(side == some true) then runT (some true) [] rest else none
    | .assistant _ [] =>
      if pend.isEmpty && !(side == some false) then runT (some false) [] rest else none
    | .assistant _ (tc :: tcs) =>
      if pend.isEmpty && !(side == some false) then
        runT (some true) ((tc :: tcs).map ToolCall.id) rest
      else none
    | .tool tid _ =>
      match pend with
      | [] => none
      | p :: ps => if p == tid then runT (some true) ps rest else none

/-- The pairing skeleton alone, without side alternation: what STEP 3 already
guarantees of its output. -/
def pairS : List String → List NMsg → Option (List String)
  | pend, [] => some pend
  | pend, m :: rest =>
    match m with
    | .system _ => none
    | .user _ => if pend.isEmpty then pairS [] rest else none
    | .assistant _ tcs => if pend.isEmpty then pairS (tcs.map ToolCall.id) rest else none
    | .tool tid _ =>
      match pend with
      | [] => none
      | p :: ps => if p == tid then pairS ps rest else none

/-- A transcript obeying the full discipline, with no pending id left. -/
def chainOk (l : List NMsg) : Bool :=
  match runT none [] l with
  | some (_, []) => true
  | _ => false

/-- The first message, if any, is user-side. -/
def headUserSide : List NMsg → Bool
  | [] => true
  | m :: _ => sideIsUser m

/-- The call ids of the assistant messages, in order. -/
def usedA : List NMsg → List String
  | [] => []
  | .assistant _ tcs :: rest => tcs.map ToolCall.id ++ usedA rest
  | .system _ :: rest => usedA rest
  | .user _ :: rest => usedA rest
  | .tool _ _ :: rest => usedA rest

/-- The id of a tool message. -/
def toolIdOf : NMsg → Option String
  | .tool id _ => some id
  | .system _ => none
  | .user _ => none
  | .assistant _ _ => none

/-- User contents as present after STEP 5: arbitrary strings (later fixed by
the sweeps) or already-canonical block arrays. -/
def uc5 : JVal → Bool
  | .str _ => true
  | .arr bs => userContentOk (.arr bs)
  | .null => false
  | .bool _ => false
  | .obj _ => false

/-- Shape of a message at the STEP-5/6 stage, relative to the tool ledger
`led` and the consumed-id list `used`. -/
def m5Ok (led : List (String × String)) (used : List String) : NMsg → Bool
  | .system _ => false
  | .user c => uc5 c
  | .assistant _ tcs => tcs.all callOk
  | .tool id c =>
    !(id == "") && (c == ((ledgerLookup led id).getD placeholderResult)) && used.contains id

/-- Shape of a message of the final output. -/
def outOk (led : List (String × String)) (used : List String) : NMsg → Bool
  | .system c => !(jsBlank c)
  | .user c => userContentOk c
  | .assistant c tcs => !(jsBlank c) && tcs.all callOk
  | .tool id c =>
    !(id == "") && (c == ((ledgerLookup led id).getD placeholderResult)) && used.contains id

/-- Every ledger entry has a non-empty key and a non-blank value. -/
def ledOk (led : List (String × String)) : Bool :=
  led.all (fun p => !(p.1 == "") && !(jsBlank p.2))

/-- The ids consumed by the rebuild pass on a raw `messages` array. -/
def invokedIds (msgs : List JVal) (fresh : Nat → String) : List String :=
  (step3 (inputLedger msgs) fresh (step1 msgs).2 0 false).used

theorem runT_append (a : List NMsg) : ∀ (side : Option Bool) (pend : List String)
    (b : List NMsg), runT side pend (a ++ b) =
    match runT side pend a with
    | some st => runT st.1 st.2 b
    | none => none := by
  induction a with
  | nil => intro side pend b; rfl
  | cons m a ih =>
    intro side pend b
    cases m with
    | system c => rfl
    | user c =>
      show (if pend.isEmpty && !(side == some true) then runT (some true) [] (a ++ b)
        else none) = _
      by_cases hc : (pend.isEmpty && !(side == some true)) = true
      · rw [if_pos hc, ih]
        show _ = (match (if pend.isEmpty && !(side == some true) then runT (some true) [] a
          else none) with
          | some st => runT st.1 st.2 b
          | none => none)
        rw [if_pos hc]
      · rw [if_neg hc]
        show _ = (match (if pend.isEmpty && !(side == some true) then runT (some true) [] a
          else none) with
          | some st => runT st.1 st.2 b
          | none => none)
        rw [if_neg hc]
    | assistant c tcs =>
      cases tcs with
      | nil =>
        show (if pend.isEmpty && !(side == some false) then runT (some false) [] (a ++ b)
          else none) = _
        by_cases hc : (pend.isEmpty && !(side == some false)) = true
        · rw [if_pos hc, ih]
          show _ = (match (if pend.isEmpty && !(side == some false) then runT (some false) [] a
            else none) with
            | some st => runT st.1 st.2 b
            | none => none)
          rw [if_pos hc]
        · rw [if_neg hc]
          show _ = (match (if pend.isEmpty && !(side == some false) then runT (some false) [] a
            else none) with
            | some st => runT st.1 st.2 b
            | none => none)
          rw [if_neg hc]
      | cons tc tcs =>
        show (if pend.isEmpty && !(side == some false) then
            runT (some true) ((tc :: tcs).map ToolCall.id) (a ++ b)
          else none) = _
        by_cases hc : (pend.isEmpty && !(side == some false)) = true
        · rw [if_pos hc, ih]
          show _ = (match (if pend.isEmpty && !(side == some false) then
              runT (some true) ((tc :: tcs).map ToolCall.id) a
            else none) with
            | some st => runT st.1 st.2 b
            | none => none)
          rw [if_pos hc]
        · rw [if_neg hc]
          show _ = (match (if pend.isEmpty && !(side == some false) then
              runT (some true) ((tc :: tcs).map ToolCall.id) a
            else none) with
            | some st => runT st.1 st.2 b
            | none => none)
          rw [if_neg hc]
    | tool tid c =>
      cases pend with
      | nil => rfl
      | cons p ps =>
        show (if p == tid then runT (some true) ps (a ++ b) else none) = _
        by_cases hc : (p == tid) = true
        · rw [if_pos hc, ih]
          show _ = (match (if p == tid then runT (some true) ps a else none) with
            | some st => runT st.1 st.2 b
            | none => none)
          rw [if_pos hc]
        · rw [if_neg hc]
          show _ = (match (if p == tid then runT (some true) ps a else none) with
            | some st => runT st.1 st.2 b
            | none => none)
          rw [if_neg hc]

theorem pairS_append (a : List NMsg) : ∀ (pend : List String) (b : List NMsg),
    pairS pend (a ++ b) =
    match pairS pend a with
    | some q => pairS q b
    | none => none := by
  induction a with
  | nil => intro pend b; rfl
  | cons m a ih =>
    intro pend b
    cases m with
    | system c => rfl
    | user c =>
      show (if pend.isEmpty then pairS [] (a ++ b) else none) = _
      by_cases hc : pend.isEmpty = true
      · rw [if_pos hc, ih]
        show _ = (match (if pend.isEmpty then pairS [] a else none) with
          | some q => pairS q b
          | none => none)
        rw [if_pos hc]
      · rw [if_neg hc]
        show _ = (match (if pend.isEmpty then pairS [] a else none) with
          | some q => pairS q b
          | none => none)
        rw [if_neg hc]
    | assistant c tcs =>
      show (if pend.isEmpty then pairS (tcs.map ToolCall.id) (a ++ b) else none) = _
      by_cases hc : pend.isEmpty = true
      · rw [if_pos hc, ih]
        show _ = (match (if pend.isEmpty then pairS (tcs.map ToolCall.id) a else none) with
          | some q => pairS q b
          | none => none)
        rw [if_pos hc]
      · rw [if_neg hc]
        show _ = (match (if pend.isEmpty then pairS (tcs.map ToolCall.id) a else none) with
          | some q => pairS q b
          | none => none)
        rw [if_neg hc]
    | tool tid c =>
      cases pend with
      | nil => rfl
      | cons p ps =>
        show (if p == tid then pairS ps (a ++ b) else none) = _
        by_cases hc : (p == tid) = true
        · rw [if_pos hc, ih]
          show _ = (match (if p == tid then pairS ps a else none) with
            | some q => pairS q b
            | none => none)
          rw [if_pos hc]
        · rw [if_neg hc]
          show _ = (match (if p == tid then pairS ps a else none) with
            | some q => pairS q b
            | none => none)
          rw [if_neg hc]

theorem runT_user_inv {side : Option Bool} {pend : List String} {c : JVal} {rest : List NMsg}
    {st : Option Bool × List String} (h : runT side pend (.user c :: rest) = some st) :
    pend = [] ∧ (side == some true) = false ∧ runT (some true) [] rest = some st := by
  by_cases hc : (pend.isEmpty && !(side == some true)) = true
  · rw [Bool.and_eq_true] at hc
    refine ⟨List.isEmpty_iff.mp hc.1, by simpa using hc.2, ?_⟩
    rw [show runT side pend (.user c :: rest)
      = (if pend.isEmpty && !(side == some true) then runT (some true) [] rest else none)
      from rfl, if_pos (by rw [Bool.and_eq_true]; exact hc)] at h
    exact h
  · rw [show runT side pend (.user c :: rest)
      = (if pend.isEmpty && !(side == some true) then runT (some true) [] rest else none)
      from rfl, if_neg hc] at h
    exact absurd h (by simp)

theorem runT_asst_nil_inv {side : Option Bool} {pend : List String} {c : String}
    {rest : List NMsg} {st : Option Bool × List String}
    (h : runT side pend (.assistant c [] :: rest) = some st) :
    pend = [] ∧ (side == some false) = false ∧ runT (some false) [] rest = some st := by
  by_cases hc : (pend.isEmpty && !(side == some false)) = true
  · rw [Bool.and_eq_true] at hc
    refine ⟨List.isEmpty_iff.mp hc.1, by simpa using hc.2, ?_⟩
    rw [show runT side pend (.assistant c [] :: rest)
      = (if pend.isEmpty && !(side == some false) then runT (some false) [] rest else none)
      from rfl, if_pos (by rw [Bool.and_eq_true]; exact hc)] at h
    exact h
  · rw [show runT side pend (.assistant c [] :: rest)
      = (if pend.isEmpty && !(side == some false) then runT (some false) [] rest else none)
      from rfl, if_neg hc] at h
    exact absurd h (by simp)

theorem runT_asst_cons_inv {side : Option Bool} {pend : List String} {c : String}
    {tc : ToolCall} {tcs : List ToolCall} {rest : List NMsg} {st : Option Bool × List String}
    (h : runT side pend (.assistant c (tc :: tcs) :: rest) = some st) :
    pend = [] ∧ (side == some false) = false ∧
      runT (some true) ((tc :: tcs).map ToolCall.id) rest = some st := by
  by_cases hc : (pend.isEmpty && !(side == some false)) = true
  · rw [Bool.and_eq_true] at hc
    refine ⟨List.isEmpty_iff.mp hc.1, by simpa using hc.2, ?_⟩
    rw [show runT side pend (.assistant c (tc :: tcs) :: rest)
      = (if pend.isEmpty && !(side == some false) then
          runT (some true) ((tc :: tcs).map ToolCall.id) rest else none)
      from rfl, if_pos (by rw [Bool.and_eq_true]; exact hc)] at h
    exact h
  · rw [show runT side pend (.assistant c (tc :: tcs) :: rest)
      = (if pend.isEmpty && !(side == some false) then
          runT (some true) ((tc :: tcs).map ToolCall.id) rest else none)
      from rfl, if_neg hc] at h
    exact absurd h (by simp)

theorem runT_tool_inv {side : Option Bool} {pend : List String} {tid : String} {c : String}
    {rest : List NMsg} {st : Option Bool × List String}
    (h : runT side pend (.tool tid c :: rest) = some st) :
    ∃ ps, pend = tid :: ps ∧ runT (some true) ps rest = some st := by
  cases pend with
  | nil => exact absurd h (by simp [runT])
  | cons p ps =>
    by_cases hc : (p == tid) = true
    · refine ⟨ps, by rw [beq_iff_eq.mp hc], ?_⟩
      rw [show runT side (p :: ps) (.tool tid c :: rest)
        = (if p == tid then runT (some true) ps rest else none) from rfl, if_pos hc] at h
      exact h
    · rw [show runT side (p :: ps) (.tool tid c :: rest)
        = (if p == tid then runT (some true) ps rest else none) from rfl, if_neg hc] at h
      exact absurd h (by simp)

theorem runT_sys_inv {side : Option Bool} {pend : List String} {c : String}
    {rest : List NMsg} {st : Option Bool × List String}
    (h : runT side pend (.system c :: rest) = some st) : False := by
  exact absurd h (by simp [runT])

theorem runT_nil (side : Option Bool) (pend : List String) :
    runT side pend [] = some (side, pend) := rfl

theorem runT_user_eq (side : Option Bool) (pend : List String) (c : JVal) (rest : List NMsg) :
    runT side pend (.user c :: rest)
      = if pend.isEmpty && !(side == some true) then runT (some true) [] rest else none := rfl

theorem runT_asst_nil_eq (side : Option Bool) (pend : List String) (c : String)
    (rest : List NMsg) :
    runT side pend (.assistant c [] :: rest)
      = if pend.isEmpty && !(side == some false) then runT (some false) [] rest else none := rfl

theorem runT_asst_cons_eq (side : Option Bool) (pend : List String) (c : String)
    (tc : ToolCall) (tcs : List ToolCall) (rest : List NMsg) :
    runT side pend (.assistant c (tc :: tcs) :: rest)
      = if pend.isEmpty && !(side == some false) then
          runT (some true) ((tc :: tcs).map ToolCall.id) rest
        else none := rfl

theorem runT_tool_nil_eq (side : Option Bool) (tid c : String) (rest : List NMsg) :
    runT side [] (.tool tid c :: rest) = none := rfl

theorem runT_tool_cons_eq (side : Option Bool) (p : String) (ps : List String)
    (tid c : String) (rest : List NMsg) :
    runT side (p :: ps) (.tool tid c :: rest)
      = if p == tid then runT (some true) ps rest else none := rfl

theorem runT_sys_eq (side : Option Bool) (pend : List String) (c : String)
    (rest : List NMsg) : runT side pend (.system c :: rest) = none := rfl

theorem pairS_nil (pend : List String) : pairS pend [] = some pend := rfl

theorem pairS_user_eq (pend : List String) (c : JVal) (rest : List NMsg) :
    pairS pend (.user c :: rest) = if pend.isEmpty then pairS [] rest else none := rfl

theorem pairS_asst_eq (pend : List String) (c : String) (tcs : List ToolCall)
    (rest : List NMsg) :
    pairS pend (.assistant c tcs :: rest)
      = if pend.isEmpty then pairS (tcs.map ToolCall.id) rest else none := rfl

theorem pairS_tool_nil_eq (tid c : String) (rest : List NMsg) :
    pairS [] (.tool tid c :: rest) = none := rfl

theorem pairS_tool_cons_eq (p : String) (ps : List String) (tid c : String)
    (rest : List NMsg) :
    pairS (p :: ps) (.tool tid c :: rest) = if p == tid then pairS ps rest else none := rfl

theorem pairS_sys_eq (pend : List String) (c : String) (rest : List NMsg) :
    pairS pend (.system c :: rest) = none := rfl

/-! Characterizations of one `step3` step, with the source's `let`s expanded. -/

theorem step3_tool_eq (led : List (String × String)) (fresh : Nat → String) (m : JVal)
    (rest : List JVal) (ctr : Nat) (ch : Bool) (ht : roleIs m "tool" = true) :
    step3 led fresh (m :: rest) ctr ch = step3 led fresh rest ctr ch := by
  rw [step3, if_pos ht]

theorem step3_user_eq (led : List (String × String)) (fresh : Nat → String) (m : JVal)
    (rest : List JVal) (ctr : Nat) (ch : Bool) (ht : roleIs m "tool" = false)
    (hu : roleIs m "user" = true) :
    step3 led fresh (m :: rest) ctr ch =
      ⟨.user (processUserContent (contentOf m)) :: (step3 led fresh rest ctr ch).msgs,
       (step3 led fresh rest ctr ch).used, (step3 led fresh rest ctr ch).ctr,
       (step3 led fresh rest ctr ch).changed⟩ := by
  rw [step3, if_neg (by rw [ht]; exact Bool.false_ne_true), if_pos hu]

theorem step3_asst_eq (led : List (String × String)) (fresh : Nat → String) (m : JVal)
    (rest : List JVal) (ctr : Nat) (ch : Bool) (ht : roleIs m "tool" = false)
    (hu : roleIs m "user" = false) (ha : roleIs m "assistant" = true) :
    step3 led fresh (m :: rest) ctr ch =
      ⟨.assistant (processAssistantContent (contentOf m))
          (normalizeToolCalls ((m.get "tool_calls").getD .null) fresh ctr).1 ::
        ((normalizeToolCalls ((m.get "tool_calls").getD .null) fresh ctr).1.map
          (fun tc => NMsg.tool tc.id ((ledgerLookup led tc.id).getD placeholderResult))) ++
        (step3 led fresh rest (normalizeToolCalls ((m.get "tool_calls").getD .null) fresh ctr).2
          (ch || (normalizeToolCalls ((m.get "tool_calls").getD .null) fresh ctr).1.any
            (fun tc => (ledgerLookup led tc.id).isNone))).msgs,
       (normalizeToolCalls ((m.get "tool_calls").getD .null) fresh ctr).1.map ToolCall.id ++
        (step3 led fresh rest (normalizeToolCalls ((m.get "tool_calls").getD .null) fresh ctr).2
          (ch || (normalizeToolCalls ((m.get "tool_calls").getD .null) fresh ctr).1.any
            (fun tc => (ledgerLookup led tc.id).isNone))).used,
       (step3 led fresh rest (normalizeToolCalls ((m.get "tool_calls").getD .null) fresh ctr).2
          (ch || (normalizeToolCalls ((m.get "tool_calls").getD .null) fresh ctr).1.any
            (fun tc => (ledgerLookup led tc.id).isNone))).ctr,
       (step3 led fresh rest (normalizeToolCalls ((m.get "tool_calls").getD .null) fresh ctr).2
          (ch || (normalizeToolCalls ((m.get "tool_calls").getD .null) fresh ctr).1.any
            (fun tc => (ledgerLookup led tc.id).isNone))).changed⟩ := by
  rw [step3, if_neg (by rw [ht]; exact Bool.false_ne_true),
    if_neg (by rw [hu]; exact Bool.false_ne_true), if_pos ha]

theorem step3_unknown_eq (led : List (String × String)) (fresh : Nat → String) (m : JVal)
    (rest : List JVal) (ctr : Nat) (ch : Bool) (ht : roleIs m "tool" = false)
    (hu : roleIs m "user" = false) (ha : roleIs m "assistant" = false) :
    step3 led fresh (m :: rest) ctr ch = step3 led fresh rest ctr true := by
  rw [step3, if_neg (by rw [ht]; exact Bool.false_ne_true),
    if_neg (by rw [hu]; exact Bool.false_ne_true),
    if_neg (by rw [ha]; exact Bool.false_ne_true)]

theorem contains_append_right {pre used : List String} {x : String}
    (h : used.contains x = true) : (pre ++ used).contains x = true := by
  have hx : x ∈ used := by simpa using h
  simpa using Or.inr hx

theorem contains_append_left {pre used : List String} {x : String}
    (h : pre.contains x = true) : (pre ++ used).contains x = true := by
  have hx : x ∈ pre := by simpa using h
  simpa using Or.inl hx

theorem m5Ok_mono (led : List (String × String)) (pre used : List String) (m : NMsg)
    (h : m5Ok led used m = true) : m5Ok led (pre ++ used) m = true := by
  cases m with
  | system c => exact h
  | user c => exact h
  | assistant c tcs => exact h
  | tool tid c =>
    have h' := h
    unfold m5Ok at h' ⊢
    rw [Bool.and_eq_true, Bool.and_eq_true] at h'
    rw [Bool.and_eq_true, Bool.and_eq_true]
    exact ⟨h'.1, contains_append_right h'.2⟩

theorem uc5_of_userContentOk {v : JVal} (h : userContentOk v = true) : uc5 v = true := by
  cases v with
  | str s => rfl
  | arr bs => exact h
  | null => exact absurd h (by simp [userContentOk])
  | bool b => exact absurd h (by simp [userContentOk])
  | obj kvs => exact absurd h (by simp [userContentOk])

theorem pairS_map_tools (f : ToolCall → String) :
    ∀ (tcs : List ToolCall) (rest : List NMsg),
    pairS (tcs.map ToolCall.id) (tcs.map (fun tc => NMsg.tool tc.id (f tc)) ++ rest)
      = pairS [] rest := by
  intro tcs
  induction tcs with
  | nil => intro rest; rfl
  | cons tc tcs ih =>
    intro rest
    rw [List.map_cons, List.map_cons, List.cons_append, pairS_tool_cons_eq,
      if_pos (by simp), ih]

theorem step3_sound (led : List (String × String)) (fresh : Nat → String) :
    ∀ (ms : List JVal) (ctr : Nat) (ch : Bool),
    pairS [] (step3 led fresh ms ctr ch).msgs = some [] ∧
    ((step3 led fresh ms ctr ch).msgs).all (m5Ok led ((step3 led fresh ms ctr ch).used))
      = true := by
  intro ms
  induction ms with
  | nil => intro ctr ch; exact ⟨rfl, rfl⟩
  | cons m rest ih =>
    intro ctr ch
    by_cases ht : roleIs m "tool" = true
    · rw [step3_tool_eq led fresh m rest ctr ch ht]
      exact ih ctr ch
    · rw [Bool.not_eq_true] at ht
      by_cases hu : roleIs m "user" = true
      · rw [step3_user_eq led fresh m rest ctr ch ht hu]
        dsimp only
        refine ⟨?_, ?_⟩
        · rw [pairS_user_eq, if_pos List.isEmpty_nil]
          exact (ih ctr ch).1
        · rw [List.all_cons, Bool.and_eq_true]
          exact ⟨uc5_of_userContentOk (processUserContent_ok (contentOf m)), (ih ctr ch).2⟩
      · rw [Bool.not_eq_true] at hu
        by_cases ha : roleIs m "assistant" = true
        · rw [step3_asst_eq led fresh m rest ctr ch ht hu ha]
          dsimp only
          rw [List.cons_append]
          have hcall := normalizeToolCalls_all_ok ((m.get "tool_calls").getD .null) fresh ctr
          refine ⟨?_, ?_⟩
          · rw [pairS_asst_eq, if_pos List.isEmpty_nil, pairS_map_tools]
            exact (ih _ _).1
          · rw [List.all_cons, Bool.and_eq_true]
            refine ⟨hcall, ?_⟩
            rw [List.all_append, Bool.and_eq_true]
            constructor
            · rw [List.all_eq_true]
              intro x hx
              rcases List.mem_map.mp hx with ⟨tc, htc, rfl⟩
              show m5Ok led _ (.tool tc.id _) = true
              unfold m5Ok
              rw [Bool.and_eq_true, Bool.and_eq_true]
              refine ⟨⟨?_, by simp⟩, ?_⟩
              · have hc := List.all_eq_true.mp hcall tc htc
                unfold callOk at hc
                rw [Bool.and_eq_true, Bool.and_eq_true, Bool.and_eq_true] at hc
                exact hc.1.1.1
              · exact contains_append_left (by
                  simpa using List.mem_map.mpr ⟨tc, htc, rfl⟩)
            · rw [List.all_eq_true]
              intro x hx
              exact m5Ok_mono led _ _ x (List.all_eq_true.mp (ih _ _).2 x hx)
        · rw [Bool.not_eq_true] at ha
          rw [step3_unknown_eq led fresh m rest ctr ch ht hu ha]
          exact ih ctr true

theorem isUserM_pairS : ∀ (l : List NMsg), l.all isUserM = true → pairS [] l = some [] := by
  intro l
  induction l with
  | nil => intro h; rfl
  | cons m rest ih =>
    intro h
    rw [List.all_cons, Bool.and_eq_true] at h
    cases m with
    | user c =>
      rw [pairS_user_eq, if_pos List.isEmpty_nil]
      exact ih h.2
    | system c => exact absurd h.1 Bool.false_ne_true
    | assistant c tcs => exact absurd h.1 Bool.false_ne_true
    | tool tid c => exact absurd h.1 Bool.false_ne_true

theorem orphanUsers_all_user (led : List (String × String)) (used : List String) :
    (orphanUsers led used).all isUserM = true := by
  unfold orphanUsers
  rw [List.all_eq_true]
  intro x hx
  rcases List.mem_map.mp hx with ⟨p, hp, rfl⟩
  rfl

theorem orphanUsers_all_m5Ok (led0 : List (String × String)) (used0 : List String)
    (led : List (String × String)) (used : List String) :
    (orphanUsers led0 used0).all (m5Ok led used) = true := by
  unfold orphanUsers
  rw [List.all_eq_true]
  intro x hx
  rcases List.mem_map.mp hx with ⟨p, hp, rfl⟩
  rfl

theorem mapSet_ledOk {acc : List (String × String)} {k v : String}
    (hk : (k == "") = false) (hv : jsBlank v = false) (hacc : ledOk acc = true) :
    ledOk (mapSet acc k v) = true := by
  unfold mapSet
  by_cases he : acc.any (fun p => p.1 == k) = true
  · rw [if_pos he]
    unfold ledOk at hacc ⊢
    rw [List.all_eq_true]
    intro q hq
    rcases List.mem_map.mp hq with ⟨p, hp, rfl⟩
    by_cases hpk : (p.1 == k) = true
    · simp only [hpk, if_true]
      show (!(k == "") && !(jsBlank v)) = true
      rw [hk, hv]
      rfl
    · simp only [hpk, if_false]
      exact List.all_eq_true.mp hacc p hp
  · rw [if_neg he]
    unfold ledOk at hacc ⊢
    rw [List.all_append, Bool.and_eq_true]
    refine ⟨hacc, ?_⟩
    show ((!(k == "") && !(jsBlank v)) && true) = true
    rw [hk, hv]
    rfl

theorem step2_ledOk : ∀ (ms : List JVal) (acc : List (String × String)),
    ledOk acc = true → ledOk (step2 ms acc) = true := by
  intro ms
  induction ms with
  | nil => intro acc h; exact h
  | cons m rest ih =>
    intro acc h
    rw [step2]
    by_cases ht : roleIs m "tool" = true
    · rw [if_pos ht]
      rcases hid : asStr (m.get "tool_call_id") with _ | sid
      · exact ih acc h
      · show ledOk (if !(sid == "") then
          step2 rest (mapSet acc sid (processToolContent (contentOf m)))
          else step2 rest acc) = true
        by_cases hs : (sid == "") = true
        · rw [hs]
          show ledOk (if false then _ else step2 rest acc) = true
          rw [if_neg (by simp)]
          exact ih acc h
        · have hs' : (sid == "") = false := eq_false_of_ne_true hs
          rw [hs']
          show ledOk (if true then
            step2 rest (mapSet acc sid (processToolContent (contentOf m))) else _) = true
          rw [if_pos rfl]
          exact ih _ (mapSet_ledOk hs' (processToolContent_ok (contentOf m)) h)
    · rw [if_neg ht]
      exact ih acc h

theorem ledOk_buildLedger (ms : List JVal) : ledOk (buildLedger ms) = true :=
  step2_ledOk ms [] rfl

theorem runT_snoc_user {l : List NMsg} {c : JVal} {side : Option Bool} {pend : List String}
    (h : runT none [] (l ++ [.user c]) = some (side, pend)) :
    side = some true ∧ pend = [] ∧
      ∃ s0, runT none [] l = some (s0, []) ∧ (s0 == some true) = false := by
  rw [runT_append] at h
  rcases h0 : runT none [] l with _ | st0
  · rw [h0] at h
    exact absurd h (by simp)
  · rw [h0] at h
    have h' : runT st0.1 st0.2 [.user c] = some (side, pend) := h
    rcases runT_user_inv h' with ⟨hp, hs, hr⟩
    rw [runT_nil] at hr
    rcases Option.some.inj hr with hr2
    rcases Prod.mk.injEq _ _ _ _ ▸ hr2 with ⟨hside, hpend⟩
    exact ⟨hside.symm, hpend.symm, st0.1, by rw [← hp], hs⟩

theorem runT_snoc_asst_nil {l : List NMsg} {c : String} {side : Option Bool}
    {pend : List String} (h : runT none [] (l ++ [.assistant c []]) = some (side, pend)) :
    side = some false ∧ pend = [] ∧
      ∃ s0, runT none [] l = some (s0, []) ∧ (s0 == some false) = false := by
  rw [runT_append] at h
  rcases h0 : runT none [] l with _ | st0
  · rw [h0] at h
    exact absurd h (by simp)
  · rw [h0] at h
    have h' : runT st0.1 st0.2 [.assistant c []] = some (side, pend) := h
    rcases runT_asst_nil_inv h' with ⟨hp, hs, hr⟩
    rw [runT_nil] at hr
    rcases Option.some.inj hr with hr2
    rcases Prod.mk.injEq _ _ _ _ ▸ hr2 with ⟨hside, hpend⟩
    exact ⟨hside.symm, hpend.symm, st0.1, by rw [← hp], hs⟩

theorem runT_snoc_asst_cons {l : List NMsg} {c : String} {tc : ToolCall} {tcs : List ToolCall}
    {side : Option Bool} {pend : List String}
    (h : runT none [] (l ++ [.assistant c (tc :: tcs)]) = some (side, pend)) :
    side = some true ∧ pend = (tc :: tcs).map ToolCall.id ∧
      ∃ s0, runT none [] l = some (s0, []) ∧ (s0 == some false) = false := by
  rw [runT_append] at h
  rcases h0 : runT none [] l with _ | st0
  · rw [h0] at h
    exact absurd h (by simp)
  · rw [h0] at h
    have h' : runT st0.1 st0.2 [.assistant c (tc :: tcs)] = some (side, pend) := h
    rcases runT_asst_cons_inv h' with ⟨hp, hs, hr⟩
    rw [runT_nil] at hr
    rcases Option.some.inj hr with hr2
    rcases Prod.mk.injEq _ _ _ _ ▸ hr2 with ⟨hside, hpend⟩
    exact ⟨hside.symm, hpend.symm, st0.1, by rw [← hp], hs⟩

theorem runT_snoc_tool {l : List NMsg} {tid c : String} {side : Option Bool}
    {pend : List String} (h : runT none [] (l ++ [.tool tid c]) = some (side, pend)) :
    side = some true ∧ ∃ s0, runT none [] l = some (s0, tid :: pend) := by
  rw [runT_append] at h
  rcases h0 : runT none [] l with _ | st0
  · rw [h0] at h
    exact absurd h (by simp)
  · rw [h0] at h
    have h' : runT st0.1 st0.2 [.tool tid c] = some (side, pend) := h
    rcases runT_tool_inv h' with ⟨ps, hp, hr⟩
    rw [runT_nil] at hr
    rcases Option.some.inj hr with hr2
    rcases Prod.mk.injEq _ _ _ _ ▸ hr2 with ⟨hside, hpend⟩
    refine ⟨hside.symm, st0.1, ?_⟩
    rw [← hpend, ← hp]

theorem runT_snoc_sys {l : List NMsg} {c : String} {side : Option Bool} {pend : List String}
    (h : runT none [] (l ++ [.system c]) = some (side, pend)) : False := by
  rw [runT_append] at h
  rcases h0 : runT none [] l with _ | st0
  · rw [h0] at h
    exact absurd h (by simp)
  · rw [h0] at h
    have h' : runT st0.1 st0.2 [.system c] = some (side, pend) := h
    rw [runT_sys_eq] at h'
    exact absurd h' (by simp)

theorem runT_snoc_user_intro {l : List NMsg} {s0 : Option Bool}
    (h : runT none [] l = some (s0, [])) (hs : (s0 == some true) = false) (c : JVal) :
    runT none [] (l ++ [.user c]) = some (some true, []) := by
  rw [runT_append, h]
  show runT s0 [] [.user c] = some (some true, [])
  rw [runT_user_eq, if_pos (by rw [hs]; rfl), runT_nil]

theorem runT_snoc_asst_nil_intro {l : List NMsg} {s0 : Option Bool}
    (h : runT none [] l = some (s0, [])) (hs : (s0 == some false) = false) (c : String) :
    runT none [] (l ++ [.assistant c []]) = some (some false, []) := by
  rw [runT_append, h]
  show runT s0 [] [.assistant c []] = some (some false, [])
  rw [runT_asst_nil_eq, if_pos (by rw [hs]; rfl), runT_nil]

theorem runT_snoc_asst_cons_intro {l : List NMsg} {s0 : Option Bool}
    (h : runT none [] l = some (s0, [])) (hs : (s0 == some false) = false) (c : String)
    (tc : ToolCall) (tcs : List ToolCall) :
    runT none [] (l ++ [.assistant c (tc :: tcs)])
      = some (some true, (tc :: tcs).map ToolCall.id) := by
  rw [runT_append, h]
  show runT s0 [] [.assistant c (tc :: tcs)] = some (some true, (tc :: tcs).map ToolCall.id)
  rw [runT_asst_cons_eq, if_pos (by rw [hs]; rfl), runT_nil]

theorem runT_snoc_tool_intro {l : List NMsg} {s0 : Option Bool} {tid : String}
    {ps : List String} (h : runT none [] l = some (s0, tid :: ps)) (c : String) :
    runT none [] (l ++ [.tool tid c]) = some (some true, ps) := by
  rw [runT_append, h]
  show runT s0 (tid :: ps) [.tool tid c] = some (some true, ps)
  rw [runT_tool_cons_eq, if_pos (by simp), runT_nil]

theorem pairS_user_inv {pend : List String} {c : JVal} {rest : List NMsg}
    (h : pairS pend (.user c :: rest) = some []) :
    pend = [] ∧ pairS [] rest = some [] := by
  rw [pairS_user_eq] at h
  by_cases hp : pend.isEmpty = true
  · rw [if_pos hp] at h
    exact ⟨List.isEmpty_iff.mp hp, h⟩
  · rw [if_neg hp] at h
    exact absurd h (by simp)

theorem pairS_asst_inv {pend : List String} {c : String} {tcs : List ToolCall}
    {rest : List NMsg} (h : pairS pend (.assistant c tcs :: rest) = some []) :
    pend = [] ∧ pairS (tcs.map ToolCall.id) rest = some [] := by
  rw [pairS_asst_eq] at h
  by_cases hp : pend.isEmpty = true
  · rw [if_pos hp] at h
    exact ⟨List.isEmpty_iff.mp hp, h⟩
  · rw [if_neg hp] at h
    exact absurd h (by simp)

theorem pairS_tool_inv {pend : List String} {tid c : String} {rest : List NMsg}
    (h : pairS pend (.tool tid c :: rest) = some []) :
    ∃ ps, pend = tid :: ps ∧ pairS ps rest = some [] := by
  cases pend with
  | nil => exact absurd h (by rw [pairS_tool_nil_eq]; simp)
  | cons p ps =>
    rw [pairS_tool_cons_eq] at h
    by_cases hc : (p == tid) = true
    · rw [if_pos hc] at h
      exact ⟨ps, by rw [beq_iff_eq.mp hc], h⟩
    · rw [if_neg hc] at h
      exact absurd h (by simp)

theorem pairS_sys_inv {pend : List String} {c : String} {rest : List NMsg}
    (h : pairS pend (.system c :: rest) = some []) : False := by
  rw [pairS_sys_eq] at h
  exact absurd h (by simp)

theorem step5Go_nil_eq (racc : List NMsg) (ch : Bool) :
    step5Go racc ch [] = (racc.reverse, ch) := rfl

theorem step5Go_start_eq (ch : Bool) (m : NMsg) (rest : List NMsg) :
    step5Go [] ch (m :: rest) = step5Go [m] ch rest := rfl

theorem step5Go_step_eq (prev : NMsg) (racc' : List NMsg) (ch : Bool) (m : NMsg)
    (rest : List NMsg) :
    step5Go (prev :: racc') ch (m :: rest) =
      if isToolM m && isAsstM prev && hasToolCalls prev then
        step5Go (m :: prev :: racc') ch rest
      else if isToolM m && isToolM prev then step5Go (m :: prev :: racc') ch rest
      else if sideIsUser prev == sideIsUser m then
        if sideIsUser prev then
          match userStr prev with
          | some ps =>
            match userStr m with
            | some ms => step5Go (.user (.str (ps ++ "\n\n" ++ ms)) :: racc') true rest
            | none => step5Go (m :: .assistant "Understood." [] :: prev :: racc') true rest
          | none => step5Go (m :: .assistant "Understood." [] :: prev :: racc') true rest
        else
          match asstPlain prev with
          | some pc =>
            match asstPlain m with
            | some mc => step5Go (.assistant (pc ++ "\n\n" ++ mc) [] :: racc') true rest
            | none => step5Go (m :: .user (.str "Continue.") :: prev :: racc') true rest
          | none => step5Go (m :: .user (.str "Continue.") :: prev :: racc') true rest
      else step5Go (m :: prev :: racc') ch rest := rfl

theorem step5Go_ok (led : List (String × String)) (used : List String) :
    ∀ (rest racc : List NMsg) (ch : Bool) (side : Option Bool) (pend : List String),
    runT none [] racc.reverse = some (side, pend) →
    pairS pend rest = some [] →
    racc.all (m5Ok led used) = true →
    rest.all (m5Ok led used) = true →
    chainOk (step5Go racc ch rest).1 = true ∧
      ((step5Go racc ch rest).1).all (m5Ok led used) = true := by
  intro rest
  induction rest with
  | nil =>
    intro racc ch side pend hrun hpair hracc _
    rw [pairS_nil] at hpair
    rcases Option.some.inj hpair with hpe
    rw [hpe] at hrun
    rw [step5Go_nil_eq]
    refine ⟨?_, ?_⟩
    · unfold chainOk
      rw [hrun]
    · rw [List.all_eq_true]
      intro x hx
      exact List.all_eq_true.mp hracc x (List.mem_reverse.mp hx)
  | cons m rest' ih =>
    intro racc ch side pend hrun hpair hracc hrest
    rw [List.all_cons, Bool.and_eq_true] at hrest
    rcases hrest with ⟨hm, hrest'⟩
    cases racc with
    | nil =>
      have hsp : ((none : Option Bool), ([] : List String)) = (side, pend) :=
        Option.some.inj hrun
      rcases Prod.mk.injEq _ _ _ _ ▸ hsp with ⟨hside, hpend⟩
      rw [← hside] at *
      rw [← hpend] at hpair
      rw [step5Go_start_eq]
      cases m with
      | system sc => exact absurd hpair (by rw [pairS_sys_eq]; simp)
      | user c =>
        rcases pairS_user_inv hpair with ⟨_, hp2⟩
        refine ih [.user c] ch (some true) [] rfl hp2 ?_ hrest'
        rw [List.all_cons, Bool.and_eq_true]
        exact ⟨hm, rfl⟩
      | assistant mc mtcs =>
        rcases pairS_asst_inv hpair with ⟨_, hp2⟩
        cases mtcs with
        | nil =>
          refine ih [.assistant mc []] ch (some false) [] rfl hp2 ?_ hrest'
          rw [List.all_cons, Bool.and_eq_true]
          exact ⟨hm, rfl⟩
        | cons mtc mtcs2 =>
          refine ih [.assistant mc (mtc :: mtcs2)] ch (some true)
            ((mtc :: mtcs2).map ToolCall.id) rfl hp2 ?_ hrest'
          rw [List.all_cons, Bool.and_eq_true]
          exact ⟨hm, rfl⟩
      | tool tid c => exact absurd hpair (by rw [pairS_tool_nil_eq]; simp)
    | cons prev racc2 =>
      rw [List.reverse_cons] at hrun
      rw [List.all_cons, Bool.and_eq_true] at hracc
      rcases hracc with ⟨hprev, hracc2⟩
      rw [step5Go_step_eq]
      cases m with
      | system sc => exact (pairS_sys_inv hpair).elim
      | user c =>
        rcases pairS_user_inv hpair with ⟨hpe, hp2⟩
        cases prev with
        | system pc => exact (runT_snoc_sys hrun).elim
        | user pc =>
          rcases runT_snoc_user hrun with ⟨hside, hpend2, s0, h0, hs0⟩
          rw [hside, hpend2] at hrun
          rcases hps : userStr (NMsg.user pc) with _ | ps
          · have h1 := runT_snoc_asst_nil_intro hrun rfl "Understood."
            have h2 := runT_snoc_user_intro h1 rfl c
            refine ih (NMsg.user c :: .assistant "Understood." [] :: .user pc :: racc2)
              true (some true) [] ?_ hp2 ?_ hrest'
            · rw [List.reverse_cons, List.reverse_cons, List.reverse_cons]
              exact h2
            · rw [List.all_cons, Bool.and_eq_true, List.all_cons, Bool.and_eq_true,
                List.all_cons, Bool.and_eq_true]
              exact ⟨hm, rfl, hprev, hracc2⟩
          · rcases hmc : userStr (NMsg.user c) with _ | ms
            · have h1 := runT_snoc_asst_nil_intro hrun rfl "Understood."
              have h2 := runT_snoc_user_intro h1 rfl c
              refine ih (NMsg.user c :: .assistant "Understood." [] :: .user pc :: racc2)
                true (some true) [] ?_ hp2 ?_ hrest'
              · rw [List.reverse_cons, List.reverse_cons, List.reverse_cons]
                exact h2
              · rw [List.all_cons, Bool.and_eq_true, List.all_cons, Bool.and_eq_true,
                  List.all_cons, Bool.and_eq_true]
                exact ⟨hm, rfl, hprev, hracc2⟩
            · have h2 := runT_snoc_user_intro h0 hs0
                (JVal.str (ps ++ "\n\n" ++ ms))
              refine ih (NMsg.user (.str (ps ++ "\n\n" ++ ms)) :: racc2)
                true (some true) [] ?_ hp2 ?_ hrest'
              · rw [List.reverse_cons]
                exact h2
              · rw [List.all_cons, Bool.and_eq_true]
                exact ⟨rfl, hracc2⟩
        | tool ptid pc =>
          rcases runT_snoc_tool hrun with ⟨hside, s0, h0⟩
          rw [hside, hpe] at hrun
          have h1 := runT_snoc_asst_nil_intro hrun rfl "Understood."
          have h2 := runT_snoc_user_intro h1 rfl c
          refine ih (NMsg.user c :: .assistant "Understood." [] :: .tool ptid pc :: racc2)
            true (some true) [] ?_ hp2 ?_ hrest'
          · rw [List.reverse_cons, List.reverse_cons, List.reverse_cons]
            exact h2
          · rw [List.all_cons, Bool.and_eq_true, List.all_cons, Bool.and_eq_true,
              List.all_cons, Bool.and_eq_true]
            exact ⟨hm, rfl, hprev, hracc2⟩
        | assistant pc ptcs =>
          cases ptcs with
          | nil =>
            rcases runT_snoc_asst_nil hrun with ⟨hside, hpend2, s0, h0, hs0⟩
            rw [hside, hpend2] at hrun
            have h2 := runT_snoc_user_intro hrun rfl c
            refine ih (NMsg.user c :: .assistant pc [] :: racc2)
              ch (some true) [] ?_ hp2 ?_ hrest'
            · rw [List.reverse_cons, List.reverse_cons]
              exact h2
            · rw [List.all_cons, Bool.and_eq_true, List.all_cons, Bool.and_eq_true]
              exact ⟨hm, hprev, hracc2⟩
          | cons ptc ptcs2 =>
            rcases runT_snoc_asst_cons hrun with ⟨_, hpend2, _⟩
            rw [hpe] at hpend2
            exact nomatch hpend2
      | assistant mc mtcs =>
        rcases pairS_asst_inv hpair with ⟨hpe, hp2⟩
        cases prev with
        | system pc => exact (runT_snoc_sys hrun).elim
        | user pc =>
          rcases runT_snoc_user hrun with ⟨hside, hpend2, s0, h0, hs0⟩
          rw [hside, hpend2] at hrun
          cases mtcs with
          | nil =>
            have h2 := runT_snoc_asst_nil_intro hrun rfl mc
            refine ih (NMsg.assistant mc [] :: .user pc :: racc2)
              ch (some false) [] ?_ hp2 ?_ hrest'
            · rw [List.reverse_cons, List.reverse_cons]
              exact h2
            · rw [List.all_cons, Bool.and_eq_true, List.all_cons, Bool.and_eq_true]
              exact ⟨hm, hprev, hracc2⟩
          | cons mtc mtcs2 =>
            have h2 := runT_snoc_asst_cons_intro hrun rfl mc mtc mtcs2
            refine ih (NMsg.assistant mc (mtc :: mtcs2) :: .user pc :: racc2)
              ch (some true) ((mtc :: mtcs2).map ToolCall.id) ?_ hp2 ?_ hrest'
            · rw [List.reverse_cons, List.reverse_cons]
              exact h2
            · rw [List.all_cons, Bool.and_eq_true, List.all_cons, Bool.and_eq_true]
              exact ⟨hm, hprev, hracc2⟩
        | tool ptid pc =>
          rcases runT_snoc_tool hrun with ⟨hside, s0, h0⟩
          rw [hside, hpe] at hrun
          cases mtcs with
          | nil =>
            have h2 := runT_snoc_asst_nil_intro hrun rfl mc
            refine ih (NMsg.assistant mc [] :: .tool ptid pc :: racc2)
              ch (some false) [] ?_ hp2 ?_ hrest'
            · rw [List.reverse_cons, List.reverse_cons]
              exact h2
            · rw [List.all_cons, Bool.and_eq_true, List.all_cons, Bool.and_eq_true]
              exact ⟨hm, hprev, hracc2⟩
          | cons mtc mtcs2 =>
            have h2 := runT_snoc_asst_cons_intro hrun rfl mc mtc mtcs2
            refine ih (NMsg.assistant mc (mtc :: mtcs2) :: .tool ptid pc :: racc2)
              ch (some true) ((mtc :: mtcs2).map ToolCall.id) ?_ hp2 ?_ hrest'
            · rw [List.reverse_cons, List.reverse_cons]
              exact h2
            · rw [List.all_cons, Bool.and_eq_true, List.all_cons, Bool.and_eq_true]
              exact ⟨hm, hprev, hracc2⟩
        | assistant pc ptcs =>
          cases ptcs with
          | nil =>
            rcases runT_snoc_asst_nil hrun with ⟨hside, hpend2, s0, h0, hs0⟩
            rw [hside, hpend2] at hrun
            cases mtcs with
            | nil =>
              have h2 := runT_snoc_asst_nil_intro h0 hs0 (pc ++ "\n\n" ++ mc)
              refine ih (NMsg.assistant (pc ++ "\n\n" ++ mc) [] :: racc2)
                true (some false) [] ?_ hp2 ?_ hrest'
              · rw [List.reverse_cons]
                exact h2
              · rw [List.all_cons, Bool.and_eq_true]
                exact ⟨rfl, hracc2⟩
            | cons mtc mtcs2 =>
              have h1 := runT_snoc_user_intro hrun rfl (JVal.str "Continue.")
              have h2 := runT_snoc_asst_cons_intro h1 rfl mc mtc mtcs2
              refine ih (NMsg.assistant mc (mtc :: mtcs2) :: .user (.str "Continue.")
                  :: .assistant pc [] :: racc2)
                true (some true) ((mtc :: mtcs2).map ToolCall.id) ?_ hp2 ?_ hrest'
              · rw [List.reverse_cons, List.reverse_cons, List.reverse_cons]
                exact h2
              · rw [List.all_cons, Bool.and_eq_true, List.all_cons, Bool.and_eq_true,
                  List.all_cons, Bool.and_eq_true]
                exact ⟨hm, rfl, hprev, hracc2⟩
          | cons ptc ptcs2 =>
            rcases runT_snoc_asst_cons hrun with ⟨_, hpend2, _⟩
            rw [hpe] at hpend2
            exact nomatch hpend2
      | tool tid c =>
        rcases pairS_tool_inv hpair with ⟨ps, hpe, hp2⟩
        rw [hpe] at hrun
        cases prev with
        | system pc => exact (runT_snoc_sys hrun).elim
        | user pc =>
          rcases runT_snoc_user hrun with ⟨_, hpend2, _⟩
          exact nomatch hpend2
        | tool ptid pc =>
          have h2 := runT_snoc_tool_intro hrun c
          refine ih (NMsg.tool tid c :: .tool ptid pc :: racc2)
            ch (some true) ps ?_ hp2 ?_ hrest'
          · rw [List.reverse_cons, List.reverse_cons]
            exact h2
          · rw [List.all_cons, Bool.and_eq_true, List.all_cons, Bool.and_eq_true]
            exact ⟨hm, hprev, hracc2⟩
        | assistant pc ptcs =>
          cases ptcs with
          | nil =>
            rcases runT_snoc_asst_nil hrun with ⟨_, hpend2, _⟩
            exact nomatch hpend2
          | cons ptc ptcs2 =>
            have h2 := runT_snoc_tool_intro hrun c
            refine ih (NMsg.tool tid c :: .assistant pc (ptc :: ptcs2) :: racc2)
              ch (some true) ps ?_ hp2 ?_ hrest'
            · rw [List.reverse_cons, List.reverse_cons]
              exact h2
            · rw [List.all_cons, Bool.and_eq_true, List.all_cons, Bool.and_eq_true]
              exact ⟨hm, hprev, hracc2⟩

theorem chainOk_of_runT {l : List NMsg} {sd : Option Bool}
    (h : runT none [] l = some (sd, [])) : chainOk l = true := by
  unfold chainOk
  rw [h]

theorem chainOk_some {l : List NMsg} (h : chainOk l = true) :
    ∃ sd, runT none [] l = some (sd, []) := by
  unfold chainOk at h
  rcases hr : runT none [] l with _ | st
  · rw [hr] at h
    exact absurd h (by simp)
  · rcases st with ⟨sd, pend⟩
    cases pend with
    | nil => exact ⟨sd, rfl⟩
    | cons p ps =>
      rw [hr] at h
      exact absurd h (by simp)

/-! The pipeline stages, named for the proofs. -/

/-- STEP 3 as run by the engine. -/
def stage3 (input : List JVal) (fresh : Nat → String) : Step3Out :=
  step3 (inputLedger input) fresh (step1 input).2 0 false

/-- The STEP-5 input: rebuilt sequence plus the orphan conversions. -/
def stage5in (input : List JVal) (fresh : Nat → String) : List NMsg :=
  (stage3 input fresh).msgs ++ orphanUsers (inputLedger input) (stage3 input fresh).used

/-- STEP 5 as run by the engine. -/
def stage5 (input : List JVal) (fresh : Nat → String) : List NMsg × Bool :=
  step5Go [] ((stage3 input fresh).changed
    || !(orphanUsers (inputLedger input) (stage3 input fresh).used).isEmpty)
    (stage5in input fresh)

/-- STEP 6 as run by the engine. -/
def stage6 (input : List JVal) (fresh : Nat → String) : List NMsg × Bool :=
  step6 (stage5 input fresh).1 (stage5 input fresh).2

/-- STEP 7 as run by the engine. -/
def stage7 (input : List JVal) (fresh : Nat → String) : List NMsg × Bool :=
  step7 (stage6 input fresh).1

/-- STEP 8 as run by the engine. -/
def stage8 (input : List JVal) (fresh : Nat → String) : List NMsg × Bool :=
  step8 (step1 input).1 (stage7 input fresh).1

theorem normalizeMessages_staged (input : List JVal) (fresh : Nat → String) :
    normalizeMessages input fresh =
      ((step9 (stage8 input fresh).1).1,
        (stage6 input fresh).2 || (stage7 input fresh).2 || (stage8 input fresh).2
          || (step9 (stage8 input fresh).1).2) := rfl

theorem invokedIds_eq (input : List JVal) (fresh : Nat → String) :
    invokedIds input fresh = (stage3 input fresh).used := rfl

theorem step6_nil_eq (ch : Bool) : step6 [] ch = ([], ch) := rfl

theorem step6_cons_eq (m : NMsg) (l : List NMsg) (ch : Bool) :
    step6 (m :: l) ch
      = if !(sideIsUser m) then (.user (.str "Begin.") :: m :: l, true) else (m :: l, ch) := rfl

theorem m5Ok_not_sys {led : List (String × String)} {used : List String} {m : NMsg}
    (h : m5Ok led used m = true) : isSysM m = false := by
  cases m with
  | system c => exact absurd h Bool.false_ne_true
  | user c => rfl
  | assistant c tcs => rfl
  | tool tid c => rfl

theorem runT_start_asst (c : String) (tcs : List ToolCall) (l : List NMsg) :
    runT (some true) [] (.assistant c tcs :: l) = runT none [] (.assistant c tcs :: l) := by
  cases tcs with
  | nil => rfl
  | cons tc tcs2 => rfl

theorem step6_ok {led : List (String × String)} {used : List String} (ch : Bool)
    {l : List NMsg} (hc : chainOk l = true) (ha : l.all (m5Ok led used) = true) :
    chainOk (step6 l ch).1 = true ∧ ((step6 l ch).1).all (m5Ok led used) = true ∧
      headUserSide (step6 l ch).1 = true := by
  cases l with
  | nil =>
    rw [step6_nil_eq]
    exact ⟨rfl, rfl, rfl⟩
  | cons m l2 =>
    rw [step6_cons_eq]
    rw [List.all_cons, Bool.and_eq_true] at ha
    by_cases hs : sideIsUser m = true
    · rw [hs]
      refine ⟨hc, ?_, hs⟩
      show (m :: l2).all (m5Ok led used) = true
      rw [List.all_cons, Bool.and_eq_true]
      exact ha
    · have hs' : sideIsUser m = false := eq_false_of_ne_true hs
      rw [hs']
      cases m with
      | system c => exact absurd ha.1 Bool.false_ne_true
      | user c => exact nomatch hs'
      | tool tid c => exact nomatch hs'
      | assistant c tcs =>
        rcases chainOk_some hc with ⟨sd, hr⟩
        refine ⟨?_, ?_, rfl⟩
        · have hr2 : runT none []
              (NMsg.user (.str "Begin.") :: NMsg.assistant c tcs :: l2) = some (sd, []) := by
            show runT (some true) [] (NMsg.assistant c tcs :: l2) = some (sd, [])
            rw [runT_start_asst]
            exact hr
          exact chainOk_of_runT hr2
        · show (NMsg.user (.str "Begin.") :: NMsg.assistant c tcs :: l2).all
            (m5Ok led used) = true
          rw [List.all_cons, Bool.and_eq_true, List.all_cons, Bool.and_eq_true]
          exact ⟨rfl, ha⟩

theorem step6_fix {l : List NMsg} {ch : Bool} (h : headUserSide l = true) :
    step6 l ch = (l, ch) := by
  cases l with
  | nil => rfl
  | cons m l2 =>
    rw [step6_cons_eq]
    have hs : sideIsUser m = true := h
    rw [hs]
    rfl

theorem bnot_true_elim {b : Bool} (h : (!b) = true) : b = false := by
  cases b with
  | false => rfl
  | true => exact absurd h (by decide)

theorem isTextNorm_eq : ∀ {b : JVal} {t : String}, isTextNorm b = some t → b = textNorm t := by
  intro b t h
  unfold isTextNorm at h
  split at h
  · rcases Option.some.inj h with h2
    rw [← h2]
    rfl
  · exact nomatch h

theorem isImgNorm_eq : ∀ {b : JVal} {u : String}, isImgNorm b = some u → b = imgNorm u := by
  intro b u h
  unfold isImgNorm at h
  split at h
  · rcases Option.some.inj h with h2
    rw [← h2]
    rfl
  · exact nomatch h

theorem goodImage_inv {b : JVal} (h : goodImage b = true) :
    (∃ u, b = imgNorm u ∧ validImageUrl u = true)
      ∨ (b.get "type" == some (.str "image")) = true := by
  unfold goodImage at h
  rw [Bool.or_eq_true] at h
  rcases h with h | h
  · left
    rcases him : isImgNorm b with _ | u
    · rw [him] at h
      exact absurd h (by simp)
    · rw [him] at h
      exact ⟨u, isImgNorm_eq him, h⟩
  · right
    exact h

theorem get_some_obj {b : JVal} {k : String} {v : JVal} (h : b.get k = some v) :
    ∃ kvs, b = .obj kvs := by
  cases b with
  | obj kvs => exact ⟨kvs, rfl⟩
  | null => exact nomatch h
  | bool x => exact nomatch h
  | str x => exact nomatch h
  | arr x => exact nomatch h

theorem step7KeepBlock_textNorm (t : String) :
    step7KeepBlock (textNorm t) = !(jsBlank t) := rfl

theorem step7KeepBlock_imgNorm (u : String) : step7KeepBlock (imgNorm u) = true := rfl

theorem step7TextDrop_textNorm (t : String) : step7TextDrop (textNorm t) = jsBlank t := rfl

theorem step7TextDrop_imgNorm (u : String) : step7TextDrop (imgNorm u) = false := rfl

theorem step7KeepBlock_image {b : JVal} (h : (b.get "type" == some (.str "image")) = true) :
    step7KeepBlock b = true := by
  have hg : b.get "type" = some (.str "image") := beq_iff_eq.mp h
  rcases get_some_obj hg with ⟨kvs, rfl⟩
  show (if ((JVal.obj kvs).get "type" == some (JVal.str "text")) = true then
      (match asStr ((JVal.obj kvs).get "text") with
      | some t => !(jsBlank t)
      | none => false)
    else true) = true
  rw [hg]
  rfl

theorem step7TextDrop_image {b : JVal} (h : (b.get "type" == some (.str "image")) = true) :
    step7TextDrop b = false := by
  have hg : b.get "type" = some (.str "image") := beq_iff_eq.mp h
  rcases get_some_obj hg with ⟨kvs, rfl⟩
  show (if ((JVal.obj kvs).get "type" == some (JVal.str "text")) = true then
      (match asStr ((JVal.obj kvs).get "text") with
      | some t => jsBlank t
      | none => true)
    else false) = false
  rw [hg]
  rfl

theorem goodImage_keep {b : JVal} (h : goodImage b = true) : step7KeepBlock b = true := by
  rcases goodImage_inv h with ⟨u, rfl, _⟩ | h2
  · rfl
  · exact step7KeepBlock_image h2

theorem goodImage_nodrop {b : JVal} (h : goodImage b = true) : step7TextDrop b = false := by
  rcases goodImage_inv h with ⟨u, rfl, _⟩ | h2
  · rfl
  · exact step7TextDrop_image h2

theorem filter_goodImage : ∀ {bs : List JVal}, bs.all goodImage = true →
    bs.filter step7KeepBlock = bs := by
  intro bs
  induction bs with
  | nil => intro h; rfl
  | cons b rest ih =>
    intro h
    rw [List.all_cons, Bool.and_eq_true] at h
    rw [List.filter_cons_of_pos (goodImage_keep h.1), ih h.2]

theorem anyDrop_goodImage : ∀ {bs : List JVal}, bs.all goodImage = true →
    bs.any step7TextDrop = false := by
  intro bs
  induction bs with
  | nil => intro h; rfl
  | cons b rest ih =>
    intro h
    rw [List.all_cons, Bool.and_eq_true] at h
    rw [List.any_cons, goodImage_nodrop h.1, ih h.2]
    rfl

theorem canonical_arr_step7 {bs : List JVal} (h : userContentOk (.arr bs) = true) :
    bs.filter step7KeepBlock = bs ∧ bs.any step7TextDrop = false ∧
      step7HasText bs = true ∧ bs.isEmpty = false := by
  cases bs with
  | nil => exact nomatch h
  | cons b rest =>
    have h' : (match isTextNorm b with
      | some t => !(jsBlank t) && (jsTrim t == t) && !rest.isEmpty && rest.all goodImage
      | none => false) = true := h
    rcases htn : isTextNorm b with _ | t
    · rw [htn] at h'
      exact nomatch h'
    · rw [htn] at h'
      rw [Bool.and_eq_true, Bool.and_eq_true, Bool.and_eq_true] at h'
      rcases h' with ⟨⟨⟨hb, _⟩, _⟩, himg⟩
      have hbf : jsBlank t = false := bnot_true_elim hb
      rcases isTextNorm_eq htn with rfl
      refine ⟨?_, ?_, ?_, rfl⟩
      · rw [List.filter_cons_of_pos (by rw [step7KeepBlock_textNorm, hbf]; rfl),
          filter_goodImage himg]
      · rw [List.any_cons, step7TextDrop_textNorm, hbf, anyDrop_goodImage himg]
        rfl
      · unfold step7HasText
        have h2 : ((!(jsBlank t)) || List.any rest (fun b => match b.asString with
          | some s => !(jsBlank s)
          | none =>
            if b.get "type" == some (.str "text") then
              match asStr (b.get "text") with
              | some t2 => !(jsBlank t2)
              | none => false
            else false)) = true := by
          rw [hbf]
          rfl
        exact h2

theorem step7One_user_arr_eq {bs : List JVal} (h : userContentOk (.arr bs) = true) :
    step7One (.user (.arr bs)) = (.user (.arr bs), false) := by
  rcases canonical_arr_step7 h with ⟨hf, hd, ht, hne⟩
  show (if (bs.filter step7KeepBlock).isEmpty then (NMsg.user (.str "."), true)
    else if !(step7HasText (bs.filter step7KeepBlock)) then
      (NMsg.user (.arr (textNorm "." :: bs.filter step7KeepBlock)), true)
    else (NMsg.user (.arr (bs.filter step7KeepBlock)), bs.any step7TextDrop)) = _
  rw [hf, hd, ht, hne]
  rfl

theorem lookup_getD_not_blank {led : List (String × String)} (hled : ledOk led = true)
    (tid : String) :
    jsBlank ((ledgerLookup led tid).getD placeholderResult) = false := by
  rcases hv : ledgerLookup led tid with _ | v
  · decide
  · unfold ledgerLookup at hv
    rcases Option.map_eq_some'.mp hv with ⟨p, hfind, hpv⟩
    have hmem : p ∈ led := List.mem_of_find?_eq_some hfind
    have hall := List.all_eq_true.mp hled p hmem
    rw [Bool.and_eq_true] at hall
    rw [show (some v).getD placeholderResult = v from rfl, ← hpv]
    exact bnot_true_elim hall.2

theorem step7One_sys_eq (c : String) : step7One (.system c)
    = (if jsBlank c then (.system "You are a helpful assistant.", true)
       else (.system c, false)) := rfl

theorem step7One_asst_eq (c : String) (tcs : List ToolCall) : step7One (.assistant c tcs)
    = (if jsBlank c then (.assistant "..." tcs, true) else (.assistant c tcs, false)) := rfl

theorem step7One_tool_eq (tid c : String) : step7One (.tool tid c)
    = (if jsBlank c then (.tool tid "(empty output)", true) else (.tool tid c, false)) := rfl

theorem step7One_user_str_eq (s : String) : step7One (.user (.str s))
    = (if jsBlank s then (.user (.str "."), true) else (.user (.str s), false)) := rfl

theorem step7One_sys_fst (c : String) : (step7One (.system c)).1
    = .system (if jsBlank c then "You are a helpful assistant." else c) := by
  by_cases hb : jsBlank c = true
  · rw [step7One_sys_eq, hb]
    rfl
  · rw [step7One_sys_eq, eq_false_of_ne_true hb]
    rfl

theorem step7One_asst_fst (c : String) (tcs : List ToolCall) :
    (step7One (.assistant c tcs)).1 = .assistant (if jsBlank c then "..." else c) tcs := by
  by_cases hb : jsBlank c = true
  · rw [step7One_asst_eq, hb]
    rfl
  · rw [step7One_asst_eq, eq_false_of_ne_true hb]
    rfl

theorem step7One_tool_fst (tid c : String) :
    (step7One (.tool tid c)).1 = .tool tid (if jsBlank c then "(empty output)" else c) := by
  by_cases hb : jsBlank c = true
  · rw [step7One_tool_eq, hb]
    rfl
  · rw [step7One_tool_eq, eq_false_of_ne_true hb]
    rfl

theorem step7One_user_shape (c : JVal) : ∃ c2, (step7One (.user c)).1 = .user c2 := by
  cases c with
  | str s =>
    by_cases hb : jsBlank s = true
    · exact ⟨.str ".", by rw [step7One_user_str_eq, hb]; rfl⟩
    · exact ⟨.str s, by rw [step7One_user_str_eq, eq_false_of_ne_true hb]; rfl⟩
  | arr bs =>
    by_cases he : (bs.filter step7KeepBlock).isEmpty = true
    · refine ⟨.str ".", ?_⟩
      show ((if (bs.filter step7KeepBlock).isEmpty then (NMsg.user (.str "."), true)
        else if !(step7HasText (bs.filter step7KeepBlock)) then
          (NMsg.user (.arr (textNorm "." :: bs.filter step7KeepBlock)), true)
        else (NMsg.user (.arr (bs.filter step7KeepBlock)), bs.any step7TextDrop))).1
        = NMsg.user (.str ".")
      rw [he]
      rfl
    · by_cases ht : step7HasText (bs.filter step7KeepBlock) = true
      · refine ⟨.arr (bs.filter step7KeepBlock), ?_⟩
        show ((if (bs.filter step7KeepBlock).isEmpty then (NMsg.user (.str "."), true)
          else if !(step7HasText (bs.filter step7KeepBlock)) then
            (NMsg.user (.arr (textNorm "." :: bs.filter step7KeepBlock)), true)
          else (NMsg.user (.arr (bs.filter step7KeepBlock)), bs.any step7TextDrop))).1
          = NMsg.user (.arr (bs.filter step7KeepBlock))
        rw [eq_false_of_ne_true he, ht]
        rfl
      · refine ⟨.arr (textNorm "." :: bs.filter step7KeepBlock), ?_⟩
        show ((if (bs.filter step7KeepBlock).isEmpty then (NMsg.user (.str "."), true)
          else if !(step7HasText (bs.filter step7KeepBlock)) then
            (NMsg.user (.arr (textNorm "." :: bs.filter step7KeepBlock)), true)
          else (NMsg.user (.arr (bs.filter step7KeepBlock)), bs.any step7TextDrop))).1
          = NMsg.user (.arr (textNorm "." :: bs.filter step7KeepBlock))
        rw [eq_false_of_ne_true he, eq_false_of_ne_true ht]
        rfl
  | null => exact ⟨.str (toNonEmptyString .null "."), rfl⟩
  | bool b => exact ⟨.str (toNonEmptyString (.bool b) "."), rfl⟩
  | obj kvs => exact ⟨.str (toNonEmptyString (.obj kvs) "."), rfl⟩

theorem runT_step7 : ∀ (l : List NMsg) (side : Option Bool) (pend : List String),
    runT side pend (l.map (fun m => (step7One m).1)) = runT side pend l := by
  intro l
  induction l with
  | nil => intro side pend; rfl
  | cons m rest ih =>
    intro side pend
    rw [List.map_cons]
    cases m with
    | system c =>
      rw [step7One_sys_fst, runT_sys_eq, runT_sys_eq]
    | user c =>
      rcases step7One_user_shape c with ⟨c2, he⟩
      rw [he, runT_user_eq, runT_user_eq]
      by_cases hc : (pend.isEmpty && !(side == some true)) = true
      · rw [if_pos hc, if_pos hc, ih]
      · rw [if_neg hc, if_neg hc]
    | assistant c tcs =>
      rw [step7One_asst_fst]
      cases tcs with
      | nil =>
        rw [runT_asst_nil_eq, runT_asst_nil_eq]
        by_cases hc : (pend.isEmpty && !(side == some false)) = true
        · rw [if_pos hc, if_pos hc, ih]
        · rw [if_neg hc, if_neg hc]
      | cons tc tcs2 =>
        rw [runT_asst_cons_eq, runT_asst_cons_eq]
        by_cases hc : (pend.isEmpty && !(side == some false)) = true
        · rw [if_pos hc, if_pos hc, ih]
        · rw [if_neg hc, if_neg hc]
    | tool tid c =>
      rw [step7One_tool_fst]
      cases pend with
      | nil => rw [runT_tool_nil_eq, runT_tool_nil_eq]
      | cons p ps =>
        rw [runT_tool_cons_eq, runT_tool_cons_eq]
        by_cases hc : (p == tid) = true
        · rw [if_pos hc, if_pos hc, ih]
        · rw [if_neg hc, if_neg hc]

theorem step7_fst : ∀ (l : List NMsg), (step7 l).1 = l.map (fun m => (step7One m).1) := by
  intro l
  induction l with
  | nil => rfl
  | cons m rest ih =>
    show (step7One m).1 :: (step7 rest).1 = (step7One m).1 :: rest.map (fun m => (step7One m).1)
    rw [ih]

theorem chainOk_step7 (l : List NMsg) : chainOk ((step7 l).1) = chainOk l := by
  unfold chainOk
  rw [step7_fst, runT_step7]

theorem sideIsUser_step7One (m : NMsg) : sideIsUser (step7One m).1 = sideIsUser m := by
  cases m with
  | system c => rw [step7One_sys_fst]; rfl
  | user c =>
    rcases step7One_user_shape c with ⟨c2, he⟩
    rw [he]
    rfl
  | assistant c tcs => rw [step7One_asst_fst]; rfl
  | tool tid c => rw [step7One_tool_fst]; rfl

theorem headUserSide_step7 {l : List NMsg} (h : headUserSide l = true) :
    headUserSide ((step7 l).1) = true := by
  cases l with
  | nil => rfl
  | cons m rest =>
    rw [step7_fst, List.map_cons]
    show sideIsUser (step7One m).1 = true
    rw [sideIsUser_step7One]
    exact h

theorem isSysM_step7One (m : NMsg) : isSysM (step7One m).1 = isSysM m := by
  cases m with
  | system c => rw [step7One_sys_fst]; rfl
  | user c =>
    rcases step7One_user_shape c with ⟨c2, he⟩
    rw [he]
    rfl
  | assistant c tcs => rw [step7One_asst_fst]; rfl
  | tool tid c => rw [step7One_tool_fst]; rfl

theorem step7_noSys {led : List (String × String)} {used : List String} {l : List NMsg}
    (h : l.all (m5Ok led used) = true) :
    ((step7 l).1).all (fun m => !(isSysM m)) = true := by
  rw [step7_fst, List.all_eq_true]
  intro x hx
  rcases List.mem_map.mp hx with ⟨m, hm, rfl⟩
  rw [isSysM_step7One, m5Ok_not_sys (List.all_eq_true.mp h m hm)]
  rfl

theorem step7One_ok {led : List (String × String)} {used : List String}
    (hled : ledOk led = true) {m : NMsg} (hm : m5Ok led used m = true) :
    outOk led used (step7One m).1 = true := by
  cases m with
  | system c => exact absurd hm Bool.false_ne_true
  | user c =>
    cases c with
    | str s =>
      by_cases hb : jsBlank s = true
      · rw [step7One_user_str_eq, hb]
        rfl
      · rw [step7One_user_str_eq, eq_false_of_ne_true hb]
        show (!(jsBlank s)) = true
        rw [eq_false_of_ne_true hb]
        rfl
    | arr bs =>
      rw [step7One_user_arr_eq hm]
      exact hm
    | null => exact nomatch hm
    | bool b => exact nomatch hm
    | obj kvs => exact nomatch hm
  | assistant c tcs =>
    by_cases hb : jsBlank c = true
    · rw [step7One_asst_eq, hb]
      show ((!(jsBlank "...")) && tcs.all callOk) = true
      rw [show jsBlank "..." = false from rfl]
      exact hm
    · rw [step7One_asst_eq, eq_false_of_ne_true hb]
      show ((!(jsBlank c)) && tcs.all callOk) = true
      rw [eq_false_of_ne_true hb]
      exact hm
  | tool tid c =>
    unfold m5Ok at hm
    rw [Bool.and_eq_true, Bool.and_eq_true] at hm
    rcases hm with ⟨⟨hid, hcnt⟩, hused⟩
    have hceq : c = (ledgerLookup led tid).getD placeholderResult := beq_iff_eq.mp hcnt
    have hb : jsBlank c = false := by
      rw [hceq]
      exact lookup_getD_not_blank hled tid
    rw [step7One_tool_eq, hb]
    show (!(tid == "") && (c == ((ledgerLookup led tid).getD placeholderResult))
      && used.contains tid) = true
    rw [Bool.and_eq_true, Bool.and_eq_true]
    exact ⟨⟨hid, hcnt⟩, hused⟩

theorem step7_all_ok {led : List (String × String)} {used : List String}
    (hled : ledOk led = true) {l : List NMsg} (h : l.all (m5Ok led used) = true) :
    ((step7 l).1).all (outOk led used) = true := by
  rw [step7_fst, List.all_eq_true]
  intro x hx
  rcases List.mem_map.mp hx with ⟨m, hm, rfl⟩
  exact step7One_ok hled (List.all_eq_true.mp h m hm)

theorem step7_cons_eq (m : NMsg) (rest : List NMsg) :
    step7 (m :: rest)
      = ((step7One m).1 :: (step7 rest).1, (step7One m).2 || (step7 rest).2) := rfl

theorem step7One_id {led : List (String × String)} {used : List String}
    (hled : ledOk led = true) {m : NMsg} (h : outOk led used m = true) :
    step7One m = (m, false) := by
  cases m with
  | system c =>
    rw [step7One_sys_eq, bnot_true_elim h]
    rfl
  | user c =>
    cases c with
    | str s =>
      rw [step7One_user_str_eq, bnot_true_elim h]
      rfl
    | arr bs => exact step7One_user_arr_eq h
    | null => exact nomatch h
    | bool b => exact nomatch h
    | obj kvs => exact nomatch h
  | assistant c tcs =>
    have h2 := h
    rw [show outOk led used (.assistant c tcs) = (!(jsBlank c) && tcs.all callOk) from rfl,
      Bool.and_eq_true] at h2
    rw [step7One_asst_eq, bnot_true_elim h2.1]
    rfl
  | tool tid c =>
    have h2 := h
    rw [show outOk led used (.tool tid c) = (!(tid == "")
        && (c == ((ledgerLookup led tid).getD placeholderResult)) && used.contains tid)
      from rfl, Bool.and_eq_true, Bool.and_eq_true] at h2
    have hceq : c = (ledgerLookup led tid).getD placeholderResult := beq_iff_eq.mp h2.1.2
    have hb : jsBlank c = false := by
      rw [hceq]
      exact lookup_getD_not_blank hled tid
    rw [step7One_tool_eq, hb]
    rfl

theorem step7_id {led : List (String × String)} {used : List String}
    (hled : ledOk led = true) : ∀ {l : List NMsg}, l.all (outOk led used) = true →
    step7 l = (l, false) := by
  intro l
  induction l with
  | nil => intro _; rfl
  | cons m rest ih =>
    intro h
    rw [List.all_cons, Bool.and_eq_true] at h
    rw [step7_cons_eq, step7One_id hled h.1, ih h.2]
    rfl

theorem step9_cons_eq (m : NMsg) (rest : List NMsg) :
    step9 (m :: rest)
      = ((step9One m).1 :: (step9 rest).1, (step9One m).2 || (step9 rest).2) := rfl

theorem step9One_sys_eq (c : String) : step9One (.system c)
    = (if jsBlank c then (.system ".", true) else (.system c, false)) := rfl

theorem step9One_asst_eq (c : String) (tcs : List ToolCall) : step9One (.assistant c tcs)
    = (if jsBlank c then (.assistant "..." tcs, true) else (.assistant c tcs, false)) := rfl

theorem step9One_tool_eq (tid c : String) : step9One (.tool tid c)
    = (if jsBlank c then (.tool tid "(empty)", true) else (.tool tid c, false)) := rfl

theorem step9One_user_str_eq (s : String) : step9One (.user (.str s))
    = (if jsBlank s then (.user (.str "."), true) else (.user (.str s), false)) := rfl

theorem step9One_id {led : List (String × String)} {used : List String}
    (hled : ledOk led = true) {m : NMsg} (h : outOk led used m = true) :
    step9One m = (m, false) := by
  cases m with
  | system c =>
    rw [step9One_sys_eq, bnot_true_elim h]
    rfl
  | user c =>
    cases c with
    | str s =>
      rw [step9One_user_str_eq, bnot_true_elim h]
      rfl
    | arr bs => rfl
    | null => exact nomatch h
    | bool b => exact nomatch h
    | obj kvs => exact nomatch h
  | assistant c tcs =>
    have h2 := h
    rw [show outOk led used (.assistant c tcs) = (!(jsBlank c) && tcs.all callOk) from rfl,
      Bool.and_eq_true] at h2
    rw [step9One_asst_eq, bnot_true_elim h2.1]
    rfl
  | tool tid c =>
    have h2 := h
    rw [show outOk led used (.tool tid c) = (!(tid == "")
        && (c == ((ledgerLookup led tid).getD placeholderResult)) && used.contains tid)
      from rfl, Bool.and_eq_true, Bool.and_eq_true] at h2
    have hceq : c = (ledgerLookup led tid).getD placeholderResult := beq_iff_eq.mp h2.1.2
    have hb : jsBlank c = false := by
      rw [hceq]
      exact lookup_getD_not_blank hled tid
    rw [step9One_tool_eq, hb]
    rfl

theorem step9_id {led : List (String × String)} {used : List String}
    (hled : ledOk led = true) : ∀ {l : List NMsg}, l.all (outOk led used) = true →
    step9 l = (l, false) := by
  intro l
  induction l with
  | nil => intro _; rfl
  | cons m rest ih =>
    intro h
    rw [List.all_cons, Bool.and_eq_true] at h
    rw [step9_cons_eq, step9One_id hled h.1, ih h.2]
    rfl

theorem step8_eq (sys alt : List NMsg) :
    step8 sys alt = if (sys ++ alt).isEmpty then ([.user (.str "Hello.")], true)
      else (sys ++ alt, false) := rfl

theorem step1_cons_eq (m : JVal) (rest : List JVal) :
    step1 (m :: rest) = if !m.isObjLike then step1 rest
      else if roleIs m "system" then
        (.system (ensureNonEmpty (contentOf m) ".") :: (step1 rest).1, (step1 rest).2)
      else ((step1 rest).1, m :: (step1 rest).2) := rfl

theorem step1_sys_all : ∀ ms : List JVal, ((step1 ms).1).all isSysM = true := by
  intro ms
  induction ms with
  | nil => rfl
  | cons m rest ih =>
    rw [step1_cons_eq]
    by_cases ho : (!m.isObjLike) = true
    · rw [if_pos ho]
      exact ih
    · rw [if_neg ho]
      by_cases hs : roleIs m "system" = true
      · rw [if_pos hs]
        show (NMsg.system (ensureNonEmpty (contentOf m) ".") :: (step1 rest).1).all isSysM
          = true
        rw [List.all_cons, Bool.and_eq_true]
        exact ⟨rfl, ih⟩
      · rw [if_neg hs]
        exact ih

theorem step1_sys_outOk (led : List (String × String)) (used : List String) :
    ∀ ms : List JVal, ((step1 ms).1).all (outOk led used) = true := by
  intro ms
  induction ms with
  | nil => rfl
  | cons m rest ih =>
    rw [step1_cons_eq]
    by_cases ho : (!m.isObjLike) = true
    · rw [if_pos ho]
      exact ih
    · rw [if_neg ho]
      by_cases hs : roleIs m "system" = true
      · rw [if_pos hs]
        show (NMsg.system (ensureNonEmpty (contentOf m) ".") :: (step1 rest).1).all
          (outOk led used) = true
        rw [List.all_cons, Bool.and_eq_true]
        refine ⟨?_, ih⟩
        show (!(jsBlank (ensureNonEmpty (contentOf m) "."))) = true
        rw [ensureNonEmpty_not_blank (contentOf m) (show jsBlank "." = false by decide)]
        rfl
      · rw [if_neg hs]
        exact ih

theorem normalizeMessages_master (input : List JVal) (fresh : Nat → String) :
    ∃ sysl altl,
      (normalizeMessages input fresh).1 = sysl ++ altl ∧
      sysl.all isSysM = true ∧
      sysl.all (outOk (inputLedger input) (invokedIds input fresh)) = true ∧
      altl.all (fun m => !(isSysM m)) = true ∧
      chainOk altl = true ∧
      headUserSide altl = true ∧
      altl.all (outOk (inputLedger input) (invokedIds input fresh)) = true ∧
      (normalizeMessages input fresh).1 ≠ [] := by
  have hled : ledOk (inputLedger input) = true := ledOk_buildLedger (step1 input).2
  have h3 := step3_sound (inputLedger input) fresh (step1 input).2 0 false
  have hpairIn : pairS [] (stage5in input fresh) = some [] := by
    unfold stage5in stage3
    rw [pairS_append, h3.1]
    exact isUserM_pairS _ (orphanUsers_all_user _ _)
  have hallIn : (stage5in input fresh).all
      (m5Ok (inputLedger input) (invokedIds input fresh)) = true := by
    unfold stage5in stage3
    rw [List.all_append, Bool.and_eq_true]
    exact ⟨h3.2, orphanUsers_all_m5Ok _ _ _ _⟩
  have h5 := step5Go_ok (inputLedger input) (invokedIds input fresh) (stage5in input fresh)
    [] ((stage3 input fresh).changed
      || !(orphanUsers (inputLedger input) (stage3 input fresh).used).isEmpty)
    none [] rfl hpairIn rfl hallIn
  have h6 := step6_ok (stage5 input fresh).2 h5.1 h5.2
  have h7ok := step7_all_ok hled h6.2.1
  have h7chain : chainOk ((stage7 input fresh).1) = true := by
    unfold stage7
    rw [chainOk_step7]
    exact h6.1
  have h7head : headUserSide ((stage7 input fresh).1) = true := headUserSide_step7 h6.2.2
  have h7nosys := step7_noSys h6.2.1
  have hsysOk := step1_sys_outOk (inputLedger input) (invokedIds input fresh) input
  have hsysSys := step1_sys_all input
  by_cases he : ((step1 input).1 ++ (stage7 input fresh).1).isEmpty = true
  · have hout : (normalizeMessages input fresh).1 = [.user (.str "Hello.")] := by
      rw [normalizeMessages_staged]
      show (step9 (stage8 input fresh).1).1 = [NMsg.user (.str "Hello.")]
      unfold stage8
      rw [step8_eq, if_pos he]
      rfl
    refine ⟨[], [.user (.str "Hello.")], hout, rfl, rfl, rfl, rfl, rfl, rfl, ?_⟩
    rw [hout]
    exact List.cons_ne_nil _ _
  · have hne : ((step1 input).1 ++ (stage7 input fresh).1).isEmpty = false :=
      eq_false_of_ne_true he
    have hallout : ((step1 input).1 ++ (stage7 input fresh).1).all
        (outOk (inputLedger input) (invokedIds input fresh)) = true := by
      rw [List.all_append, Bool.and_eq_true]
      exact ⟨hsysOk, h7ok⟩
    have hout : (normalizeMessages input fresh).1
        = (step1 input).1 ++ (stage7 input fresh).1 := by
      rw [normalizeMessages_staged]
      show (step9 (stage8 input fresh).1).1 = _
      unfold stage8
      rw [step8_eq, if_neg (by rw [hne]; exact Bool.false_ne_true),
        step9_id hled hallout]
    refine ⟨(step1 input).1, (stage7 input fresh).1, hout, hsysSys, hsysOk, h7nosys,
      h7chain, h7head, h7ok, ?_⟩
    rw [hout]
    intro hnil
    rw [hnil] at hne
    exact nomatch hne

theorem runT_tools_prefix : ∀ (pend : List String) (l : List NMsg) (side st1 : Option Bool),
    runT side pend l = some (st1, []) →
    (l.take pend.length).map toolIdOf = pend.map some ∧
    ∀ m rest2, l.drop pend.length = m :: rest2 → isToolM m = false := by
  intro pend
  induction pend with
  | nil =>
    intro l side st1 h
    refine ⟨rfl, ?_⟩
    intro m rest2 hd
    rw [List.length_nil, List.drop_zero] at hd
    rw [hd] at h
    cases m with
    | tool tid c =>
      rw [runT_tool_nil_eq] at h
      exact nomatch h
    | system c => rfl
    | user c => rfl
    | assistant c tcs => rfl
  | cons p ps ih =>
    intro l side st1 h
    cases l with
    | nil =>
      rw [runT_nil] at h
      exact absurd (congrArg Prod.snd (Option.some.inj h)) (by simp)
    | cons m l2 =>
      cases m with
      | tool tid c =>
        rcases runT_tool_inv h with ⟨ps2, hpe, hrest⟩
        injection hpe with hp hps
        have ihr := ih l2 (some true) st1 (by rw [hps]; exact hrest)
        refine ⟨?_, ?_⟩
        · rw [List.length_cons, List.take_succ_cons, List.map_cons, ihr.1,
            show toolIdOf (.tool tid c) = some tid from rfl, hp, List.map_cons]
        · intro m2 rest2 hd
          rw [List.length_cons, List.drop_succ_cons] at hd
          exact ihr.2 m2 rest2 hd
      | user c =>
        rcases runT_user_inv h with ⟨hpe, _, _⟩
        exact nomatch hpe
      | assistant c tcs =>
        cases tcs with
        | nil =>
          rcases runT_asst_nil_inv h with ⟨hpe, _, _⟩
          exact nomatch hpe
        | cons tc tcs2 =>
          rcases runT_asst_cons_inv h with ⟨hpe, _, _⟩
          exact nomatch hpe
      | system c => exact (runT_sys_inv h).elim

theorem runT_pairing : ∀ (pre l : List NMsg) (side : Option Bool) (pend : List String)
    (st1 : Option Bool) (c : String) (tcs : List ToolCall) (suf : List NMsg),
    runT side pend l = some (st1, []) → l = pre ++ .assistant c tcs :: suf → tcs ≠ [] →
    (suf.take tcs.length).map toolIdOf = tcs.map (fun tc => some tc.id) ∧
    ∀ m rest2, suf.drop tcs.length = m :: rest2 → isToolM m = false := by
  intro pre
  induction pre with
  | nil =>
    intro l side pend st1 c tcs suf h hl hne
    rw [List.nil_append] at hl
    rw [hl] at h
    cases tcs with
    | nil => exact absurd rfl hne
    | cons tc tcs2 =>
      rcases runT_asst_cons_inv h with ⟨_, _, hrest⟩
      have hp := runT_tools_prefix ((tc :: tcs2).map ToolCall.id) suf (some true) st1 hrest
      rw [List.length_map] at hp
      refine ⟨?_, hp.2⟩
      rw [hp.1, List.map_map]
      rfl
  | cons x pre2 ih =>
    intro l side pend st1 c tcs suf h hl hne
    rw [hl] at h
    rw [List.cons_append] at h
    cases x with
    | user xc =>
      rcases runT_user_inv h with ⟨_, _, hrest⟩
      exact ih _ (some true) [] st1 c tcs suf hrest rfl hne
    | assistant xc xtcs =>
      cases xtcs with
      | nil =>
        rcases runT_asst_nil_inv h with ⟨_, _, hrest⟩
        exact ih _ (some false) [] st1 c tcs suf hrest rfl hne
      | cons xtc xtcs2 =>
        rcases runT_asst_cons_inv h with ⟨_, _, hrest⟩
        exact ih _ (some true) ((xtc :: xtcs2).map ToolCall.id) st1 c tcs suf hrest rfl hne
    | tool xid xc =>
      rcases runT_tool_inv h with ⟨ps, _, hrest⟩
      exact ih _ (some true) ps st1 c tcs suf hrest rfl hne
    | system xc => exact (runT_sys_inv h).elim

theorem runT_alt : ∀ (pre l : List NMsg) (side : Option Bool) (pend : List String)
    (st : Option Bool × List String) (a b : NMsg) (suf : List NMsg),
    runT side pend l = some st → l = pre ++ a :: b :: suf →
    sideIsUser a = sideIsUser b →
    (isToolM a = true ∧ isToolM b = true) ∨
    (isToolM b = true ∧ ∃ ac tcs bid bc, a = .assistant ac tcs ∧ b = .tool bid bc ∧
      bid ∈ tcs.map ToolCall.id) := by
  intro pre
  induction pre with
  | nil =>
    intro l side pend st a b suf h hl hss
    rw [List.nil_append] at hl
    rw [hl] at h
    cases a with
    | user ac =>
      rcases runT_user_inv h with ⟨_, _, hrest⟩
      cases b with
      | user bc =>
        rcases runT_user_inv hrest with ⟨_, hs, _⟩
        exact nomatch hs
      | tool bid bc =>
        rcases runT_tool_inv hrest with ⟨ps, hpe, _⟩
        exact nomatch hpe
      | assistant bc btcs => exact nomatch hss
      | system bc => exact nomatch hss
    | assistant ac atcs =>
      cases atcs with
      | nil =>
        rcases runT_asst_nil_inv h with ⟨_, _, hrest⟩
        cases b with
        | user bc => exact nomatch hss
        | tool bid bc => exact nomatch hss
        | system bc => exact (runT_sys_inv hrest).elim
        | assistant bc btcs =>
          cases btcs with
          | nil =>
            rcases runT_asst_nil_inv hrest with ⟨_, hs, _⟩
            exact nomatch hs
          | cons btc btcs2 =>
            rcases runT_asst_cons_inv hrest with ⟨_, hs, _⟩
            exact nomatch hs
      | cons atc atcs2 =>
        rcases runT_asst_cons_inv h with ⟨_, _, hrest⟩
        cases b with
        | user bc => exact nomatch hss
        | tool bid bc => exact nomatch hss
        | system bc => exact (runT_sys_inv hrest).elim
        | assistant bc btcs =>
          cases btcs with
          | nil =>
            rcases runT_asst_nil_inv hrest with ⟨hpe, _, _⟩
            exact nomatch hpe
          | cons btc btcs2 =>
            rcases runT_asst_cons_inv hrest with ⟨hpe, _, _⟩
            exact nomatch hpe
    | tool aid ac =>
      rcases runT_tool_inv h with ⟨ps, _, hrest⟩
      cases b with
      | tool bid bc => exact Or.inl ⟨rfl, rfl⟩
      | user bc =>
        rcases runT_user_inv hrest with ⟨_, hs, _⟩
        exact nomatch hs
      | assistant bc btcs => exact nomatch hss
      | system bc => exact nomatch hss
    | system ac => exact (runT_sys_inv h).elim
  | cons x pre2 ih =>
    intro l side pend st a b suf h hl hss
    rw [hl, List.cons_append] at h
    cases x with
    | user xc =>
      rcases runT_user_inv h with ⟨_, _, hrest⟩
      exact ih _ (some true) [] st a b suf hrest rfl hss
    | assistant xc xtcs =>
      cases xtcs with
      | nil =>
        rcases runT_asst_nil_inv h with ⟨_, _, hrest⟩
        exact ih _ (some false) [] st a b suf hrest rfl hss
      | cons xtc xtcs2 =>
        rcases runT_asst_cons_inv h with ⟨_, _, hrest⟩
        exact ih _ (some true) ((xtc :: xtcs2).map ToolCall.id) st a b suf hrest rfl hss
    | tool xid xc =>
      rcases runT_tool_inv h with ⟨ps, _, hrest⟩
      exact ih _ (some true) ps st a b suf hrest rfl hss
    | system xc => exact (runT_sys_inv h).elim

theorem sys_prefix_split : ∀ (sysl altl pre rest : List NMsg) (m : NMsg),
    sysl.all isSysM = true → isSysM m = false →
    sysl ++ altl = pre ++ m :: rest →
    ∃ pre2, pre = sysl ++ pre2 ∧ altl = pre2 ++ m :: rest := by
  intro sysl
  induction sysl with
  | nil =>
    intro altl pre rest m _ _ h
    exact ⟨pre, rfl, h⟩
  | cons x sysl2 ih =>
    intro altl pre rest m hall hm h
    rw [List.all_cons, Bool.and_eq_true] at hall
    cases pre with
    | nil =>
      rw [List.nil_append, List.cons_append] at h
      injection h with h1 h2
      rw [h1] at hall
      exact absurd hall.1 (by rw [hm]; exact Bool.false_ne_true)
    | cons p pre2 =>
      rw [List.cons_append, List.cons_append] at h
      injection h with h1 h2
      rcases ih altl pre2 rest m hall.2 hm h2 with ⟨pre3, hp, ha⟩
      exact ⟨pre3, by rw [List.cons_append, hp, h1], ha⟩

/-! ## Claim-level predicates -/

/-- Non-empty content in the sense of claim C2: no blank string content, and
array contents carry at least one canonical text block with non-blank text. -/
def contentNonEmpty : NMsg → Bool
  | .system c => !(jsBlank c)
  | .assistant c _ => !(jsBlank c)
  | .tool _ c => !(jsBlank c)
  | .user (.str s) => !(jsBlank s)
  | .user (.arr bs) => bs.any (fun b =>
      match isTextNorm b with
      | some t => !(jsBlank t)
      | none => false)
  | .user .null => false
  | .user (.bool _) => false
  | .user (.obj _) => false

/-- An entry removed entirely by normalization: a non-object, or an object
with none of the four known roles. -/
def deadEntry (m : JVal) : Bool :=
  !m.isObjLike || (!(roleIs m "system") && !(roleIs m "user") && !(roleIs m "assistant")
    && !(roleIs m "tool"))

theorem contentNonEmpty_of_outOk {led : List (String × String)} {used : List String}
    {m : NMsg} (hled : ledOk led = true) (h : outOk led used m = true) :
    contentNonEmpty m = true := by
  cases m with
  | system c => exact h
  | user c =>
    cases c with
    | str s => exact h
    | arr bs =>
      cases bs with
      | nil => exact nomatch h
      | cons b rest =>
        have h' : (match isTextNorm b with
          | some t => !(jsBlank t) && (jsTrim t == t) && !rest.isEmpty && rest.all goodImage
          | none => false) = true := h
        rcases htn : isTextNorm b with _ | t
        · rw [htn] at h'
          exact nomatch h'
        · rw [htn] at h'
          rw [Bool.and_eq_true, Bool.and_eq_true, Bool.and_eq_true] at h'
          have h2 : ((match isTextNorm b with
            | some t => !(jsBlank t)
            | none => false)
            || List.any rest (fun b => match isTextNorm b with
              | some t => !(jsBlank t)
              | none => false)) = true := by
            rw [htn, Bool.or_eq_true]
            exact Or.inl h'.1.1.1
          exact h2
    | null => exact nomatch h
    | bool x => exact nomatch h
    | obj kvs => exact nomatch h
  | assistant c tcs =>
    have h2 := h
    rw [show outOk led used (.assistant c tcs) = (!(jsBlank c) && tcs.all callOk) from rfl,
      Bool.and_eq_true] at h2
    exact h2.1
  | tool tid c =>
    have h2 := h
    rw [show outOk led used (.tool tid c) = (!(tid == "")
        && (c == ((ledgerLookup led tid).getD placeholderResult)) && used.contains tid)
      from rfl, Bool.and_eq_true, Bool.and_eq_true] at h2
    show (!(jsBlank c)) = true
    rw [beq_iff_eq.mp h2.1.2, lookup_getD_not_blank hled tid]
    rfl

theorem dead_step1 : ∀ (ms : List JVal), ms.all deadEntry = true →
    (step1 ms).1 = [] ∧ ((step1 ms).2).all (fun m => !(roleIs m "tool")
      && !(roleIs m "user") && !(roleIs m "assistant")) = true := by
  intro ms
  induction ms with
  | nil => intro _; exact ⟨rfl, rfl⟩
  | cons m rest ih =>
    intro h
    rw [List.all_cons, Bool.and_eq_true] at h
    rcases h with ⟨hm, hrest⟩
    rw [step1_cons_eq]
    unfold deadEntry at hm
    rw [Bool.or_eq_true] at hm
    by_cases ho : (!m.isObjLike) = true
    · rw [if_pos ho]
      exact ih hrest
    · rw [if_neg ho]
      rcases hm with hm | hm
      · exact absurd hm ho
      · rw [Bool.and_eq_true, Bool.and_eq_true, Bool.and_eq_true] at hm
        rw [if_neg (by rw [bnot_true_elim hm.1.1.1]; exact Bool.false_ne_true)]
        refine ⟨(ih hrest).1, ?_⟩
        show ((!(roleIs m "tool") && !(roleIs m "user") && !(roleIs m "assistant"))
          && ((step1 rest).2).all _) = true
        rw [Bool.and_eq_true, Bool.and_eq_true, Bool.and_eq_true]
        exact ⟨⟨⟨hm.2, hm.1.1.2⟩, hm.1.2⟩, (ih hrest).2⟩

theorem unknown_step2 : ∀ (ms : List JVal) (acc : List (String × String)),
    ms.all (fun m => !(roleIs m "tool") && !(roleIs m "user")
      && !(roleIs m "assistant")) = true →
    step2 ms acc = acc := by
  intro ms
  induction ms with
  | nil => intro acc _; rfl
  | cons m rest ih =>
    intro acc h
    rw [List.all_cons, Bool.and_eq_true] at h
    rcases h with ⟨hm, hrest⟩
    rw [Bool.and_eq_true, Bool.and_eq_true] at hm
    rw [step2, if_neg (by rw [bnot_true_elim hm.1.1]; exact Bool.false_ne_true)]
    exact ih acc hrest

theorem unknown_step3 (led : List (String × String)) (fresh : Nat → String) :
    ∀ (ms : List JVal) (ctr : Nat) (ch : Bool),
    ms.all (fun m => !(roleIs m "tool") && !(roleIs m "user")
      && !(roleIs m "assistant")) = true →
    (step3 led fresh ms ctr ch).msgs = [] ∧ (step3 led fresh ms ctr ch).used = [] := by
  intro ms
  induction ms with
  | nil => intro ctr ch _; exact ⟨rfl, rfl⟩
  | cons m rest ih =>
    intro ctr ch h
    rw [List.all_cons, Bool.and_eq_true] at h
    rcases h with ⟨hm, hrest⟩
    rw [Bool.and_eq_true, Bool.and_eq_true] at hm
    rw [step3_unknown_eq led fresh m rest ctr ch (bnot_true_elim hm.1.1)
      (bnot_true_elim hm.1.2) (bnot_true_elim hm.2)]
    exact ih ctr true hrest

/-- C1.  For every input `messages` array, in the normalized output every
assistant message carrying a non-empty `tool_calls` list of N calls is
immediately followed by exactly N tool messages whose ids equal those call
ids in order: the next N messages are tools whose ids are the call ids, and
the message after them, if any, is not a tool message. -/
theorem claim1_pairing_completeness (input : List JVal) (fresh : Nat → String)
    (pre : List NMsg) (c : String) (tcs : List ToolCall) (suf : List NMsg)
    (hout : (normalizeMessages input fresh).1 = pre ++ .assistant c tcs :: suf)
    (hne : tcs ≠ []) :
    (suf.take tcs.length).map toolIdOf = tcs.map (fun tc => some tc.id) ∧
    ∀ m rest2, suf.drop tcs.length = m :: rest2 → isToolM m = false := by
  rcases normalizeMessages_master input fresh with
    ⟨sysl, altl, heq, hsys, _, _, hchain, _, _, _⟩
  rcases sys_prefix_split sysl altl pre suf (.assistant c tcs) hsys rfl
    (heq.symm.trans hout) with ⟨pre2, _, ha⟩
  rcases chainOk_some hchain with ⟨sd, hrun⟩
  exact runT_pairing pre2 altl none [] sd c tcs suf hrun ha hne

theorem claim1_witness :
    (([NMsg.tool "call_7" placeholderResult].take 1).map toolIdOf
      = [ToolCall.mk "call_7" (.str "unknown_tool") "\x7b\x7d"].map
          (fun tc => some tc.id)) :=
  (claim1_pairing_completeness
    [.obj [("role", .str "assistant"),
      ("tool_calls", .arr [.obj [("id", .str "call_7")]])]]
    (fun _ => "w1") [.user (.str "Begin.")] "..."
    [⟨"call_7", .str "unknown_tool", "\x7b\x7d"⟩] [.tool "call_7" placeholderResult]
    rfl (List.cons_ne_nil _ _)).1

/-- C2.  Every message of the normalized output has non-empty content: no
blank string content, and every array content carries a text block with
non-blank text. -/
theorem claim2_no_empty_content (input : List JVal) (fresh : Nat → String) :
    ((normalizeMessages input fresh).1).all contentNonEmpty = true := by
  rcases normalizeMessages_master input fresh with
    ⟨sysl, altl, heq, _, hsysOk, _, _, _, haltOk, _⟩
  have hled : ledOk (inputLedger input) = true := ledOk_buildLedger (step1 input).2
  rw [heq, List.all_append, Bool.and_eq_true]
  constructor
  · rw [List.all_eq_true]
    intro x hx
    exact contentNonEmpty_of_outOk hled (List.all_eq_true.mp hsysOk x hx)
  · rw [List.all_eq_true]
    intro x hx
    exact contentNonEmpty_of_outOk hled (List.all_eq_true.mp haltOk x hx)

/-- C3.  Two adjacent non-system messages of the normalized output share a
side only in the permitted cases: both are tool messages, or the second is a
tool message paired with the first (an assistant whose calls contain its id);
in fact the machine shows the latter never shares a side, so same-side pairs
are exactly adjacent tool messages. -/
theorem claim3_side_alternation (input : List JVal) (fresh : Nat → String)
    (pre : List NMsg) (a b : NMsg) (suf : List NMsg)
    (hout : (normalizeMessages input fresh).1 = pre ++ a :: b :: suf)
    (hsysa : isSysM a = false) (_hsysb : isSysM b = false)
    (hss : sideIsUser a = sideIsUser b) :
    (isToolM a = true ∧ isToolM b = true) ∨
    (isToolM b = true ∧ ∃ ac tcs bid bc, a = .assistant ac tcs ∧ b = .tool bid bc ∧
      bid ∈ tcs.map ToolCall.id) := by
  rcases normalizeMessages_master input fresh with
    ⟨sysl, altl, heq, hsys, _, _, hchain, _, _, _⟩
  rcases sys_prefix_split sysl altl pre (b :: suf) a hsys hsysa
    (heq.symm.trans hout) with ⟨pre2, _, ha⟩
  rcases chainOk_some hchain with ⟨sd, hrun⟩
  exact runT_alt pre2 altl none [] (sd, []) a b suf hrun ha hss

theorem claim3_witness :
    (isToolM (NMsg.tool "ca" placeholderResult) = true
      ∧ isToolM (NMsg.tool "cb" placeholderResult) = true) ∨
    (isToolM (NMsg.tool "cb" placeholderResult) = true ∧ ∃ ac tcs bid bc,
      NMsg.tool "ca" placeholderResult = .assistant ac tcs ∧
      NMsg.tool "cb" placeholderResult = .tool bid bc ∧ bid ∈ tcs.map ToolCall.id) :=
  claim3_side_alternation
    [.obj [("role", .str "assistant"),
      ("tool_calls", .arr [.obj [("id", .str "ca")], .obj [("id", .str "cb")]])]]
    (fun _ => "w3")
    [.user (.str "Begin."),
     .assistant "..." [⟨"ca", .str "unknown_tool", "\x7b\x7d"⟩,
       ⟨"cb", .str "unknown_tool", "\x7b\x7d"⟩]]
    (NMsg.tool "ca" placeholderResult) (NMsg.tool "cb" placeholderResult) []
    rfl rfl rfl rfl

/-- C4.  Every call of an output assistant message whose id has no recorded
result in the input ledger is still paired: the k-th following message is a
tool message for that id whose content is the synthesized placeholder. -/
theorem claim4_missing_result_placeholder (input : List JVal) (fresh : Nat → String)
    (pre : List NMsg) (c : String) (tcs : List ToolCall) (suf : List NMsg) (k : Nat)
    (hk : k < tcs.length)
    (hout : (normalizeMessages input fresh).1 = pre ++ .assistant c tcs :: suf)
    (hmiss : ledgerLookup (inputLedger input) (tcs.get ⟨k, hk⟩).id = none) :
    suf.get? k = some (.tool (tcs.get ⟨k, hk⟩).id placeholderResult) := by
  have hne : tcs ≠ [] := by
    intro hh
    rw [hh] at hk
    exact absurd hk (by simp)
  have hpair := (claim1_pairing_completeness input fresh pre c tcs suf hout hne).1
  have hidx : (List.map toolIdOf (List.take tcs.length suf)).get? k
      = (List.map (fun tc => some tc.id) tcs).get? k := by rw [hpair]
  rw [List.get?_map, List.get?_map, List.get?_take hk,
    List.get?_eq_get hk] at hidx
  rcases hm : suf.get? k with _ | m
  · rw [hm] at hidx
    exact nomatch hidx
  · rw [hm] at hidx
    have hti : toolIdOf m = some (tcs.get ⟨k, hk⟩).id := Option.some.inj hidx
    cases m with
    | system mc => exact nomatch hti
    | user mc => exact nomatch hti
    | assistant mc mtcs => exact nomatch hti
    | tool tid cnt =>
      have htid : tid = (tcs.get ⟨k, hk⟩).id := Option.some.inj hti
      rcases normalizeMessages_master input fresh with
        ⟨sysl, altl, heq, _, hsysOk, _, _, _, haltOk, _⟩
      have hmem : NMsg.tool tid cnt ∈ (normalizeMessages input fresh).1 := by
        rw [hout]
        exact List.mem_append_right pre (List.mem_cons_of_mem _ (List.get?_mem hm))
      have hok : outOk (inputLedger input) (invokedIds input fresh)
          (NMsg.tool tid cnt) = true := by
        rw [heq] at hmem
        rcases List.mem_append.mp hmem with hmem2 | hmem2
        · exact List.all_eq_true.mp hsysOk _ hmem2
        · exact List.all_eq_true.mp haltOk _ hmem2
      have h2 := hok
      rw [show outOk (inputLedger input) (invokedIds input fresh) (.tool tid cnt)
          = (!(tid == "") && (cnt == ((ledgerLookup (inputLedger input) tid).getD
            placeholderResult)) && (invokedIds input fresh).contains tid) from rfl,
        Bool.and_eq_true, Bool.and_eq_true] at h2
      have hcnt : cnt = (ledgerLookup (inputLedger input) tid).getD placeholderResult :=
        beq_iff_eq.mp h2.1.2
      rw [htid, hmiss] at hcnt
      rw [htid, hcnt]
      rfl

theorem claim4_witness :
    ([NMsg.tool "call_9" placeholderResult].get? 0
      = some (NMsg.tool "call_9" placeholderResult)) :=
  claim4_missing_result_placeholder
    [.obj [("role", .str "assistant"),
      ("tool_calls", .arr [.obj [("id", .str "call_9")]])]]
    (fun _ => "w4") [.user (.str "Begin.")] "..."
    [⟨"call_9", .str "unknown_tool", "\x7b\x7d"⟩] [.tool "call_9" placeholderResult]
    0 (by decide) rfl rfl

/-- C9.  The normalized output is never empty, and an input whose entries are
all removed (non-objects or unknown roles; in particular an empty array)
yields exactly the one synthetic `"Hello."` user message. -/
theorem claim9_never_empty (input : List JVal) (fresh : Nat → String) :
    (normalizeMessages input fresh).1 ≠ [] ∧
    (input.all deadEntry = true →
      (normalizeMessages input fresh).1 = [.user (.str "Hello.")]) := by
  constructor
  · rcases normalizeMessages_master input fresh with ⟨_, _, _, _, _, _, _, _, _, hne⟩
    exact hne
  · intro hdead
    rcases dead_step1 input hdead with ⟨h1, h2⟩
    have hled0 : inputLedger input = [] := unknown_step2 (step1 input).2 [] h2
    have h3 := unknown_step3 (inputLedger input) fresh (step1 input).2 0 false h2
    rw [normalizeMessages_staged]
    show (step9 (stage8 input fresh).1).1 = [NMsg.user (.str "Hello.")]
    unfold stage8 stage7 stage6 stage5 stage5in stage3
    rw [h3.1, h3.2, h1, hled0]
    rfl

theorem claim9_witness :
    ((normalizeMessages [JVal.str "junk"] (fun _ => "w9")).1 ≠ [] ∧
      (normalizeMessages [JVal.str "junk"] (fun _ => "w9")).1
        = [.user (.str "Hello.")]) :=
  ⟨(claim9_never_empty [JVal.str "junk"] (fun _ => "w9")).1,
   (claim9_never_empty [JVal.str "junk"] (fun _ => "w9")).2 (by decide)⟩

/-- C10.  A falsy body, or one whose `messages` field is not an array, is a
no-op: the body is returned unchanged with `changed: false`. -/
theorem claim10_noop (body : JVal) (fresh : Nat → String) :
    (body.truthy = false → normalizeOpenAIChatCompletionsBody body fresh = (body, false)) ∧
    (asArr (body.get "messages") = none →
      normalizeOpenAIChatCompletionsBody body fresh = (body, false)) := by
  constructor
  · intro h
    unfold normalizeOpenAIChatCompletionsBody normalizeChatCompletionsMessages
    rw [h]
    rfl
  · intro h
    unfold normalizeOpenAIChatCompletionsBody normalizeChatCompletionsMessages
    rw [h]
    by_cases ht : body.truthy = true
    · rw [ht]
      rfl
    · rw [eq_false_of_ne_true ht]
      rfl

theorem claim10_witness :
    normalizeOpenAIChatCompletionsBody .null (fun _ => "wa") = (.null, false) :=
  (claim10_noop .null (fun _ => "wa")).1 rfl

/-! ## Contiguous-substring machinery (for the orphan-conversion claims) -/

/-- `t` is a prefix of `s`. -/
def prefB : List Char → List Char → Bool
  | [], _ => true
  | _ :: _, [] => false
  | a :: as, b :: bs => a == b && prefB as bs

/-- `t` occurs contiguously in `s`. -/
def containsSeg (t : List Char) : List Char → Bool
  | [] => prefB t []
  | c :: s2 => prefB t (c :: s2) || containsSeg t s2

/-- `t` occurs contiguously in `s` (string form; `s.includes(t)`). -/
def strHas (t s : String) : Bool := containsSeg t.data s.data

theorem prefB_refl : ∀ t : List Char, prefB t t = true := by
  intro t
  induction t with
  | nil => rfl
  | cons a as ih =>
    show (a == a && prefB as as) = true
    rw [ih]
    simp

theorem prefB_nil_inv : ∀ {t : List Char}, prefB t [] = true → t = [] := by
  intro t h
  cases t with
  | nil => rfl
  | cons a as => exact nomatch h

theorem prefB_extend : ∀ (t a b : List Char), prefB t a = true → prefB t (a ++ b) = true := by
  intro t
  induction t with
  | nil => intro a b _; rfl
  | cons x ts ih =>
    intro a b h
    cases a with
    | nil => exact nomatch h
    | cons y as =>
      have h' : (x == y && prefB ts as) = true := h
      rw [Bool.and_eq_true] at h'
      show (x == y && prefB ts (as ++ b)) = true
      rw [Bool.and_eq_true]
      exact ⟨h'.1, ih as b h'.2⟩

theorem containsSeg_nil : ∀ s : List Char, containsSeg [] s = true := by
  intro s
  cases s with
  | nil => rfl
  | cons c s2 => rfl

theorem containsSeg_of_prefB {t s : List Char} (h : prefB t s = true) :
    containsSeg t s = true := by
  cases s with
  | nil => exact h
  | cons c s2 =>
    show (prefB t (c :: s2) || containsSeg t s2) = true
    rw [h]
    rfl

theorem containsSeg_refl (t : List Char) : containsSeg t t = true :=
  containsSeg_of_prefB (prefB_refl t)

theorem containsSeg_append_left : ∀ (a : List Char) {t : List Char} (b : List Char),
    containsSeg t a = true → containsSeg t (a ++ b) = true := by
  intro a
  induction a with
  | nil =>
    intro t b h
    rw [prefB_nil_inv h]
    exact containsSeg_nil b
  | cons x a2 ih =>
    intro t b h
    have h' : (prefB t (x :: a2) || containsSeg t a2) = true := h
    rw [Bool.or_eq_true] at h'
    show (prefB t (x :: a2 ++ b) || containsSeg t (a2 ++ b)) = true
    rw [Bool.or_eq_true]
    rcases h' with h' | h'
    · exact Or.inl (prefB_extend t (x :: a2) b h')
    · exact Or.inr (ih b h')

theorem containsSeg_append_right : ∀ (a : List Char) {t b : List Char},
    containsSeg t b = true → containsSeg t (a ++ b) = true := by
  intro a
  induction a with
  | nil => intro t b h; exact h
  | cons x a2 ih =>
    intro t b h
    show (prefB t (x :: (a2 ++ b)) || containsSeg t (a2 ++ b)) = true
    rw [Bool.or_eq_true]
    exact Or.inr (ih h)

theorem prefB_all (p : Char → Bool) : ∀ (t s : List Char), prefB t s = true →
    s.all p = true → t.all p = true := by
  intro t
  induction t with
  | nil => intro s _ _; rfl
  | cons x ts ih =>
    intro s h hall
    cases s with
    | nil => exact nomatch h
    | cons y ys =>
      have h' : (x == y && prefB ts ys) = true := h
      rw [Bool.and_eq_true] at h'
      rw [List.all_cons, Bool.and_eq_true] at hall
      rw [List.all_cons, Bool.and_eq_true]
      exact ⟨by rw [beq_iff_eq.mp h'.1]; exact hall.1, ih ys h'.2 hall.2⟩

theorem containsSeg_all (p : Char → Bool) : ∀ (s t : List Char), containsSeg t s = true →
    s.all p = true → t.all p = true := by
  intro s
  induction s with
  | nil =>
    intro t h _
    rw [prefB_nil_inv h]
    rfl
  | cons c s2 ih =>
    intro t h hall
    have h' : (prefB t (c :: s2) || containsSeg t s2) = true := h
    rw [Bool.or_eq_true] at h'
    rcases h' with h' | h'
    · exact prefB_all p t (c :: s2) h' hall
    · rw [List.all_cons, Bool.and_eq_true] at hall
      exact ih t h' hall.2

theorem strHas_not_blank {t c : String} (h : strHas t c = true) (ht : jsBlank t = false) :
    jsBlank c = false := by
  cases hc : jsBlank c with
  | false => rfl
  | true =>
    have : t.data.all isWs = true := containsSeg_all isWs c.data t.data h hc
    rw [show jsBlank t = t.data.all isWs from rfl, this] at ht
    exact nomatch ht

theorem sdata_append (a b : String) : (a ++ b).data = a.data ++ b.data := by
  cases a with
  | mk da =>
    cases b with
    | mk db => rfl

theorem tag_not_blank (tid txt : String) :
    jsBlank ("[Previous tool output for " ++ tid ++ "]:\n" ++ txt) = false := by
  show ((("[Previous tool output for " ++ tid) ++ "]:\n") ++ txt).data.all isWs = false
  rw [sdata_append, sdata_append, sdata_append, List.all_append, List.all_append,
    List.all_append]
  rw [show ("[Previous tool output for ").data.all isWs = false from by decide]
  rfl

theorem asString_some {v : JVal} {s : String} (h : v.asString = some s) : v = .str s := by
  cases v with
  | str s2 => exact congrArg JVal.str (Option.some.inj h)
  | null => exact nomatch h
  | bool b => exact nomatch h
  | arr xs => exact nomatch h
  | obj kvs => exact nomatch h

theorem userStr_some {m : NMsg} {s : String} (h : userStr m = some s) :
    m = .user (.str s) := by
  cases m with
  | user c => exact congrArg NMsg.user (asString_some h)
  | system c => exact nomatch h
  | assistant c tcs => exact nomatch h
  | tool tid c => exact nomatch h

theorem asstPlain_some {m : NMsg} {c : String} (h : asstPlain m = some c) :
    m = .assistant c [] := by
  cases m with
  | assistant c2 tcs =>
    cases tcs with
    | nil => exact congrArg (fun x => NMsg.assistant x []) (Option.some.inj h)
    | cons tc tcs2 => exact nomatch h
  | system c2 => exact nomatch h
  | user c2 => exact nomatch h
  | tool tid c2 => exact nomatch h

theorem strHas_append_left (t x y : String) (h : strHas t x = true) :
    strHas t (x ++ y) = true := by
  unfold strHas
  rw [sdata_append]
  exact containsSeg_append_left _ _ h

theorem strHas_append_right (t x y : String) (h : strHas t y = true) :
    strHas t (x ++ y) = true := by
  unfold strHas
  rw [sdata_append]
  exact containsSeg_append_right _ h

theorem strHas_refl (t : String) : strHas t t = true := containsSeg_refl t.data

theorem step5Go_keep : ∀ (rest racc : List NMsg) (ch : Bool) (t : String),
    ((∃ c, NMsg.user (.str c) ∈ racc ∧ strHas t c = true) ∨
     (∃ c, NMsg.user (.str c) ∈ rest ∧ strHas t c = true)) →
    ∃ c, NMsg.user (.str c) ∈ (step5Go racc ch rest).1 ∧ strHas t c = true := by
  intro rest
  induction rest with
  | nil =>
    intro racc ch t h
    rw [step5Go_nil_eq]
    rcases h with ⟨c, hc, hs⟩ | ⟨c, hc, _⟩
    · exact ⟨c, List.mem_reverse.mpr hc, hs⟩
    · exact absurd hc (List.not_mem_nil _)
  | cons m rest2 ih =>
    intro racc ch t h
    have h3 : (∃ c, NMsg.user (.str c) ∈ racc ∧ strHas t c = true) ∨
        (∃ c, NMsg.user (.str c) = m ∧ strHas t c = true) ∨
        (∃ c, NMsg.user (.str c) ∈ rest2 ∧ strHas t c = true) := by
      rcases h with hL | ⟨c, hc, hs⟩
      · exact Or.inl hL
      · rcases List.mem_cons.mp hc with hc | hc
        · exact Or.inr (Or.inl ⟨c, hc, hs⟩)
        · exact Or.inr (Or.inr ⟨c, hc, hs⟩)
    cases racc with
    | nil =>
      rw [step5Go_start_eq]
      apply ih [m] ch t
      rcases h3 with ⟨c, hc, _⟩ | ⟨c, hc, hs⟩ | ⟨c, hc, hs⟩
      · exact absurd hc (List.not_mem_nil _)
      · exact Or.inl ⟨c, by rw [hc]; exact List.mem_cons_self _ _, hs⟩
      · exact Or.inr ⟨c, hc, hs⟩
    | cons prev racc2 =>
      rw [step5Go_step_eq]
      by_cases h1 : (isToolM m && isAsstM prev && hasToolCalls prev) = true
      · rw [if_pos h1]
        apply ih _ ch t
        rcases h3 with ⟨c, hc, hs⟩ | ⟨c, hc, hs⟩ | ⟨c, hc, hs⟩
        · exact Or.inl ⟨c, List.mem_cons_of_mem m hc, hs⟩
        · exact Or.inl ⟨c, by rw [hc]; exact List.mem_cons_self _ _, hs⟩
        · exact Or.inr ⟨c, hc, hs⟩
      · rw [if_neg h1]
        by_cases h2 : (isToolM m && isToolM prev) = true
        · rw [if_pos h2]
          apply ih _ ch t
          rcases h3 with ⟨c, hc, hs⟩ | ⟨c, hc, hs⟩ | ⟨c, hc, hs⟩
          · exact Or.inl ⟨c, List.mem_cons_of_mem m hc, hs⟩
          · exact Or.inl ⟨c, by rw [hc]; exact List.mem_cons_self _ _, hs⟩
          · exact Or.inr ⟨c, hc, hs⟩
        · rw [if_neg h2]
          by_cases hss : (sideIsUser prev == sideIsUser m) = true
          · rw [if_pos hss]
            by_cases h4 : sideIsUser prev = true
            · rw [if_pos h4]
              rcases hps : userStr prev with _ | ps
              · apply ih _ true t
                rcases h3 with ⟨c, hc, hs⟩ | ⟨c, hc, hs⟩ | ⟨c, hc, hs⟩
                · exact Or.inl ⟨c,
                    List.mem_cons_of_mem m (List.mem_cons_of_mem _ hc), hs⟩
                · exact Or.inl ⟨c, by rw [hc]; exact List.mem_cons_self _ _, hs⟩
                · exact Or.inr ⟨c, hc, hs⟩
              · rcases hms : userStr m with _ | ms
                · apply ih _ true t
                  rcases h3 with ⟨c, hc, hs⟩ | ⟨c, hc, hs⟩ | ⟨c, hc, hs⟩
                  · exact Or.inl ⟨c,
                      List.mem_cons_of_mem m (List.mem_cons_of_mem _ hc), hs⟩
                  · exact Or.inl ⟨c, by rw [hc]; exact List.mem_cons_self _ _, hs⟩
                  · exact Or.inr ⟨c, hc, hs⟩
                · apply ih _ true t
                  rcases h3 with ⟨c, hc, hs⟩ | ⟨c, hc, hs⟩ | ⟨c, hc, hs⟩
                  · rcases List.mem_cons.mp hc with hc | hc
                    · have hcp : c = ps := by
                        rw [userStr_some hps] at hc
                        injection hc with h5
                        injection h5
                      exact Or.inl ⟨ps ++ "\n\n" ++ ms, List.mem_cons_self _ _,
                        strHas_append_left t (ps ++ "\n\n") ms
                          (strHas_append_left t ps "\n\n" (hcp ▸ hs))⟩
                    · exact Or.inl ⟨c, List.mem_cons_of_mem _ hc, hs⟩
                  · have hcm : c = ms := by
                      rw [userStr_some hms] at hc
                      injection hc with h5
                      injection h5
                    exact Or.inl ⟨ps ++ "\n\n" ++ ms, List.mem_cons_self _ _,
                      strHas_append_right t (ps ++ "\n\n") ms (hcm ▸ hs)⟩
                  · exact Or.inr ⟨c, hc, hs⟩
            · rw [if_neg h4]
              rcases hpc : asstPlain prev with _ | pc
              · apply ih _ true t
                rcases h3 with ⟨c, hc, hs⟩ | ⟨c, hc, hs⟩ | ⟨c, hc, hs⟩
                · exact Or.inl ⟨c,
                    List.mem_cons_of_mem m (List.mem_cons_of_mem _ hc), hs⟩
                · exact Or.inl ⟨c, by rw [hc]; exact List.mem_cons_self _ _, hs⟩
                · exact Or.inr ⟨c, hc, hs⟩
              · rcases hmc : asstPlain m with _ | mc
                · apply ih _ true t
                  rcases h3 with ⟨c, hc, hs⟩ | ⟨c, hc, hs⟩ | ⟨c, hc, hs⟩
                  · exact Or.inl ⟨c,
                      List.mem_cons_of_mem m (List.mem_cons_of_mem _ hc), hs⟩
                  · exact Or.inl ⟨c, by rw [hc]; exact List.mem_cons_self _ _, hs⟩
                  · exact Or.inr ⟨c, hc, hs⟩
                · apply ih _ true t
                  rcases h3 with ⟨c, hc, hs⟩ | ⟨c, hc, hs⟩ | ⟨c, hc, hs⟩
                  · rcases List.mem_cons.mp hc with hc | hc
                    · rw [asstPlain_some hpc] at hc
                      exact nomatch hc
                    · exact Or.inl ⟨c, List.mem_cons_of_mem _ hc, hs⟩
                  · rw [asstPlain_some hmc] at hc
                    exact nomatch hc
                  · exact Or.inr ⟨c, hc, hs⟩
          · rw [if_neg hss]
            apply ih _ ch t
            rcases h3 with ⟨c, hc, hs⟩ | ⟨c, hc, hs⟩ | ⟨c, hc, hs⟩
            · exact Or.inl ⟨c, List.mem_cons_of_mem m hc, hs⟩
            · exact Or.inl ⟨c, by rw [hc]; exact List.mem_cons_self _ _, hs⟩
            · exact Or.inr ⟨c, hc, hs⟩

theorem step5Go_last : ∀ (rest racc : List NMsg) (ch : Bool) (t : String),
    rest.getLast? = some (.user (.str t)) →
    ∃ c, ((step5Go racc ch rest).1).getLast? = some (.user (.str c)) ∧
      strHas t c = true := by
  intro rest
  induction rest with
  | nil =>
    intro racc ch t h
    exact nomatch h
  | cons m rest2 ih =>
    intro racc ch t h
    cases rest2 with
    | cons m2 rest3 =>
      rw [List.getLast?_cons_cons] at h
      cases racc with
      | nil =>
        rw [step5Go_start_eq]
        exact ih _ ch t h
      | cons prev racc2 =>
        rw [step5Go_step_eq]
        by_cases h1 : (isToolM m && isAsstM prev && hasToolCalls prev) = true
        · rw [if_pos h1]
          exact ih _ ch t h
        · rw [if_neg h1]
          by_cases h2 : (isToolM m && isToolM prev) = true
          · rw [if_pos h2]
            exact ih _ ch t h
          · rw [if_neg h2]
            by_cases hss : (sideIsUser prev == sideIsUser m) = true
            · rw [if_pos hss]
              by_cases h4 : sideIsUser prev = true
              · rw [if_pos h4]
                rcases hps : userStr prev with _ | ps
                · exact ih _ true t h
                · rcases hms : userStr m with _ | ms
                  · exact ih _ true t h
                  · exact ih _ true t h
              · rw [if_neg h4]
                rcases hpc : asstPlain prev with _ | pc
                · exact ih _ true t h
                · rcases hmc : asstPlain m with _ | mc
                  · exact ih _ true t h
                  · exact ih _ true t h
            · rw [if_neg hss]
              exact ih _ ch t h
    | nil =>
      have hm : m = .user (.str t) := Option.some.inj h
      subst hm
      cases racc with
      | nil =>
        rw [step5Go_start_eq, step5Go_nil_eq]
        exact ⟨t, rfl, strHas_refl t⟩
      | cons prev racc2 =>
        rw [step5Go_step_eq]
        by_cases hss : (sideIsUser prev == sideIsUser (NMsg.user (.str t))) = true
        · rw [if_pos hss]
          by_cases h4 : sideIsUser prev = true
          · rw [if_pos h4]
            rcases hps : userStr prev with _ | ps
            · refine ⟨t, ?_, strHas_refl t⟩
              show ((NMsg.user (.str t) :: NMsg.assistant "Understood." [] :: prev
                :: racc2).reverse).getLast? = some (NMsg.user (.str t))
              rw [List.getLast?_reverse]
              rfl
            · refine ⟨ps ++ "\n\n" ++ t, ?_,
                strHas_append_right t (ps ++ "\n\n") t (strHas_refl t)⟩
              show ((NMsg.user (.str (ps ++ "\n\n" ++ t)) :: racc2).reverse).getLast?
                = some (NMsg.user (.str (ps ++ "\n\n" ++ t)))
              rw [List.getLast?_reverse]
              rfl
          · rw [if_neg h4]
            rcases hpc : asstPlain prev with _ | pc
            · refine ⟨t, ?_, strHas_refl t⟩
              show ((NMsg.user (.str t) :: NMsg.user (.str "Continue.") :: prev
                :: racc2).reverse).getLast? = some (NMsg.user (.str t))
              rw [List.getLast?_reverse]
              rfl
            · refine ⟨t, ?_, strHas_refl t⟩
              show ((NMsg.user (.str t) :: NMsg.user (.str "Continue.") :: prev
                :: racc2).reverse).getLast? = some (NMsg.user (.str t))
              rw [List.getLast?_reverse]
              rfl
        · rw [if_neg hss]
          refine ⟨t, ?_, strHas_refl t⟩
          show ((NMsg.user (.str t) :: prev :: racc2).reverse).getLast?
            = some (NMsg.user (.str t))
          rw [List.getLast?_reverse]
          rfl

theorem find?_pred {α : Type} (p : α → Bool) : ∀ (l : List α) (a : α),
    l.find? p = some a → p a = true := by
  intro l
  induction l with
  | nil => intro a h; exact nomatch h
  | cons x xs ih =>
    intro a h
    by_cases hp : p x = true
    · rw [List.find?_cons_of_pos _ hp] at h
      rw [← Option.some.inj h]
      exact hp
    · rw [List.find?_cons_of_neg _ hp] at h
      exact ih a h

theorem step6_mem {l : List NMsg} {ch : Bool} {m : NMsg} (h : m ∈ l) :
    m ∈ (step6 l ch).1 := by
  cases l with
  | nil => exact absurd h (List.not_mem_nil _)
  | cons x l2 =>
    rw [step6_cons_eq]
    by_cases hs : (!(sideIsUser x)) = true
    · rw [if_pos hs]
      exact List.mem_cons_of_mem _ h
    · rw [if_neg hs]
      exact h

theorem step6_last {l : List NMsg} {ch : Bool} {m : NMsg} (h : l.getLast? = some m) :
    ((step6 l ch).1).getLast? = some m := by
  cases l with
  | nil => exact nomatch h
  | cons x l2 =>
    rw [step6_cons_eq]
    by_cases hs : (!(sideIsUser x)) = true
    · rw [if_pos hs]
      show (NMsg.user (.str "Begin.") :: x :: l2).getLast? = some m
      rw [List.getLast?_cons_cons]
      exact h
    · rw [if_neg hs]
      exact h

theorem getLast?_map {α β : Type} (f : α → β) (l : List α) :
    (l.map f).getLast? = (l.getLast?).map f := by
  rw [List.getLast?_eq_head?_reverse, List.getLast?_eq_head?_reverse, ← List.map_reverse,
    List.head?_map]

theorem step7_mem_user {l : List NMsg} {c : String} (hb : jsBlank c = false)
    (h : NMsg.user (.str c) ∈ l) : NMsg.user (.str c) ∈ (step7 l).1 := by
  rw [step7_fst]
  exact List.mem_map.mpr ⟨NMsg.user (.str c), h, by rw [step7One_user_str_eq, hb]; rfl⟩

theorem step7_last_user {l : List NMsg} {c : String} (hb : jsBlank c = false)
    (h : l.getLast? = some (NMsg.user (.str c))) :
    ((step7 l).1).getLast? = some (NMsg.user (.str c)) := by
  rw [step7_fst, getLast?_map, h]
  show some ((step7One (NMsg.user (.str c))).1) = _
  rw [step7One_user_str_eq, hb]
  rfl

theorem step9_fst : ∀ (l : List NMsg), (step9 l).1 = l.map (fun m => (step9One m).1) := by
  intro l
  induction l with
  | nil => rfl
  | cons m rest ih =>
    show (step9One m).1 :: (step9 rest).1 = (step9One m).1 :: rest.map (fun m => (step9One m).1)
    rw [ih]

theorem step9_mem_user {l : List NMsg} {c : String} (hb : jsBlank c = false)
    (h : NMsg.user (.str c) ∈ l) : NMsg.user (.str c) ∈ (step9 l).1 := by
  rw [step9_fst]
  exact List.mem_map.mpr ⟨NMsg.user (.str c), h, by rw [step9One_user_str_eq, hb]; rfl⟩

theorem step9_last_user {l : List NMsg} {c : String} (hb : jsBlank c = false)
    (h : l.getLast? = some (NMsg.user (.str c))) :
    ((step9 l).1).getLast? = some (NMsg.user (.str c)) := by
  rw [step9_fst, getLast?_map, h]
  show some ((step9One (NMsg.user (.str c))).1) = _
  rw [step9One_user_str_eq, hb]
  rfl

theorem step8_mem {sys alt : List NMsg} {m : NMsg} (h : m ∈ alt) : m ∈ (step8 sys alt).1 := by
  rw [step8_eq]
  by_cases he : (sys ++ alt).isEmpty = true
  · exfalso
    rcases List.append_eq_nil.mp (List.isEmpty_iff.mp he) with ⟨_, ha⟩
    rw [ha] at h
    exact absurd h (List.not_mem_nil _)
  · rw [if_neg he]
    exact List.mem_append_right sys h

theorem getLast?_append_right {α : Type} (a : List α) {b : List α} (hb : b ≠ []) :
    (a ++ b).getLast? = b.getLast? := by
  induction a with
  | nil => rfl
  | cons x a2 ih =>
    rcases hab : a2 ++ b with _ | ⟨y, ys⟩
    · exact absurd (List.append_eq_nil.mp hab).2 hb
    · rw [List.cons_append, hab, List.getLast?_cons_cons, ← hab, ih]

theorem step8_last {sys alt : List NMsg} {m : NMsg} (h : alt.getLast? = some m) :
    ((step8 sys alt).1).getLast? = some m := by
  have hne : alt ≠ [] := by
    intro hn
    rw [hn] at h
    exact nomatch h
  rw [step8_eq]
  by_cases he : (sys ++ alt).isEmpty = true
  · exact absurd (List.append_eq_nil.mp (List.isEmpty_iff.mp he)).2 hne
  · rw [if_neg he]
    show ((sys ++ alt).getLast?) = some m
    rw [getLast?_append_right sys hne]
    exact h

/-- C5 (amended).  A recorded tool result whose id is never consumed by any
assistant call yields no tool message with that id in the output; the
output instead contains a user message whose text contains the tagged form
of the ledger entry for that id (the LAST result recorded under the id:
earlier same-id results are overwritten in the ledger and lost). -/
theorem claim5_orphan_conversion (input : List JVal) (fresh : Nat → String)
    (tid txt : String)
    (hledid : ledgerLookup (inputLedger input) tid = some txt)
    (hnotinv : (invokedIds input fresh).contains tid = false) :
    ((normalizeMessages input fresh).1).all (fun m =>
      match m with
      | .tool tid2 _ => !(tid2 == tid)
      | .system _ => true
      | .user _ => true
      | .assistant _ _ => true) = true ∧
    ∃ c, NMsg.user (.str c) ∈ (normalizeMessages input fresh).1 ∧
      strHas ("[Previous tool output for " ++ tid ++ "]:\n" ++ txt) c = true := by
  rcases normalizeMessages_master input fresh with
    ⟨sysl, altl, heq, _, hsysOk, _, _, _, haltOk, _⟩
  constructor
  · rw [heq, List.all_eq_true]
    intro x hx
    have hok : outOk (inputLedger input) (invokedIds input fresh) x = true := by
      rcases List.mem_append.mp hx with hx2 | hx2
      · exact List.all_eq_true.mp hsysOk x hx2
      · exact List.all_eq_true.mp haltOk x hx2
    cases x with
    | system c => rfl
    | user c => rfl
    | assistant c tcs => rfl
    | tool tid2 c =>
      have h2 := hok
      rw [show outOk (inputLedger input) (invokedIds input fresh) (.tool tid2 c)
          = (!(tid2 == "") && (c == ((ledgerLookup (inputLedger input) tid2).getD
            placeholderResult)) && (invokedIds input fresh).contains tid2) from rfl,
        Bool.and_eq_true, Bool.and_eq_true] at h2
      show (!(tid2 == tid)) = true
      by_cases hbe : (tid2 == tid) = true
      · rw [beq_iff_eq.mp hbe] at h2
        rw [h2.2] at hnotinv
        exact nomatch hnotinv
      · rw [eq_false_of_ne_true hbe]
        rfl
  · have hp : (tid, txt) ∈ inputLedger input := by
      unfold ledgerLookup at hledid
      rcases Option.map_eq_some'.mp hledid with ⟨p, hfind, hsnd⟩
      have hpred : (fun q : String × String => q.1 == tid) p = true :=
        find?_pred (fun q : String × String => q.1 == tid) (inputLedger input) p hfind
      have hfst : p.1 = tid := beq_iff_eq.mp hpred
      have hpe : p = (tid, txt) := by
        rw [show p = (p.1, p.2) from rfl, hfst, hsnd]
      rw [← hpe]
      exact List.mem_of_find?_eq_some hfind
    have horph : NMsg.user (.str ("[Previous tool output for " ++ tid ++ "]:\n" ++ txt))
        ∈ orphanUsers (inputLedger input) (invokedIds input fresh) := by
      unfold orphanUsers
      refine List.mem_map.mpr ⟨(tid, txt), List.mem_filter.mpr ⟨hp, ?_⟩, rfl⟩
      rw [hnotinv]
      rfl
    have h5in : NMsg.user (.str ("[Previous tool output for " ++ tid ++ "]:\n" ++ txt))
        ∈ stage5in input fresh := by
      unfold stage5in
      exact List.mem_append_right _ horph
    rcases step5Go_keep (stage5in input fresh) []
        ((stage3 input fresh).changed
          || !(orphanUsers (inputLedger input) (stage3 input fresh).used).isEmpty)
        ("[Previous tool output for " ++ tid ++ "]:\n" ++ txt)
        (Or.inr ⟨_, h5in, strHas_refl _⟩) with ⟨c, hmem5, hs⟩
    have hb : jsBlank c = false := strHas_not_blank hs (tag_not_blank tid txt)
    refine ⟨c, ?_, hs⟩
    have h6m : NMsg.user (.str c) ∈ (stage6 input fresh).1 := step6_mem hmem5
    have h7m : NMsg.user (.str c) ∈ (stage7 input fresh).1 := step7_mem_user hb h6m
    have h8m : NMsg.user (.str c) ∈ (stage8 input fresh).1 := step8_mem h7m
    exact step9_mem_user hb h8m

/-- C5, counterexample to the frozen claim: with two results recorded under
the same never-invoked id, the earlier text `"A"` surfaces nowhere in the
output (the ledger keeps only the later `"B"`), though the claim promises a
user message carrying each orphan result's text. -/
theorem claim5_counterexample :
    normalizeMessages
      [.obj [("role", .str "tool"), ("tool_call_id", .str "x"), ("content", .str "A")],
       .obj [("role", .str "tool"), ("tool_call_id", .str "x"), ("content", .str "B")],
       .obj [("role", .str "user"), ("content", .str "hi")]] (fun _ => "c5")
      = ([.user (.str "hi\n\n[Previous tool output for x]:\nB")], true) ∧
    strHas ("[Previous tool output for x]:\nA")
      "hi\n\n[Previous tool output for x]:\nB" = false ∧
    (invokedIds
      [.obj [("role", .str "tool"), ("tool_call_id", .str "x"), ("content", .str "A")],
       .obj [("role", .str "tool"), ("tool_call_id", .str "x"), ("content", .str "B")],
       .obj [("role", .str "user"), ("content", .str "hi")]] (fun _ => "c5")).contains "x"
      = false :=
  ⟨rfl, by decide, rfl⟩

theorem claim5_witness :
    ((normalizeMessages [.obj [("role", .str "tool"), ("tool_call_id", .str "y"),
        ("content", .str "out")], .obj [("role", .str "user"), ("content", .str "hi")]]
      (fun _ => "w5")).1).all (fun m =>
      match m with
      | .tool tid2 _ => !(tid2 == "y")
      | .system _ => true
      | .user _ => true
      | .assistant _ _ => true) = true ∧
    ∃ c, NMsg.user (.str c) ∈ (normalizeMessages
      [.obj [("role", .str "tool"), ("tool_call_id", .str "y"), ("content", .str "out")],
       .obj [("role", .str "user"), ("content", .str "hi")]] (fun _ => "w5")).1 ∧
      strHas ("[Previous tool output for " ++ "y" ++ "]:\n" ++ "out") c = true :=
  claim5_orphan_conversion
    [.obj [("role", .str "tool"), ("tool_call_id", .str "y"), ("content", .str "out")],
     .obj [("role", .str "user"), ("content", .str "hi")]] (fun _ => "w5") "y" "out"
    rfl rfl

/-- C6 (amended).  Orphan results are not kept at their original positions:
they are appended at the END of the transcript, possibly merged into a
preceding user message.  The tagged form of the LAST orphan ledger entry is
always contained in the final output message, which is a user message. -/
theorem claim6_orphans_at_end (input : List JVal) (fresh : Nat → String)
    (tid txt : String)
    (hlast : ((inputLedger input).filter
        (fun p => !((invokedIds input fresh).contains p.1))).getLast? = some (tid, txt)) :
    ∃ c, ((normalizeMessages input fresh).1).getLast? = some (.user (.str c)) ∧
      strHas ("[Previous tool output for " ++ tid ++ "]:\n" ++ txt) c = true := by
  have horph : (orphanUsers (inputLedger input) (invokedIds input fresh)).getLast?
      = some (.user (.str ("[Previous tool output for " ++ tid ++ "]:\n" ++ txt))) := by
    unfold orphanUsers
    rw [getLast?_map, hlast]
    rfl
  have hone : orphanUsers (inputLedger input) (invokedIds input fresh) ≠ [] := by
    intro hn
    rw [hn] at horph
    exact nomatch horph
  have h5in : (stage5in input fresh).getLast?
      = some (.user (.str ("[Previous tool output for " ++ tid ++ "]:\n" ++ txt))) := by
    unfold stage5in
    rw [← invokedIds_eq input fresh, getLast?_append_right _ hone]
    exact horph
  rcases step5Go_last (stage5in input fresh) []
      ((stage3 input fresh).changed
        || !(orphanUsers (inputLedger input) (stage3 input fresh).used).isEmpty)
      ("[Previous tool output for " ++ tid ++ "]:\n" ++ txt) h5in with ⟨c, hlast5, hs⟩
  have hb : jsBlank c = false := strHas_not_blank hs (tag_not_blank tid txt)
  refine ⟨c, ?_, hs⟩
  have h6l : ((stage6 input fresh).1).getLast? = some (.user (.str c)) := step6_last hlast5
  have h7l : ((stage7 input fresh).1).getLast? = some (.user (.str c)) :=
    step7_last_user hb h6l
  have h8l : ((stage8 input fresh).1).getLast? = some (.user (.str c)) := step8_last h7l
  exact step9_last_user hb h8l

/-- C6, counterexample to the frozen claim: an orphan result that came FIRST
in the input surfaces as the LAST output message, after messages derived
from later input entries, not at its original position. -/
theorem claim6_counterexample :
    normalizeMessages
      [.obj [("role", .str "tool"), ("tool_call_id", .str "x"), ("content", .str "A")],
       .obj [("role", .str "user"), ("content", .str "hi")],
       .obj [("role", .str "assistant"), ("content", .str "ok")]] (fun _ => "c6")
      = ([.user (.str "hi"), .assistant "ok" [],
          .user (.str "[Previous tool output for x]:\nA")], true) ∧
    ((normalizeMessages
      [.obj [("role", .str "tool"), ("tool_call_id", .str "x"), ("content", .str "A")],
       .obj [("role", .str "user"), ("content", .str "hi")],
       .obj [("role", .str "assistant"), ("content", .str "ok")]] (fun _ => "c6")).1).get? 0
      ≠ some (.user (.str "[Previous tool output for x]:\nA")) :=
  ⟨rfl, by decide⟩

theorem claim6_witness :
    ∃ c, ((normalizeMessages [.obj [("role", .str "tool"), ("tool_call_id", .str "z"),
        ("content", .str "res")]] (fun _ => "w6")).1).getLast?
      = some (.user (.str c)) ∧
      strHas ("[Previous tool output for " ++ "z" ++ "]:\n" ++ "res") c = true :=
  claim6_orphans_at_end
    [.obj [("role", .str "tool"), ("tool_call_id", .str "z"), ("content", .str "res")]]
    (fun _ => "w6") "z" "res" rfl

/-! ## C8: determinism and the synthetic-id draws -/

/-- A tool-call entry carrying a usable id: its `id` field is a non-empty
string, so `ntcId` returns it without drawing a synthetic id. -/
def tcHasId (tc : JVal) : Bool :=
  match asStr (tc.get "id") with
  | some s => !(s == "")
  | none => false

/-- An input message whose normalization draws no synthetic id: when it is an
assistant message, every object entry of its `tool_calls` array has a
non-empty string id. -/
def msgCallsHaveIds (m : JVal) : Bool :=
  if roleIs m "assistant" then
    match (m.get "tool_calls").getD .null with
    | .arr tcs => tcs.all (fun tc => !tc.isObjLike || tcHasId tc)
    | _ => true
  else true

theorem ntcId_indep (tc : JVal) (fresh fresh2 : Nat → String) (ctr : Nat)
    (h : tcHasId tc = true) : ntcId tc fresh ctr = ntcId tc fresh2 ctr := by
  unfold tcHasId at h
  unfold ntcId
  rcases he : asStr (tc.get "id") with _ | s
  · rw [he] at h
    exact nomatch h
  · rw [he] at h
    have h2 : (!(s == "")) = true := h
    show (if !(s == "") then (s, ctr) else ("tc_" ++ fresh ctr, ctr + 1))
        = (if !(s == "") then (s, ctr) else ("tc_" ++ fresh2 ctr, ctr + 1))
    rw [h2]
    rfl

theorem ntcGo_cons_eq (tc : JVal) (rest : List JVal) (fresh : Nat → String) (ctr : Nat) :
    ntcGo (tc :: rest) fresh ctr =
      if tc.isObjLike then
        (⟨(ntcId tc fresh ctr).1, ntcName tc, ntcArgs tc⟩
            :: (ntcGo rest fresh (ntcId tc fresh ctr).2).1,
          (ntcGo rest fresh (ntcId tc fresh ctr).2).2)
      else ntcGo rest fresh ctr := rfl

theorem ntcGo_indep : ∀ (tcs : List JVal) (fresh fresh2 : Nat → String) (ctr : Nat),
    tcs.all (fun tc => !tc.isObjLike || tcHasId tc) = true →
    ntcGo tcs fresh ctr = ntcGo tcs fresh2 ctr := by
  intro tcs
  induction tcs with
  | nil => intro fresh fresh2 ctr h; rfl
  | cons tc rest ih =>
    intro fresh fresh2 ctr h
    rw [List.all_cons, Bool.and_eq_true] at h
    have h1 : (!tc.isObjLike || tcHasId tc) = true := h.1
    by_cases ho : tc.isObjLike = true
    · have hid : tcHasId tc = true := by
        rw [ho] at h1
        exact h1
      rw [ntcGo_cons_eq, ntcGo_cons_eq, if_pos ho, if_pos ho,
        ntcId_indep tc fresh fresh2 ctr hid, ih fresh fresh2 (ntcId tc fresh2 ctr).2 h.2]
    · rw [ntcGo_cons_eq, ntcGo_cons_eq, if_neg ho, if_neg ho]
      exact ih fresh fresh2 ctr h.2

theorem step3_indep : ∀ (l : List JVal) (led : List (String × String))
    (fresh fresh2 : Nat → String) (ctr : Nat) (ch : Bool),
    l.all msgCallsHaveIds = true →
    step3 led fresh l ctr ch = step3 led fresh2 l ctr ch := by
  intro l
  induction l with
  | nil => intro led fresh fresh2 ctr ch h; rfl
  | cons m rest ih =>
    intro led fresh fresh2 ctr ch h
    rw [List.all_cons, Bool.and_eq_true] at h
    have hm : msgCallsHaveIds m = true := h.1
    by_cases ht : roleIs m "tool" = true
    · rw [step3_tool_eq led fresh m rest ctr ch ht, step3_tool_eq led fresh2 m rest ctr ch ht]
      exact ih led fresh fresh2 ctr ch h.2
    · have ht2 : roleIs m "tool" = false := eq_false_of_ne_true ht
      by_cases hu : roleIs m "user" = true
      · rw [step3_user_eq led fresh m rest ctr ch ht2 hu,
          step3_user_eq led fresh2 m rest ctr ch ht2 hu,
          ih led fresh fresh2 ctr ch h.2]
      · have hu2 : roleIs m "user" = false := eq_false_of_ne_true hu
        by_cases ha : roleIs m "assistant" = true
        · have hntc : normalizeToolCalls ((m.get "tool_calls").getD .null) fresh ctr
              = normalizeToolCalls ((m.get "tool_calls").getD .null) fresh2 ctr := by
            unfold msgCallsHaveIds at hm
            rw [if_pos ha] at hm
            unfold normalizeToolCalls
            rcases hv : (m.get "tool_calls").getD .null with _ | _ | _ | tcs | _
            · rfl
            · rfl
            · rfl
            · rw [hv] at hm
              exact ntcGo_indep tcs fresh fresh2 ctr hm
            · rfl
          rw [step3_asst_eq led fresh m rest ctr ch ht2 hu2 ha,
            step3_asst_eq led fresh2 m rest ctr ch ht2 hu2 ha, hntc,
            ih led fresh fresh2
              (normalizeToolCalls ((m.get "tool_calls").getD .null) fresh2 ctr).2
              (ch || (normalizeToolCalls ((m.get "tool_calls").getD .null) fresh2 ctr).1.any
                (fun tc => (ledgerLookup led tc.id).isNone)) h.2]
        · have ha2 : roleIs m "assistant" = false := eq_false_of_ne_true ha
          rw [step3_unknown_eq led fresh m rest ctr ch ht2 hu2 ha2,
            step3_unknown_eq led fresh2 m rest ctr ch ht2 hu2 ha2]
          exact ih led fresh fresh2 ctr true h.2

theorem step1_all_snd (p : JVal → Bool) :
    ∀ l : List JVal, l.all p = true → ((step1 l).2).all p = true := by
  intro l
  induction l with
  | nil => intro h; rfl
  | cons m rest ih =>
    intro h
    rw [List.all_cons, Bool.and_eq_true] at h
    rw [step1_cons_eq]
    by_cases ho : (!m.isObjLike) = true
    · rw [if_pos ho]
      exact ih h.2
    · rw [if_neg ho]
      by_cases hs : roleIs m "system" = true
      · rw [if_pos hs]
        exact ih h.2
      · rw [if_neg hs]
        show (m :: (step1 rest).2).all p = true
        rw [List.all_cons, Bool.and_eq_true]
        exact ⟨h.1, ih h.2⟩

theorem stage3_indep (input : List JVal) (fresh fresh2 : Nat → String)
    (h : input.all msgCallsHaveIds = true) :
    stage3 input fresh = stage3 input fresh2 := by
  unfold stage3
  exact step3_indep (step1 input).2 (inputLedger input) fresh fresh2 0 false
    (step1_all_snd msgCallsHaveIds input h)

theorem normalizeMessages_indep (input : List JVal) (fresh fresh2 : Nat → String)
    (h : input.all msgCallsHaveIds = true) :
    normalizeMessages input fresh = normalizeMessages input fresh2 := by
  have h3 := stage3_indep input fresh fresh2 h
  have h5in : stage5in input fresh = stage5in input fresh2 := by
    unfold stage5in
    rw [h3]
  have h5 : stage5 input fresh = stage5 input fresh2 := by
    unfold stage5
    rw [h3, h5in]
  have h6 : stage6 input fresh = stage6 input fresh2 := by
    unfold stage6
    rw [h5]
  have h7 : stage7 input fresh = stage7 input fresh2 := by
    unfold stage7
    rw [h6]
  have h8 : stage8 input fresh = stage8 input fresh2 := by
    unfold stage8
    rw [h7]
  rw [normalizeMessages_staged, normalizeMessages_staged, h6, h7, h8]

/-- C8 (amended): the only nondeterminism in the engine is the synthetic
tool-call id draw (`Date.now()`/`Math.random()`, modelled here by the `fresh`
oracle).  When every object entry of every assistant message's `tool_calls`
array already carries a non-empty string id, no draw happens and two runs of
the normalization over any two oracles produce identical results. -/
theorem claim8_determinism (body : JVal) (msgs : List JVal) (fresh fresh2 : Nat → String)
    (hm : asArr (body.get "messages") = some msgs)
    (hids : msgs.all msgCallsHaveIds = true) :
    normalizeOpenAIChatCompletionsBody body fresh
      = normalizeOpenAIChatCompletionsBody body fresh2 := by
  unfold normalizeOpenAIChatCompletionsBody normalizeChatCompletionsMessages
  by_cases hb : body.truthy = true
  · rw [if_pos hb, if_pos hb, hm]
    show (jSet body "messages" (.arr ((normalizeMessages msgs fresh).1.map encodeNMsg)),
        (normalizeMessages msgs fresh).2)
      = (jSet body "messages" (.arr ((normalizeMessages msgs fresh2).1.map encodeNMsg)),
        (normalizeMessages msgs fresh2).2)
    rw [normalizeMessages_indep msgs fresh fresh2 hids]
  · rw [if_neg hb, if_neg hb]

theorem claim8_witness :
    normalizeOpenAIChatCompletionsBody
      (.obj [("messages", .arr
        [.obj [("role", .str "user"), ("content", .str "hi")],
         .obj [("role", .str "assistant"), ("content", .str "done"),
           ("tool_calls", .arr [.obj [("id", .str "call_1")]])]])])
      (fun _ => "wa")
    = normalizeOpenAIChatCompletionsBody
      (.obj [("messages", .arr
        [.obj [("role", .str "user"), ("content", .str "hi")],
         .obj [("role", .str "assistant"), ("content", .str "done"),
           ("tool_calls", .arr [.obj [("id", .str "call_1")]])]])])
      (fun _ => "wb") :=
  claim8_determinism
    (.obj [("messages", .arr
      [.obj [("role", .str "user"), ("content", .str "hi")],
       .obj [("role", .str "assistant"), ("content", .str "done"),
         ("tool_calls", .arr [.obj [("id", .str "call_1")]])]])])
    [.obj [("role", .str "user"), ("content", .str "hi")],
     .obj [("role", .str "assistant"), ("content", .str "done"),
       ("tool_calls", .arr [.obj [("id", .str "call_1")]])]]
    (fun _ => "wa") (fun _ => "wb") rfl (by decide)

/-- C8, counterexample to the frozen claim: an assistant tool call with no id
gets a synthetic id drawn from the clock/PRNG oracle, so two runs at
different draws produce different output message lists. -/
theorem claim8_counterexample :
    (normalizeMessages [.obj [("role", .str "assistant"),
        ("tool_calls", .arr [.obj []])]] (fun _ => "a")).1
      ≠ (normalizeMessages [.obj [("role", .str "assistant"),
        ("tool_calls", .arr [.obj []])]] (fun _ => "b")).1 := by
  decide

/-! ## C7: the normalized output is a fixpoint of the engine -/

theorem ensureNonEmpty_fix {c : String} (h : jsBlank c = false) :
    ensureNonEmpty (.str c) "." = c := by
  show (if !(jsBlank c) then c else ".") = c
  rw [h]
  rfl

theorem processToolContent_fix {c : String} (h : jsBlank c = false) :
    processToolContent (.str c) = c := by
  show (if !(jsBlank c) then c else "(empty output)") = c
  rw [h]
  rfl

theorem processAssistantContent_fix {c : String} (h : jsBlank c = false) :
    processAssistantContent (.str c) = c := by
  show (if !(jsBlank c) then c else "...") = c
  rw [h]
  rfl

theorem jsBlank_ne_empty {t : String} (h : jsBlank t = false) : (t == "") = false := by
  by_cases he : t = ""
  · rw [he] at h
    exact nomatch h
  · exact beq_eq_false_iff_ne.mpr he

theorem validImageUrl_ne {u : String} (h : validImageUrl u = true) : (u == "") = false := by
  by_cases he : u = ""
  · rw [he] at h
    exact absurd h (by decide)
  · exact beq_eq_false_iff_ne.mpr he

theorem convertImageBlock_imgNorm {u : String} (hv : validImageUrl u = true) :
    convertImageBlock (imgNorm u) = some (imgNorm u) := by
  have hne : (u == "") = false := validImageUrl_ne hv
  show (if (!(imgNorm u).truthy || !((imgNorm u).get "type" == some (.str "image_url"))) then none
      else if imageUrlOf (imgNorm u) == "" then none
      else if validImageUrl (imageUrlOf (imgNorm u)) then some (imgNorm (imageUrlOf (imgNorm u)))
      else none)
    = some (imgNorm u)
  rw [show imageUrlOf (imgNorm u) = u from rfl,
    show (!(imgNorm u).truthy || !((imgNorm u).get "type" == some (.str "image_url"))) = false
      from rfl, hne, hv]
  rfl

theorem puScan_cons_obj (kvs : List (String × JVal)) (bs : List JVal) :
    puScan (.obj kvs :: bs) =
      (if (JVal.obj kvs).get "type" == some (.str "text") then
        match asStr ((JVal.obj kvs).get "text") with
        | some t =>
          if !(jsBlank t) then (jsTrim t :: (puScan bs).1, (puScan bs).2.1, (puScan bs).2.2)
          else puScan bs
        | none => puScan bs
      else if (JVal.obj kvs).get "type" == some (.str "image_url") then
        match convertImageBlock (.obj kvs) with
        | some cb => ((puScan bs).1, cb :: (puScan bs).2.1, true)
        | none => puScan bs
      else if (JVal.obj kvs).get "type" == some (.str "image") then
        ((puScan bs).1, .obj kvs :: (puScan bs).2.1, true)
      else puScan bs) := rfl

theorem puScan_textNorm (t : String) (ht : jsBlank t = false) (bs : List JVal) :
    puScan (textNorm t :: bs)
      = (jsTrim t :: (puScan bs).1, (puScan bs).2.1, (puScan bs).2.2) := by
  show puScan (.obj [("type", .str "text"), ("text", .str t)] :: bs) = _
  rw [puScan_cons_obj,
    show ((JVal.obj [("type", .str "text"), ("text", .str t)]).get "type"
      == some (.str "text")) = true from rfl]
  show (if !(jsBlank t) then (jsTrim t :: (puScan bs).1, (puScan bs).2.1, (puScan bs).2.2)
      else puScan bs) = _
  rw [ht]
  rfl

theorem puScan_imgNorm (u : String) (hv : validImageUrl u = true) (bs : List JVal) :
    puScan (imgNorm u :: bs) = ((puScan bs).1, imgNorm u :: (puScan bs).2.1, true) := by
  show puScan (.obj [("type", .str "image_url"), ("image_url", .obj [("url", .str u)])] :: bs) = _
  rw [puScan_cons_obj,
    show ((JVal.obj [("type", .str "image_url"),
        ("image_url", .obj [("url", .str u)])]).get "type"
      == some (.str "text")) = false from rfl,
    show ((JVal.obj [("type", .str "image_url"),
        ("image_url", .obj [("url", .str u)])]).get "type"
      == some (.str "image_url")) = true from rfl,
    show (JVal.obj [("type", .str "image_url"), ("image_url", .obj [("url", .str u)])])
      = imgNorm u from rfl,
    convertImageBlock_imgNorm hv]
  rfl

theorem puScan_goodImages : ∀ (imgs : List JVal), imgs.all goodImage = true →
    puScan imgs = ([], imgs, !imgs.isEmpty) := by
  intro imgs
  induction imgs with
  | nil => intro h; rfl
  | cons b bs ih =>
    intro h
    rw [List.all_cons, Bool.and_eq_true] at h
    have hrec := ih h.2
    rcases goodImage_inv h.1 with ⟨u, hbu, hv⟩ | hty
    · rw [hbu, puScan_imgNorm u hv bs, hrec]
      rfl
    · have hget : b.get "type" = some (.str "image") := beq_iff_eq.mp hty
      rcases get_some_obj hget with ⟨kvs, hb⟩
      rw [hb] at hget
      rw [hb, puScan_cons_obj, hget,
        show ((some (JVal.str "image") == some (JVal.str "text"))) = false from rfl,
        show ((some (JVal.str "image") == some (JVal.str "image_url"))) = false from rfl,
        show ((some (JVal.str "image") == some (JVal.str "image"))) = true from rfl]
      show ((puScan bs).1, .obj kvs :: (puScan bs).2.1, true) = _
      rw [hrec]
      rfl

theorem intercalate_single (x : String) : String.intercalate "\n" [x] = x := rfl

theorem processUserContent_fix : ∀ {c : JVal}, userContentOk c = true →
    processUserContent c = c := by
  intro c h
  cases c with
  | str s =>
    have hb : jsBlank s = false := bnot_true_elim h
    show JVal.str (ensureNonEmpty (.str s) ".") = .str s
    rw [ensureNonEmpty_fix hb]
  | null => exact nomatch h
  | bool b => exact nomatch h
  | obj kvs => exact nomatch h
  | arr bs =>
    cases bs with
    | nil => exact nomatch h
    | cons b rest =>
      rcases htn : isTextNorm b with _ | t
      · have hh : (match isTextNorm b with
            | some t => !(jsBlank t) && (jsTrim t == t) && !rest.isEmpty && rest.all goodImage
            | none => false) = true := h
        rw [htn] at hh
        exact nomatch hh
      · have hh : (match isTextNorm b with
            | some t => !(jsBlank t) && (jsTrim t == t) && !rest.isEmpty && rest.all goodImage
            | none => false) = true := h
        rw [htn] at hh
        have hc : (!(jsBlank t) && (jsTrim t == t) && !rest.isEmpty
            && rest.all goodImage) = true := hh
        rw [Bool.and_eq_true, Bool.and_eq_true, Bool.and_eq_true] at hc
        have hbt : jsBlank t = false := bnot_true_elim hc.1.1.1
        have htr : jsTrim t = t := beq_iff_eq.mp hc.1.1.2
        have hrne : rest.isEmpty = false := bnot_true_elim hc.1.2
        have hgood : rest.all goodImage = true := hc.2
        have hbeq : b = textNorm t := isTextNorm_eq htn
        rw [hbeq]
        have hscan : puScan (textNorm t :: rest) = (jsTrim t :: [], rest, !rest.isEmpty) := by
          rw [puScan_textNorm t hbt rest, puScan_goodImages rest hgood]
        show (if !(puScan (textNorm t :: rest)).2.2 then
            JVal.str (if !(jsTrim (String.intercalate "\n" (puScan (textNorm t :: rest)).1) == "")
              then jsTrim (String.intercalate "\n" (puScan (textNorm t :: rest)).1) else ".")
          else
            .arr (textNorm
                (if !(jsTrim (String.intercalate "\n" (puScan (textNorm t :: rest)).1) == "")
                  then jsTrim (String.intercalate "\n" (puScan (textNorm t :: rest)).1)
                  else "See attached image:")
              :: (puScan (textNorm t :: rest)).2.1))
          = .arr (textNorm t :: rest)
        rw [hscan]
        show (if !(!rest.isEmpty) then
            JVal.str (if !(jsTrim (String.intercalate "\n" [jsTrim t]) == "")
              then jsTrim (String.intercalate "\n" [jsTrim t]) else ".")
          else
            .arr (textNorm
                (if !(jsTrim (String.intercalate "\n" [jsTrim t]) == "")
                  then jsTrim (String.intercalate "\n" [jsTrim t])
                  else "See attached image:")
              :: rest))
          = .arr (textNorm t :: rest)
        rw [hrne, intercalate_single, htr, htr, jsBlank_ne_empty hbt]
        rfl

theorem ntcId_encode {tc : ToolCall} (hid : (tc.id == "") = false) (fresh : Nat → String)
    (ctr : Nat) : ntcId (encodeToolCall tc) fresh ctr = (tc.id, ctr) := by
  show (if !(tc.id == "") then (tc.id, ctr) else ("tc_" ++ fresh ctr, ctr + 1)) = (tc.id, ctr)
  rw [hid]
  rfl

theorem ntcName_encode {tc : ToolCall} (hn : tc.name.truthy = true) :
    ntcName (encodeToolCall tc) = tc.name := by
  show (if tc.name.truthy then tc.name
      else jOr (((encodeToolCall tc).get "name").getD .null) (.str "unknown_tool")) = tc.name
  rw [hn]
  rfl

theorem ntcArgs_encode {tc : ToolCall} (hb : jsBlank tc.args = false)
    (hv : jsonValid tc.args = true) : ntcArgs (encodeToolCall tc) = tc.args := by
  have hC : ntcArgsC (encodeToolCall tc) = tc.args := by
    show (if !(jsBlank tc.args) then tc.args else "\x7b\x7d") = tc.args
    rw [hb]
    rfl
  unfold ntcArgs
  rw [hC, hv]
  rfl

theorem ntcGo_encode : ∀ (tcs : List ToolCall) (fresh : Nat → String) (ctr : Nat),
    tcs.all callOk = true →
    ntcGo (tcs.map encodeToolCall) fresh ctr = (tcs, ctr) := by
  intro tcs
  induction tcs with
  | nil => intro fresh ctr h; rfl
  | cons tc rest ih =>
    intro fresh ctr h
    rw [List.all_cons, Bool.and_eq_true] at h
    have hok : callOk tc = true := h.1
    rw [show callOk tc = (!(tc.id == "") && tc.name.truthy && !(jsBlank tc.args)
        && jsonValid tc.args) from rfl, Bool.and_eq_true, Bool.and_eq_true,
      Bool.and_eq_true] at hok
    have hid : (tc.id == "") = false := bnot_true_elim hok.1.1.1
    have hn : tc.name.truthy = true := hok.1.1.2
    have hb : jsBlank tc.args = false := bnot_true_elim hok.1.2
    have hv : jsonValid tc.args = true := hok.2
    rw [List.map_cons, ntcGo_cons_eq,
      if_pos (show (encodeToolCall tc).isObjLike = true from rfl),
      ntcId_encode hid fresh ctr, ntcName_encode hn, ntcArgs_encode hb hv]
    show ((⟨tc.id, tc.name, tc.args⟩ : ToolCall) :: (ntcGo (rest.map encodeToolCall) fresh ctr).1,
      (ntcGo (rest.map encodeToolCall) fresh ctr).2) = (tc :: rest, ctr)
    rw [ih fresh ctr h.2]

theorem step1_encode_nonsys : ∀ (l : List NMsg), l.all (fun m => !(isSysM m)) = true →
    step1 (l.map encodeNMsg) = ([], l.map encodeNMsg) := by
  intro l
  induction l with
  | nil => intro h; rfl
  | cons m rest ih =>
    intro h
    rw [List.all_cons, Bool.and_eq_true] at h
    have h1 : (!(isSysM m)) = true := h.1
    have hr := ih h.2
    cases m with
    | system c => exact nomatch h1
    | user c =>
      rw [List.map_cons]
      show ((step1 (rest.map encodeNMsg)).1,
          encodeNMsg (.user c) :: (step1 (rest.map encodeNMsg)).2)
        = ([], encodeNMsg (.user c) :: rest.map encodeNMsg)
      rw [hr]
    | assistant c tcs =>
      cases tcs with
      | nil =>
        rw [List.map_cons]
        show ((step1 (rest.map encodeNMsg)).1,
            encodeNMsg (.assistant c []) :: (step1 (rest.map encodeNMsg)).2)
          = ([], encodeNMsg (.assistant c []) :: rest.map encodeNMsg)
        rw [hr]
      | cons tc tcs2 =>
        rw [List.map_cons]
        show ((step1 (rest.map encodeNMsg)).1,
            encodeNMsg (.assistant c (tc :: tcs2)) :: (step1 (rest.map encodeNMsg)).2)
          = ([], encodeNMsg (.assistant c (tc :: tcs2)) :: rest.map encodeNMsg)
        rw [hr]
    | tool tid c =>
      rw [List.map_cons]
      show ((step1 (rest.map encodeNMsg)).1,
          encodeNMsg (.tool tid c) :: (step1 (rest.map encodeNMsg)).2)
        = ([], encodeNMsg (.tool tid c) :: rest.map encodeNMsg)
      rw [hr]

theorem step1_encode_split (led : List (String × String)) (used : List String) :
    ∀ (sysl altl : List NMsg),
    sysl.all isSysM = true → sysl.all (outOk led used) = true →
    altl.all (fun m => !(isSysM m)) = true →
    step1 ((sysl ++ altl).map encodeNMsg) = (sysl, altl.map encodeNMsg) := by
  intro sysl
  induction sysl with
  | nil =>
    intro altl _ _ hna
    rw [List.nil_append]
    exact step1_encode_nonsys altl hna
  | cons m sysl2 ih =>
    intro altl hs ho hna
    rw [List.all_cons, Bool.and_eq_true] at hs
    rw [List.all_cons, Bool.and_eq_true] at ho
    cases m with
    | user c => exact nomatch hs.1
    | assistant c tcs => exact nomatch hs.1
    | tool tid c => exact nomatch hs.1
    | system c =>
      have hb : jsBlank c = false := bnot_true_elim ho.1
      rw [List.cons_append, List.map_cons]
      show (NMsg.system (ensureNonEmpty (.str c) ".")
            :: (step1 ((sysl2 ++ altl).map encodeNMsg)).1,
          (step1 ((sysl2 ++ altl).map encodeNMsg)).2)
        = (NMsg.system c :: sysl2, altl.map encodeNMsg)
      rw [ensureNonEmpty_fix hb, ih altl hs.2 ho.2 hna]

/-- The ids of the tool messages, in order. -/
def toolIds : List NMsg → List String
  | [] => []
  | .tool id _ :: rest => id :: toolIds rest
  | .system _ :: rest => toolIds rest
  | .user _ :: rest => toolIds rest
  | .assistant _ _ :: rest => toolIds rest

/-- A tool message whose content is the function of its id that the output
discipline prescribes (non-system messages only). -/
def toolsG (g : String → String) : NMsg → Bool
  | .tool id c => !(id == "") && (c == g id) && !(jsBlank (g id))
  | .system _ => true
  | .user _ => true
  | .assistant _ _ => true

theorem contains_cons_eq (a x : String) (l : List String) :
    (a :: l).contains x = (x == a || l.contains x) := List.contains_cons

theorem contains_head (a : String) (l : List String) : (a :: l).contains a = true := by
  rw [contains_cons_eq, beq_self_eq_true]
  rfl

theorem contains_tail {l : List String} {x : String} (a : String)
    (h : l.contains x = true) : (a :: l).contains x = true := by
  rw [contains_cons_eq, h]
  rw [Bool.or_true]

theorem find?_cons_pos {α : Type} (f : α → Bool) (a : α) (l : List α) (h : f a = true) :
    List.find? f (a :: l) = some a := List.find?_cons_of_pos l h

theorem find?_cons_neg {α : Type} (f : α → Bool) (a : α) (l : List α) (h : f a = false) :
    List.find? f (a :: l) = List.find? f l :=
  List.find?_cons_of_neg l (by rw [h]; exact Bool.false_ne_true)

theorem ledgerLookup_append_single (acc : List (String × String)) (s v k : String)
    (hany : acc.any (fun q => q.1 == s) = false) :
    ledgerLookup (acc ++ [(s, v)]) k = if k == s then some v else ledgerLookup acc k := by
  induction acc with
  | nil =>
    rw [List.nil_append]
    by_cases hk : (k == s) = true
    · rw [if_pos hk]
      have hks : k = s := beq_iff_eq.mp hk
      rw [hks]
      show (List.find? (fun q => q.1 == s) [(s, v)]).map (fun q => q.2) = some v
      rw [find?_cons_pos (fun q => q.1 == s) (s, v) [] (beq_self_eq_true s)]
      rfl
    · rw [if_neg hk]
      have hsk : (s == k) = false := by
        by_cases he : s = k
        · rw [he] at hk
          exact absurd (beq_self_eq_true k) hk
        · exact beq_eq_false_iff_ne.mpr he
      show (List.find? (fun q => q.1 == k) [(s, v)]).map (fun q => q.2) = none
      rw [find?_cons_neg (fun q => q.1 == k) (s, v) [] hsk]
      rfl
  | cons p rest ih =>
    rw [List.any_cons, Bool.or_eq_false_iff] at hany
    have hrec := ih hany.2
    rw [List.cons_append]
    by_cases hpk : (p.1 == k) = true
    · have hks : (k == s) = false := by
        by_cases he : k = s
        · rw [he] at hpk
          rw [hpk] at hany
          exact absurd hany.1 (by decide)
        · exact beq_eq_false_iff_ne.mpr he
      rw [if_neg (by rw [hks]; exact Bool.false_ne_true)]
      show (List.find? (fun q => q.1 == k) (p :: (rest ++ [(s, v)]))).map (fun q => q.2)
        = (List.find? (fun q => q.1 == k) (p :: rest)).map (fun q => q.2)
      rw [find?_cons_pos (fun q => q.1 == k) p (rest ++ [(s, v)]) hpk,
        find?_cons_pos (fun q => q.1 == k) p rest hpk]
    · have hpk2 : (p.1 == k) = false := eq_false_of_ne_true hpk
      show (List.find? (fun q => q.1 == k) (p :: (rest ++ [(s, v)]))).map (fun q => q.2)
        = if k == s then some v
          else (List.find? (fun q => q.1 == k) (p :: rest)).map (fun q => q.2)
      rw [find?_cons_neg (fun q => q.1 == k) p (rest ++ [(s, v)]) hpk2,
        find?_cons_neg (fun q => q.1 == k) p rest hpk2]
      exact hrec

theorem ledgerLookup_map_set_self (s v : String) : ∀ (acc : List (String × String)),
    acc.any (fun q => q.1 == s) = true →
    ledgerLookup (acc.map (fun q => if q.1 == s then (s, v) else q)) s = some v := by
  intro acc
  induction acc with
  | nil => intro h; exact nomatch h
  | cons p rest ih =>
    intro h
    rw [List.map_cons]
    by_cases hp : (p.1 == s) = true
    · show ledgerLookup ((if p.1 == s then (s, v) else p)
          :: rest.map (fun q => if q.1 == s then (s, v) else q)) s = some v
      rw [if_pos hp]
      show (List.find? (fun q => q.1 == s)
          ((s, v) :: rest.map (fun q => if q.1 == s then (s, v) else q))).map (fun q => q.2)
        = some v
      rw [find?_cons_pos (fun q => q.1 == s) (s, v)
        (rest.map (fun q => if q.1 == s then (s, v) else q)) (beq_self_eq_true s)]
      rfl
    · have hp2 : (p.1 == s) = false := eq_false_of_ne_true hp
      rw [List.any_cons, hp2] at h
      have h2 : rest.any (fun q => q.1 == s) = true := h
      show ledgerLookup ((if p.1 == s then (s, v) else p)
          :: rest.map (fun q => if q.1 == s then (s, v) else q)) s = some v
      rw [if_neg hp]
      show (List.find? (fun q => q.1 == s)
          (p :: rest.map (fun q => if q.1 == s then (s, v) else q))).map (fun q => q.2)
        = some v
      rw [find?_cons_neg (fun q => q.1 == s) p
        (rest.map (fun q => if q.1 == s then (s, v) else q)) hp2]
      exact ih h2

theorem ledgerLookup_map_set_other (s v k : String) (hks : (k == s) = false) :
    ∀ (acc : List (String × String)),
    ledgerLookup (acc.map (fun q => if q.1 == s then (s, v) else q)) k
      = ledgerLookup acc k := by
  have hsk : (s == k) = false := by
    by_cases he : s = k
    · rw [he] at hks
      exact absurd (beq_self_eq_true k) (by rw [hks]; exact Bool.false_ne_true)
    · exact beq_eq_false_iff_ne.mpr he
  intro acc
  induction acc with
  | nil => rfl
  | cons p rest ih =>
    rw [List.map_cons]
    show ledgerLookup ((if p.1 == s then (s, v) else p)
        :: rest.map (fun q => if q.1 == s then (s, v) else q)) k = ledgerLookup (p :: rest) k
    by_cases hp : (p.1 == s) = true
    · have hpe : p.1 = s := beq_iff_eq.mp hp
      have hpk : (p.1 == k) = false := by rw [hpe]; exact hsk
      rw [if_pos hp]
      show (List.find? (fun q => q.1 == k)
          ((s, v) :: rest.map (fun q => if q.1 == s then (s, v) else q))).map (fun q => q.2)
        = (List.find? (fun q => q.1 == k) (p :: rest)).map (fun q => q.2)
      rw [find?_cons_neg (fun q => q.1 == k) (s, v)
          (rest.map (fun q => if q.1 == s then (s, v) else q)) hsk,
        find?_cons_neg (fun q => q.1 == k) p rest hpk]
      exact ih
    · rw [if_neg hp]
      show (List.find? (fun q => q.1 == k)
          (p :: rest.map (fun q => if q.1 == s then (s, v) else q))).map (fun q => q.2)
        = (List.find? (fun q => q.1 == k) (p :: rest)).map (fun q => q.2)
      by_cases hpk : (p.1 == k) = true
      · rw [find?_cons_pos (fun q => q.1 == k) p
            (rest.map (fun q => if q.1 == s then (s, v) else q)) hpk,
          find?_cons_pos (fun q => q.1 == k) p rest hpk]
      · have hpk2 : (p.1 == k) = false := eq_false_of_ne_true hpk
        rw [find?_cons_neg (fun q => q.1 == k) p
            (rest.map (fun q => if q.1 == s then (s, v) else q)) hpk2,
          find?_cons_neg (fun q => q.1 == k) p rest hpk2]
        exact ih

theorem ledgerLookup_mapSet (acc : List (String × String)) (s v k : String) :
    ledgerLookup (mapSet acc s v) k = if k == s then some v else ledgerLookup acc k := by
  unfold mapSet
  by_cases hany : acc.any (fun q => q.1 == s) = true
  · rw [if_pos hany]
    by_cases hk : (k == s) = true
    · rw [if_pos hk, beq_iff_eq.mp hk]
      exact ledgerLookup_map_set_self s v acc hany
    · rw [if_neg hk]
      exact ledgerLookup_map_set_other s v k (eq_false_of_ne_true hk) acc
  · rw [if_neg hany]
    exact ledgerLookup_append_single acc s v k (eq_false_of_ne_true hany)

theorem step2_encode (g : String → String) :
    ∀ (l : List NMsg) (acc : List (String × String)),
    l.all (toolsG g) = true →
    ∀ k, ledgerLookup (step2 (l.map encodeNMsg) acc) k
      = if (toolIds l).contains k then some (g k) else ledgerLookup acc k := by
  intro l
  induction l with
  | nil =>
    intro acc _ k
    rfl
  | cons m rest ih =>
    intro acc h k
    rw [List.all_cons, Bool.and_eq_true] at h
    cases m with
    | system c =>
      show ledgerLookup (step2 (rest.map encodeNMsg) acc) k
        = if (toolIds rest).contains k then some (g k) else ledgerLookup acc k
      exact ih acc h.2 k
    | user c =>
      show ledgerLookup (step2 (rest.map encodeNMsg) acc) k
        = if (toolIds rest).contains k then some (g k) else ledgerLookup acc k
      exact ih acc h.2 k
    | assistant c tcs =>
      cases tcs with
      | nil =>
        show ledgerLookup (step2 (rest.map encodeNMsg) acc) k
          = if (toolIds rest).contains k then some (g k) else ledgerLookup acc k
        exact ih acc h.2 k
      | cons tc tcs2 =>
        show ledgerLookup (step2 (rest.map encodeNMsg) acc) k
          = if (toolIds rest).contains k then some (g k) else ledgerLookup acc k
        exact ih acc h.2 k
    | tool tid c =>
      have hh : (!(tid == "") && (c == g tid) && !(jsBlank (g tid))) = true := h.1
      rw [Bool.and_eq_true, Bool.and_eq_true] at hh
      have hid : (tid == "") = false := bnot_true_elim hh.1.1
      have hcg : c = g tid := beq_iff_eq.mp hh.1.2
      have hbg : jsBlank (g tid) = false := bnot_true_elim hh.2
      show ledgerLookup (if !(tid == "") then
          step2 (rest.map encodeNMsg) (mapSet acc tid (processToolContent (.str c)))
        else step2 (rest.map encodeNMsg) acc) k
        = if (tid :: toolIds rest).contains k then some (g k) else ledgerLookup acc k
      rw [hid]
      show ledgerLookup
          (step2 (rest.map encodeNMsg) (mapSet acc tid (processToolContent (.str c)))) k
        = if (tid :: toolIds rest).contains k then some (g k) else ledgerLookup acc k
      rw [hcg, processToolContent_fix hbg,
        ih (mapSet acc tid (g tid)) h.2 k, ledgerLookup_mapSet acc tid (g tid) k]
      by_cases hk1 : (toolIds rest).contains k = true
      · rw [if_pos hk1, if_pos (contains_tail tid hk1)]
      · rw [if_neg hk1]
        by_cases hk2 : (k == tid) = true
        · have hke : k = tid := beq_iff_eq.mp hk2
          rw [if_pos hk2, hke, if_pos (contains_head tid (toolIds rest))]
        · have hk2f : (k == tid) = false := eq_false_of_ne_true hk2
          rw [if_neg hk2]
          rw [if_neg (show ¬((tid :: toolIds rest).contains k = true) from by
            rw [contains_cons_eq, hk2f, eq_false_of_ne_true hk1]
            exact Bool.false_ne_true)]

theorem mapSet_all_keys (p : String → Bool) (acc : List (String × String)) (k v : String)
    (ha : acc.all (fun q => p q.1) = true) (hk : p k = true) :
    (mapSet acc k v).all (fun q => p q.1) = true := by
  unfold mapSet
  by_cases hany : acc.any (fun q => q.1 == k) = true
  · rw [if_pos hany]
    rw [List.all_eq_true]
    intro x hx
    rcases List.mem_map.mp hx with ⟨q, hq, hqx⟩
    by_cases hqk : (q.1 == k) = true
    · rw [← hqx, if_pos hqk]
      exact hk
    · rw [← hqx, if_neg hqk]
      exact List.all_eq_true.mp ha q hq
  · rw [if_neg hany, List.all_append, Bool.and_eq_true]
    refine ⟨ha, ?_⟩
    rw [List.all_cons, hk]
    rfl

theorem step2_keys (p : String → Bool) :
    ∀ (l : List NMsg) (acc : List (String × String)),
    acc.all (fun q => p q.1) = true →
    (∀ id c, (NMsg.tool id c) ∈ l → p id = true) →
    (step2 (l.map encodeNMsg) acc).all (fun q => p q.1) = true := by
  intro l
  induction l with
  | nil => intro acc ha _; exact ha
  | cons m rest ih =>
    intro acc ha hl
    have hl2 : ∀ id c, (NMsg.tool id c) ∈ rest → p id = true :=
      fun id c hm => hl id c (List.mem_cons_of_mem m hm)
    cases m with
    | system c => exact ih acc ha hl2
    | user c => exact ih acc ha hl2
    | assistant c tcs =>
      cases tcs with
      | nil => exact ih acc ha hl2
      | cons tc tcs2 => exact ih acc ha hl2
    | tool tid c =>
      show ((if !(tid == "") then
          step2 (rest.map encodeNMsg) (mapSet acc tid (processToolContent (.str c)))
        else step2 (rest.map encodeNMsg) acc)).all (fun q => p q.1) = true
      by_cases hid : (tid == "") = true
      · rw [hid]
        show (step2 (rest.map encodeNMsg) acc).all (fun q => p q.1) = true
        exact ih acc ha hl2
      · rw [eq_false_of_ne_true hid]
        show (step2 (rest.map encodeNMsg)
            (mapSet acc tid (processToolContent (.str c)))).all (fun q => p q.1) = true
        exact ih (mapSet acc tid (processToolContent (.str c)))
          (mapSet_all_keys p acc tid (processToolContent (.str c)) ha
            (hl tid c (List.mem_cons_self _ _))) hl2

theorem toolIds_mem : ∀ {l : List NMsg} {id c : String},
    (NMsg.tool id c) ∈ l → (toolIds l).contains id = true := by
  intro l
  induction l with
  | nil => intro id c h; exact nomatch h
  | cons m rest ih =>
    intro id c h
    rcases List.mem_cons.mp h with he | ht
    · rw [← he]
      exact contains_head id (toolIds rest)
    · cases m with
      | system c2 => exact ih ht
      | user c2 => exact ih ht
      | assistant c2 tcs => exact ih ht
      | tool tid2 c2 => exact contains_tail tid2 (ih ht)

theorem toolIds_sub : ∀ (l : List NMsg) (side : Option Bool) (pend : List String)
    (st : Option Bool × List String), runT side pend l = some (st.1, []) →
    ∀ k, (toolIds l).contains k = true → (pend.contains k || (usedA l).contains k) = true := by
  intro l
  induction l with
  | nil => intro side pend st _ k hk; exact nomatch hk
  | cons m rest ih =>
    intro side pend st hrun k hk
    cases m with
    | system c => exact absurd hrun (fun h => runT_sys_inv h)
    | user c =>
      rcases runT_user_inv hrun with ⟨hp, _, hrun2⟩
      rw [hp]
      exact ih (some true) [] st hrun2 k hk
    | assistant c tcs =>
      cases tcs with
      | nil =>
        rcases runT_asst_nil_inv hrun with ⟨hp, _, hrun2⟩
        rw [hp]
        exact ih (some false) [] st hrun2 k hk
      | cons tc tcs2 =>
        rcases runT_asst_cons_inv hrun with ⟨hp, _, hrun2⟩
        rw [hp]
        have hrec := ih (some true) ((tc :: tcs2).map ToolCall.id) st hrun2 k hk
        rw [Bool.or_eq_true] at hrec
        show (List.contains [] k
          || (((tc :: tcs2).map ToolCall.id) ++ usedA rest).contains k) = true
        rcases hrec with h1 | h1
        · rw [contains_append_left h1]
          rw [Bool.or_true]
        · rw [contains_append_right h1]
          rw [Bool.or_true]
    | tool tid c =>
      rcases runT_tool_inv hrun with ⟨ps, hp, hrun2⟩
      rw [hp]
      by_cases hkt : (k == tid) = true
      · have hke : k = tid := beq_iff_eq.mp hkt
        rw [hke]
        rw [show ((tid :: ps).contains tid) = true from contains_head tid ps]
        rfl
      · have hk2 : (toolIds rest).contains k = true := by
          have hc : (tid :: toolIds rest).contains k = true := hk
          rw [contains_cons_eq, eq_false_of_ne_true hkt] at hc
          have hc2 : (false || (toolIds rest).contains k) = true := hc
          exact hc2
        have hrec := ih (some true) ps st hrun2 k hk2
        rw [Bool.or_eq_true] at hrec
        show ((tid :: ps).contains k || (usedA rest).contains k) = true
        rcases hrec with h1 | h1
        · rw [contains_tail tid h1]
          rfl
        · rw [h1]
          rw [Bool.or_true]

theorem orphanUsers_nil {led : List (String × String)} {used : List String}
    (h : led.all (fun p => used.contains p.1) = true) : orphanUsers led used = [] := by
  unfold orphanUsers
  have hf : led.filter (fun p => !(used.contains p.1)) = [] := by
    induction led with
    | nil => rfl
    | cons p rest ih =>
      rw [List.all_cons, Bool.and_eq_true] at h
      simp only [List.filter_cons]
      rw [h.1]
      rw [if_neg (by decide)]
      exact ih h.2
  rw [hf]
  rfl

theorem tools_prefix_eq (led : List (String × String)) (used : List String) :
    ∀ (ids : List String) (l : List NMsg),
    (l.take ids.length).map toolIdOf = ids.map some →
    l.all (outOk led used) = true →
    l.take ids.length
      = ids.map (fun id => NMsg.tool id ((ledgerLookup led id).getD placeholderResult)) := by
  intro ids
  induction ids with
  | nil => intro l _ _; rfl
  | cons id ids2 ih =>
    intro l hmap hall
    cases l with
    | nil => exact nomatch hmap
    | cons m rest =>
      rw [List.all_cons, Bool.and_eq_true] at hall
      rw [List.length_cons, List.take_succ_cons, List.map_cons, List.map_cons] at hmap
      have hhead : toolIdOf m = some id := by
        have := List.head_eq_of_cons_eq hmap
        exact this
      have htail : (rest.take ids2.length).map toolIdOf = ids2.map some :=
        List.tail_eq_of_cons_eq hmap
      cases m with
      | system c => exact nomatch hhead
      | user c => exact nomatch hhead
      | assistant c tcs => exact nomatch hhead
      | tool tid c =>
        have htid : tid = id := Option.some.inj hhead
        have hok : (!(tid == "") && (c == ((ledgerLookup led tid).getD placeholderResult))
            && used.contains tid) = true := hall.1
        rw [Bool.and_eq_true, Bool.and_eq_true] at hok
        have hc : c = (ledgerLookup led tid).getD placeholderResult := beq_iff_eq.mp hok.1.2
        rw [List.length_cons, List.take_succ_cons, List.map_cons]
        rw [htid] at hc
        rw [htid, hc, ih rest htail hall.2]

theorem step3_encode_fix (led led2 : List (String × String)) (used : List String)
    (fresh2 : Nat → String) :
    ∀ (l : List NMsg), l.all (outOk led used) = true →
    (∀ id c, (NMsg.tool id c) ∈ l →
      ledgerLookup led2 id = some ((ledgerLookup led id).getD placeholderResult)) →
    ∀ (side : Option Bool) (pend : List String) (st : Option Bool × List String)
      (ctr : Nat) (ch : Bool),
    runT side pend l = some (st.1, []) →
    step3 led2 fresh2 (l.map encodeNMsg) ctr ch
      = ⟨l.drop pend.length, usedA l, ctr, ch⟩ := by
  intro l
  induction l with
  | nil =>
    intro _ _ side pend st ctr ch hrun
    have hp : pend = [] := congrArg Prod.snd (Option.some.inj hrun)
    rw [hp]
    rfl
  | cons m rest ih =>
    intro hall hl2 side pend st ctr ch hrun
    rw [List.all_cons, Bool.and_eq_true] at hall
    have hl2r : ∀ id c, (NMsg.tool id c) ∈ rest →
        ledgerLookup led2 id = some ((ledgerLookup led id).getD placeholderResult) :=
      fun id c hm => hl2 id c (List.mem_cons_of_mem m hm)
    cases m with
    | system c => exact absurd hrun (fun h => runT_sys_inv h)
    | user c =>
      rcases runT_user_inv hrun with ⟨hp, _, hrun2⟩
      subst hp
      rw [List.map_cons, step3_user_eq led2 fresh2 (encodeNMsg (.user c))
        (rest.map encodeNMsg) ctr ch rfl rfl,
        show contentOf (encodeNMsg (.user c)) = c from rfl,
        processUserContent_fix hall.1,
        ih hall.2 hl2r (some true) [] st ctr ch hrun2]
      rfl
    | assistant c tcs =>
      cases tcs with
      | nil =>
        rcases runT_asst_nil_inv hrun with ⟨hp, _, hrun2⟩
        subst hp
        have hh : (!(jsBlank c) && List.all [] callOk) = true := hall.1
        rw [Bool.and_eq_true] at hh
        have hb : jsBlank c = false := bnot_true_elim hh.1
        rw [List.map_cons]
        show (⟨NMsg.assistant (processAssistantContent (.str c)) []
            :: (step3 led2 fresh2 (rest.map encodeNMsg) ctr (ch || false)).msgs,
          (step3 led2 fresh2 (rest.map encodeNMsg) ctr (ch || false)).used,
          (step3 led2 fresh2 (rest.map encodeNMsg) ctr (ch || false)).ctr,
          (step3 led2 fresh2 (rest.map encodeNMsg) ctr (ch || false)).changed⟩ : Step3Out)
          = ⟨(NMsg.assistant c [] :: rest).drop ([] : List String).length,
            usedA (NMsg.assistant c [] :: rest), ctr, ch⟩
        rw [Bool.or_false, processAssistantContent_fix hb,
          ih hall.2 hl2r (some false) [] st ctr ch hrun2]
        rfl
      | cons tc tcs2 =>
        rcases runT_asst_cons_inv hrun with ⟨hp, _, hrun2⟩
        subst hp
        have hh : (!(jsBlank c) && (tc :: tcs2).all callOk) = true := hall.1
        rw [Bool.and_eq_true] at hh
        have hb : jsBlank c = false := bnot_true_elim hh.1
        have hcall : (tc :: tcs2).all callOk = true := hh.2
        have hntc : normalizeToolCalls
            (((encodeNMsg (.assistant c (tc :: tcs2))).get "tool_calls").getD .null) fresh2 ctr
            = (tc :: tcs2, ctr) := by
          show ntcGo ((tc :: tcs2).map encodeToolCall) fresh2 ctr = (tc :: tcs2, ctr)
          exact ntcGo_encode (tc :: tcs2) fresh2 ctr hcall
        have hpref := runT_tools_prefix ((tc :: tcs2).map ToolCall.id) rest (some true)
          st.1 hrun2
        have htake : rest.take ((tc :: tcs2).map ToolCall.id).length
            = ((tc :: tcs2).map ToolCall.id).map
              (fun id => NMsg.tool id ((ledgerLookup led id).getD placeholderResult)) :=
          tools_prefix_eq led used ((tc :: tcs2).map ToolCall.id) rest hpref.1 hall.2
        have hlook : ∀ tc2 ∈ (tc :: tcs2), ledgerLookup led2 tc2.id
            = some ((ledgerLookup led tc2.id).getD placeholderResult) := by
          intro tc2 hm
          apply hl2 tc2.id ((ledgerLookup led tc2.id).getD placeholderResult)
          have hidm : tc2.id ∈ (tc :: tcs2).map ToolCall.id :=
            List.mem_map_of_mem ToolCall.id hm
          have hmem : NMsg.tool tc2.id ((ledgerLookup led tc2.id).getD placeholderResult)
              ∈ rest.take ((tc :: tcs2).map ToolCall.id).length := by
            rw [htake]
            exact List.mem_map.mpr ⟨tc2.id, hidm, rfl⟩
          exact List.mem_cons_of_mem _ (List.mem_of_mem_take hmem)
        have htools : (tc :: tcs2).map
            (fun tc2 => NMsg.tool tc2.id ((ledgerLookup led2 tc2.id).getD placeholderResult))
            = rest.take ((tc :: tcs2).map ToolCall.id).length := by
          rw [htake, List.map_map]
          refine List.map_congr_left ?_
          intro tc2 hm
          rw [hlook tc2 hm]
          rfl
        have hsynth : (tc :: tcs2).any
            (fun tc2 => (ledgerLookup led2 tc2.id).isNone) = false := by
          by_cases hs : (tc :: tcs2).any (fun tc2 => (ledgerLookup led2 tc2.id).isNone) = true
          · rcases List.any_eq_true.mp hs with ⟨tc2, hm, hnone⟩
            rw [hlook tc2 hm] at hnone
            exact nomatch hnone
          · exact eq_false_of_ne_true hs
        rw [List.map_cons, step3_asst_eq led2 fresh2 (encodeNMsg (.assistant c (tc :: tcs2)))
          (rest.map encodeNMsg) ctr ch rfl rfl rfl, hntc]
        dsimp only
        rw [show contentOf (encodeNMsg (.assistant c (tc :: tcs2))) = .str c from rfl,
          processAssistantContent_fix hb, hsynth, Bool.or_false, htools,
          ih hall.2 hl2r (some true) ((tc :: tcs2).map ToolCall.id) st ctr ch hrun2]
        dsimp only
        rw [List.cons_append, List.take_append_drop]
        rfl
    | tool tid c2 =>
      rcases runT_tool_inv hrun with ⟨ps, hp, hrun2⟩
      subst hp
      rw [List.map_cons, step3_tool_eq led2 fresh2 (encodeNMsg (.tool tid c2))
        (rest.map encodeNMsg) ctr ch rfl,
        ih hall.2 hl2r (some true) ps st ctr ch hrun2]
      rfl

theorem isAsstM_of_toolM {m : NMsg} (h : isToolM m = true) : isAsstM m = false := by
  cases m with
  | system c => rfl
  | user c => rfl
  | assistant c tcs => exact nomatch h
  | tool tid c => rfl

theorem step5Go_fix : ∀ (l : List NMsg) (prev : NMsg) (racc : List NMsg) (ch : Bool)
    (side : Option Bool) (pend : List String) (st : Option Bool × List String),
    runT side pend l = some st →
    (pend = [] → side = some (sideIsUser prev)) →
    (pend ≠ [] → isToolM prev = true ∨ (isAsstM prev = true ∧ hasToolCalls prev = true)) →
    step5Go (prev :: racc) ch l = ((prev :: racc).reverse ++ l, ch) := by
  intro l
  induction l with
  | nil =>
    intro prev racc ch side pend st _ _ _
    rw [step5Go_nil_eq, List.append_nil]
  | cons m rest ih =>
    intro prev racc ch side pend st hrun hinv1 hinv2
    cases m with
    | system c => exact absurd hrun (fun h => runT_sys_inv h)
    | user c =>
      rcases runT_user_inv hrun with ⟨hp, hside, hrun2⟩
      have hsp : side = some (sideIsUser prev) := hinv1 hp
      have hprevF : sideIsUser prev = false := by
        by_cases hs : sideIsUser prev = true
        · rw [hsp, hs] at hside
          exact nomatch hside
        · exact eq_false_of_ne_true hs
      rw [step5Go_step_eq,
        show (sideIsUser prev == sideIsUser (NMsg.user c)) = (sideIsUser prev == true)
          from rfl, hprevF]
      show step5Go (NMsg.user c :: prev :: racc) ch rest
        = ((prev :: racc).reverse ++ (NMsg.user c :: rest), ch)
      have hrec := ih (NMsg.user c) (prev :: racc) ch (some true) [] st hrun2
        (fun _ => rfl) (fun hne => absurd rfl hne)
      rw [hrec, List.reverse_cons, List.append_assoc]
      rfl
    | assistant c tcs =>
      have hnotool : isToolM (NMsg.assistant c tcs) = false := rfl
      cases tcs with
      | nil =>
        rcases runT_asst_nil_inv hrun with ⟨hp, hside, hrun2⟩
        have hsp : side = some (sideIsUser prev) := hinv1 hp
        have hprevT : sideIsUser prev = true := by
          by_cases hs : sideIsUser prev = true
          · exact hs
          · rw [hsp, eq_false_of_ne_true hs] at hside
            exact nomatch hside
        rw [step5Go_step_eq,
          show (sideIsUser prev == sideIsUser (NMsg.assistant c []))
            = (sideIsUser prev == false) from rfl, hprevT]
        show step5Go (NMsg.assistant c [] :: prev :: racc) ch rest
          = ((prev :: racc).reverse ++ (NMsg.assistant c [] :: rest), ch)
        have hrec := ih (NMsg.assistant c []) (prev :: racc) ch (some false) [] st hrun2
          (fun _ => rfl) (fun hne => absurd rfl hne)
        rw [hrec, List.reverse_cons, List.append_assoc]
        rfl
      | cons tc tcs2 =>
        rcases runT_asst_cons_inv hrun with ⟨hp, hside, hrun2⟩
        have hsp : side = some (sideIsUser prev) := hinv1 hp
        have hprevT : sideIsUser prev = true := by
          by_cases hs : sideIsUser prev = true
          · exact hs
          · rw [hsp, eq_false_of_ne_true hs] at hside
            exact nomatch hside
        rw [step5Go_step_eq,
          show (sideIsUser prev == sideIsUser (NMsg.assistant c (tc :: tcs2)))
            = (sideIsUser prev == false) from rfl, hprevT]
        show step5Go (NMsg.assistant c (tc :: tcs2) :: prev :: racc) ch rest
          = ((prev :: racc).reverse ++ (NMsg.assistant c (tc :: tcs2) :: rest), ch)
        have hrec := ih (NMsg.assistant c (tc :: tcs2)) (prev :: racc) ch (some true)
          ((tc :: tcs2).map ToolCall.id) st hrun2
          (fun hps => nomatch hps) (fun _ => Or.inr ⟨rfl, rfl⟩)
        rw [hrec, List.reverse_cons, List.append_assoc]
        rfl
    | tool tid c2 =>
      rcases runT_tool_inv hrun with ⟨ps, hp, hrun2⟩
      have hprev := hinv2 (by rw [hp]; exact List.cons_ne_nil _ _)
      rw [step5Go_step_eq]
      rcases hprev with hpt | ⟨hpa, hpc⟩
      · rw [isAsstM_of_toolM hpt, hpt]
        show step5Go (NMsg.tool tid c2 :: prev :: racc) ch rest
          = ((prev :: racc).reverse ++ (NMsg.tool tid c2 :: rest), ch)
        have hrec := ih (NMsg.tool tid c2) (prev :: racc) ch (some true) ps st hrun2
          (fun _ => rfl) (fun _ => Or.inl rfl)
        rw [hrec, List.reverse_cons, List.append_assoc]
        rfl
      · rw [hpa, hpc]
        show step5Go (NMsg.tool tid c2 :: prev :: racc) ch rest
          = ((prev :: racc).reverse ++ (NMsg.tool tid c2 :: rest), ch)
        have hrec := ih (NMsg.tool tid c2) (prev :: racc) ch (some true) ps st hrun2
          (fun _ => rfl) (fun _ => Or.inl rfl)
        rw [hrec, List.reverse_cons, List.append_assoc]
        rfl

theorem step5_fix {l : List NMsg} (h : chainOk l = true) (ch : Bool) :
    step5Go [] ch l = (l, ch) := by
  rcases chainOk_some h with ⟨sd, hrun⟩
  cases l with
  | nil => rfl
  | cons m rest =>
    rw [step5Go_start_eq]
    cases m with
    | system c => exact absurd hrun (fun h2 => runT_sys_inv h2)
    | user c =>
      rcases runT_user_inv hrun with ⟨_, _, hrun2⟩
      have hrec := step5Go_fix rest (NMsg.user c) [] ch (some true) [] (sd, []) hrun2
        (fun _ => rfl) (fun hne => absurd rfl hne)
      rw [hrec]
      rfl
    | assistant c tcs =>
      cases tcs with
      | nil =>
        rcases runT_asst_nil_inv hrun with ⟨_, _, hrun2⟩
        have hrec := step5Go_fix rest (NMsg.assistant c []) [] ch (some false) [] (sd, [])
          hrun2 (fun _ => rfl) (fun hne => absurd rfl hne)
        rw [hrec]
        rfl
      | cons tc tcs2 =>
        rcases runT_asst_cons_inv hrun with ⟨_, _, hrun2⟩
        have hrec := step5Go_fix rest (NMsg.assistant c (tc :: tcs2)) [] ch (some true)
          ((tc :: tcs2).map ToolCall.id) (sd, []) hrun2
          (fun hps => nomatch hps) (fun _ => Or.inr ⟨rfl, rfl⟩)
        rw [hrec]
        rfl
    | tool tid c =>
      rw [runT_tool_nil_eq] at hrun
      exact nomatch hrun

theorem normalizeMessages_fix (input : List JVal) (fresh fresh2 : Nat → String) :
    normalizeMessages ((normalizeMessages input fresh).1.map encodeNMsg) fresh2
      = ((normalizeMessages input fresh).1, false) := by
  rcases normalizeMessages_master input fresh with
    ⟨sysl, altl, hout, hsys, hsysok, hnos, hchain, hhead, haltok, hne⟩
  have hled : ledOk (inputLedger input) = true := ledOk_buildLedger (step1 input).2
  rw [hout] at hne
  rw [hout]
  have h1 : step1 ((sysl ++ altl).map encodeNMsg) = (sysl, altl.map encodeNMsg) :=
    step1_encode_split (inputLedger input) (invokedIds input fresh) sysl altl hsys hsysok hnos
  have htg : altl.all (toolsG (fun id => (ledgerLookup (inputLedger input) id).getD
      placeholderResult)) = true := by
    rw [List.all_eq_true]
    intro m hm
    cases m with
    | system c => rfl
    | user c => rfl
    | assistant c tcs => rfl
    | tool tid c =>
      have ho2 : (!(tid == "")
          && (c == ((ledgerLookup (inputLedger input) tid).getD placeholderResult))
          && (invokedIds input fresh).contains tid) = true :=
        List.all_eq_true.mp haltok _ hm
      rw [Bool.and_eq_true, Bool.and_eq_true] at ho2
      show (!(tid == "")
          && (c == (ledgerLookup (inputLedger input) tid).getD placeholderResult)
          && !(jsBlank ((ledgerLookup (inputLedger input) tid).getD placeholderResult))) = true
      rw [Bool.and_eq_true, Bool.and_eq_true]
      refine ⟨⟨ho2.1.1, ho2.1.2⟩, ?_⟩
      rw [lookup_getD_not_blank hled tid]
      rfl
  have hled2 : ∀ k, ledgerLookup (buildLedger (altl.map encodeNMsg)) k
      = if (toolIds altl).contains k
        then some ((ledgerLookup (inputLedger input) k).getD placeholderResult)
        else none :=
    fun k => step2_encode (fun id => (ledgerLookup (inputLedger input) id).getD
      placeholderResult) altl [] htg k
  rcases chainOk_some hchain with ⟨sd, hrun⟩
  have hl2 : ∀ id c, (NMsg.tool id c) ∈ altl →
      ledgerLookup (buildLedger (altl.map encodeNMsg)) id
        = some ((ledgerLookup (inputLedger input) id).getD placeholderResult) := by
    intro id c hm
    rw [hled2 id, if_pos (toolIds_mem hm)]
  have h3 : step3 (buildLedger (altl.map encodeNMsg)) fresh2 (altl.map encodeNMsg) 0 false
      = ⟨altl.drop ([] : List String).length, usedA altl, 0, false⟩ :=
    step3_encode_fix (inputLedger input) (buildLedger (altl.map encodeNMsg))
      (invokedIds input fresh) fresh2 altl haltok hl2 none [] (sd, []) 0 false hrun
  have hkeys : (buildLedger (altl.map encodeNMsg)).all
      (fun q => (usedA altl).contains q.1) = true :=
    step2_keys (fun id => (usedA altl).contains id) altl [] rfl
      (fun id c hm => toolIds_sub altl none [] (sd, []) hrun id (toolIds_mem hm))
  have horph : orphanUsers (buildLedger (altl.map encodeNMsg)) (usedA altl) = [] :=
    orphanUsers_nil hkeys
  have hstage3 : stage3 ((sysl ++ altl).map encodeNMsg) fresh2
      = ⟨altl, usedA altl, 0, false⟩ := by
    unfold stage3
    rw [show inputLedger ((sysl ++ altl).map encodeNMsg)
        = buildLedger (step1 ((sysl ++ altl).map encodeNMsg)).2 from rfl, h1]
    show step3 (buildLedger (altl.map encodeNMsg)) fresh2 (altl.map encodeNMsg) 0 false = _
    rw [h3]
    rfl
  have hstage5in : stage5in ((sysl ++ altl).map encodeNMsg) fresh2 = altl := by
    unfold stage5in
    rw [hstage3]
    show altl ++ orphanUsers (inputLedger ((sysl ++ altl).map encodeNMsg)) (usedA altl) = altl
    rw [show inputLedger ((sysl ++ altl).map encodeNMsg)
        = buildLedger (step1 ((sysl ++ altl).map encodeNMsg)).2 from rfl, h1]
    show altl ++ orphanUsers (buildLedger (altl.map encodeNMsg)) (usedA altl) = altl
    rw [horph, List.append_nil]
  have hstage5 : stage5 ((sysl ++ altl).map encodeNMsg) fresh2 = (altl, false) := by
    unfold stage5
    rw [hstage3, hstage5in]
    show step5Go [] (false || !(orphanUsers (inputLedger ((sysl ++ altl).map encodeNMsg))
        (usedA altl)).isEmpty) altl = (altl, false)
    rw [show inputLedger ((sysl ++ altl).map encodeNMsg)
        = buildLedger (step1 ((sysl ++ altl).map encodeNMsg)).2 from rfl, h1]
    show step5Go [] (false || !(orphanUsers (buildLedger (altl.map encodeNMsg))
        (usedA altl)).isEmpty) altl = (altl, false)
    rw [horph]
    show step5Go [] false altl = (altl, false)
    exact step5_fix hchain false
  have hstage6 : stage6 ((sysl ++ altl).map encodeNMsg) fresh2 = (altl, false) := by
    unfold stage6
    rw [hstage5]
    show step6 altl false = (altl, false)
    exact step6_fix hhead
  have hstage7 : stage7 ((sysl ++ altl).map encodeNMsg) fresh2 = (altl, false) := by
    unfold stage7
    rw [hstage6]
    show step7 altl = (altl, false)
    exact step7_id hled haltok
  have hstage8 : stage8 ((sysl ++ altl).map encodeNMsg) fresh2 = (sysl ++ altl, false) := by
    unfold stage8
    rw [hstage7, h1]
    show step8 sysl altl = (sysl ++ altl, false)
    rw [step8_eq,
      if_neg (show ¬((sysl ++ altl).isEmpty = true)
        from fun hemp => hne (List.isEmpty_iff.mp hemp))]
  have hstage9 : step9 (sysl ++ altl) = (sysl ++ altl, false) := by
    apply step9_id hled
    rw [List.all_append, Bool.and_eq_true]
    exact ⟨hsysok, haltok⟩
  rw [normalizeMessages_staged, hstage6, hstage7, hstage8]
  show ((step9 (sysl ++ altl)).1, false || false || false || (step9 (sysl ++ altl)).2)
    = (sysl ++ altl, false)
  rw [hstage9]
  rfl

theorem jSet_truthy (kvs : List (String × JVal)) (k : String) (x : JVal) :
    (jSet (.obj kvs) k x).truthy = true := by
  show (if kvs.any (fun p => p.1 == k) then
      JVal.obj (kvs.map (fun p => if p.1 == k then (k, x) else p))
    else JVal.obj (kvs ++ [(k, x)])).truthy = true
  by_cases hany : kvs.any (fun p => p.1 == k) = true
  · rw [if_pos hany]
    rfl
  · rw [if_neg hany]
    rfl

theorem find?_map_set_self (k : String) (x : JVal) : ∀ (kvs : List (String × JVal)),
    kvs.any (fun p => p.1 == k) = true →
    (kvs.map (fun p => if p.1 == k then (k, x) else p)).find? (fun p => p.1 == k)
      = some (k, x) := by
  intro kvs
  induction kvs with
  | nil => intro h; exact nomatch h
  | cons p rest ih =>
    intro h
    rw [List.map_cons]
    by_cases hp : (p.1 == k) = true
    · rw [if_pos hp]
      exact find?_cons_pos (fun p => p.1 == k) (k, x)
        (rest.map (fun p => if p.1 == k then (k, x) else p)) (beq_self_eq_true k)
    · have hp2 : (p.1 == k) = false := eq_false_of_ne_true hp
      rw [List.any_cons, hp2] at h
      have h2 : rest.any (fun p => p.1 == k) = true := h
      rw [if_neg hp,
        find?_cons_neg (fun p => p.1 == k) p
          (rest.map (fun p => if p.1 == k then (k, x) else p)) hp2]
      exact ih h2

theorem find?_append_single (k : String) (x : JVal) : ∀ (kvs : List (String × JVal)),
    kvs.any (fun p => p.1 == k) = false →
    (kvs ++ [(k, x)]).find? (fun p => p.1 == k) = some (k, x) := by
  intro kvs
  induction kvs with
  | nil =>
    intro _
    rw [List.nil_append]
    exact find?_cons_pos (fun p => p.1 == k) (k, x) [] (beq_self_eq_true k)
  | cons p rest ih =>
    intro h
    rw [List.any_cons, Bool.or_eq_false_iff] at h
    rw [List.cons_append, find?_cons_neg (fun p => p.1 == k) p (rest ++ [(k, x)]) h.1]
    exact ih h.2

theorem jSet_get_self (kvs : List (String × JVal)) (k : String) (x : JVal) :
    (jSet (.obj kvs) k x).get k = some x := by
  show (if kvs.any (fun p => p.1 == k) then
      JVal.obj (kvs.map (fun p => if p.1 == k then (k, x) else p))
    else JVal.obj (kvs ++ [(k, x)])).get k = some x
  by_cases hany : kvs.any (fun p => p.1 == k) = true
  · rw [if_pos hany]
    show ((kvs.map (fun p => if p.1 == k then (k, x) else p)).find?
        (fun p => p.1 == k)).map (fun p => p.2) = some x
    rw [find?_map_set_self k x kvs hany]
    rfl
  · rw [if_neg hany]
    show ((kvs ++ [(k, x)]).find? (fun p => p.1 == k)).map (fun p => p.2) = some x
    rw [find?_append_single k x kvs (eq_false_of_ne_true hany)]
    rfl

theorem mapP_id (k : String) (x : JVal) : ∀ (l : List (String × JVal)),
    (∀ p ∈ l, p.1 = k → p = (k, x)) →
    l.map (fun p => if p.1 == k then (k, x) else p) = l := by
  intro l
  induction l with
  | nil => intro _; rfl
  | cons p rest ih =>
    intro h
    rw [List.map_cons]
    by_cases hp : (p.1 == k) = true
    · rw [if_pos hp, ih (fun q hq hqk => h q (List.mem_cons_of_mem _ hq) hqk),
        ← h p (List.mem_cons_self _ _) (beq_iff_eq.mp hp)]
    · rw [if_neg hp, ih (fun q hq hqk => h q (List.mem_cons_of_mem _ hq) hqk)]

theorem jSet_idem (v : JVal) (k : String) (x : JVal) :
    jSet (jSet v k x) k x = jSet v k x := by
  cases v with
  | null => rfl
  | bool b => rfl
  | str s => rfl
  | arr xs => rfl
  | obj kvs =>
    by_cases hany : kvs.any (fun p => p.1 == k) = true
    · have hw : jSet (.obj kvs) k x
          = .obj (kvs.map (fun p => if p.1 == k then (k, x) else p)) := by
        show (if kvs.any (fun p => p.1 == k) then
            JVal.obj (kvs.map (fun p => if p.1 == k then (k, x) else p))
          else JVal.obj (kvs ++ [(k, x)]))
          = .obj (kvs.map (fun p => if p.1 == k then (k, x) else p))
        rw [if_pos hany]
      rw [hw]
      have hany2 : (kvs.map (fun p => if p.1 == k then (k, x) else p)).any
          (fun p => p.1 == k) = true := by
        rcases List.any_eq_true.mp hany with ⟨q, hq, hqk⟩
        apply List.any_eq_true.mpr
        refine ⟨(k, x), List.mem_map.mpr ⟨q, hq, ?_⟩, beq_self_eq_true k⟩
        rw [if_pos hqk]
      have hP : ∀ p ∈ kvs.map (fun p => if p.1 == k then (k, x) else p),
          p.1 = k → p = (k, x) := by
        intro p hp hpk
        rcases List.mem_map.mp hp with ⟨q, hq, hqp⟩
        by_cases hqk : (q.1 == k) = true
        · rw [if_pos hqk] at hqp
          rw [← hqp]
        · rw [if_neg hqk] at hqp
          rw [← hqp] at hpk
          exact absurd (beq_iff_eq.mpr hpk) hqk
      show (if (kvs.map (fun p => if p.1 == k then (k, x) else p)).any
          (fun p => p.1 == k) then
        JVal.obj ((kvs.map (fun p => if p.1 == k then (k, x) else p)).map
          (fun p => if p.1 == k then (k, x) else p))
      else JVal.obj ((kvs.map (fun p => if p.1 == k then (k, x) else p)) ++ [(k, x)]))
        = .obj (kvs.map (fun p => if p.1 == k then (k, x) else p))
      rw [if_pos hany2, mapP_id k x _ hP]
    · have hw : jSet (.obj kvs) k x = .obj (kvs ++ [(k, x)]) := by
        show (if kvs.any (fun p => p.1 == k) then
            JVal.obj (kvs.map (fun p => if p.1 == k then (k, x) else p))
          else JVal.obj (kvs ++ [(k, x)])) = .obj (kvs ++ [(k, x)])
        rw [if_neg hany]
      rw [hw]
      have hany2 : (kvs ++ [(k, x)]).any (fun p => p.1 == k) = true := by
        apply List.any_eq_true.mpr
        exact ⟨(k, x), List.mem_append_right _ (List.mem_cons_self _ _), beq_self_eq_true k⟩
      have hP : ∀ p ∈ kvs ++ [(k, x)], p.1 = k → p = (k, x) := by
        intro p hp hpk
        rcases List.mem_append.mp hp with hin | hin
        · have hbeq : (p.1 == k) = true := beq_iff_eq.mpr hpk
          exact absurd (List.any_eq_true.mpr ⟨p, hin, hbeq⟩) hany
        · exact List.mem_singleton.mp hin
      show (if (kvs ++ [(k, x)]).any (fun p => p.1 == k) then
        JVal.obj ((kvs ++ [(k, x)]).map (fun p => if p.1 == k then (k, x) else p))
      else JVal.obj ((kvs ++ [(k, x)]) ++ [(k, x)]))
        = .obj (kvs ++ [(k, x)])
      rw [if_pos hany2, mapP_id k x _ hP]

/-- C7: normalization is idempotent.  Re-running the engine on its own output
body returns that body unchanged and reports `changed = false`, for any pair
of fresh-id oracles. -/
theorem claim7_idempotent (body : JVal) (fresh fresh2 : Nat → String) :
    normalizeOpenAIChatCompletionsBody (normalizeOpenAIChatCompletionsBody body fresh).1 fresh2
      = ((normalizeOpenAIChatCompletionsBody body fresh).1, false) := by
  by_cases hb : body.truthy = true
  · rcases ha : asArr (body.get "messages") with _ | msgs
    · have h1 : normalizeOpenAIChatCompletionsBody body fresh = (body, false) := by
        unfold normalizeOpenAIChatCompletionsBody normalizeChatCompletionsMessages
        rw [if_pos hb, ha]
      rw [h1]
      show normalizeOpenAIChatCompletionsBody body fresh2 = (body, false)
      unfold normalizeOpenAIChatCompletionsBody normalizeChatCompletionsMessages
      rw [if_pos hb, ha]
    · have h1 : normalizeOpenAIChatCompletionsBody body fresh
          = (jSet body "messages" (.arr ((normalizeMessages msgs fresh).1.map encodeNMsg)),
            (normalizeMessages msgs fresh).2) := by
        unfold normalizeOpenAIChatCompletionsBody normalizeChatCompletionsMessages
        rw [if_pos hb, ha]
      rw [h1]
      have hobj : ∃ kvs, body = .obj kvs := by
        rcases hg : body.get "messages" with _ | v
        · rw [hg] at ha
          exact nomatch ha
        · exact get_some_obj hg
      rcases hobj with ⟨kvs, hbk⟩
      show normalizeOpenAIChatCompletionsBody
          (jSet body "messages" (.arr ((normalizeMessages msgs fresh).1.map encodeNMsg)))
          fresh2
        = (jSet body "messages" (.arr ((normalizeMessages msgs fresh).1.map encodeNMsg)),
          false)
      have hb2 : (jSet body "messages"
          (.arr ((normalizeMessages msgs fresh).1.map encodeNMsg))).truthy = true := by
        rw [hbk]
        exact jSet_truthy kvs "messages" _
      have ha2 : asArr ((jSet body "messages"
            (.arr ((normalizeMessages msgs fresh).1.map encodeNMsg))).get "messages")
          = some ((normalizeMessages msgs fresh).1.map encodeNMsg) := by
        rw [hbk, jSet_get_self kvs "messages" _]
        rfl
      unfold normalizeOpenAIChatCompletionsBody normalizeChatCompletionsMessages
      rw [if_pos hb2, ha2]
      show (jSet (jSet body "messages"
            (.arr ((normalizeMessages msgs fresh).1.map encodeNMsg))) "messages"
          (.arr ((normalizeMessages ((normalizeMessages msgs fresh).1.map encodeNMsg)
            fresh2).1.map encodeNMsg)),
        (normalizeMessages ((normalizeMessages msgs fresh).1.map encodeNMsg) fresh2).2)
        = (jSet body "messages"
            (.arr ((normalizeMessages msgs fresh).1.map encodeNMsg)), false)
      rw [normalizeMessages_fix msgs fresh fresh2]
      show (jSet (jSet body "messages"
            (.arr ((normalizeMessages msgs fresh).1.map encodeNMsg))) "messages"
          (.arr ((normalizeMessages msgs fresh).1.map encodeNMsg)), false)
        = (jSet body "messages"
            (.arr ((normalizeMessages msgs fresh).1.map encodeNMsg)), false)
      rw [jSet_idem body "messages" (.arr ((normalizeMessages msgs fresh).1.map encodeNMsg))]
  · have hbf : ¬ body.truthy = true := hb
    have h1 : normalizeOpenAIChatCompletionsBody body fresh = (body, false) := by
      unfold normalizeOpenAIChatCompletionsBody normalizeChatCompletionsMessages
      rw [if_neg hbf]
    rw [h1]
    show normalizeOpenAIChatCompletionsBody body fresh2 = (body, false)
    unfold normalizeOpenAIChatCompletionsBody normalizeChatCompletionsMessages
    rw [if_neg hbf]

end DOProxy
